import Mathlib

/-! Coverage-map decoders of `main.go`.

A shallow embedding of the text decoders `parseStatementMapSimple`,
`parseFunctionMapSimple`, `parseBranchMapSimple`, `parsePaths` and of the
coercion helper `toUint32`, together with the pieces of the Go standard
library they call (`strings.Trim`, `strconv.ParseUint`,
`regexp.FindAllStringSubmatch`).

Conventions.
* A Go `string` is a Lean `String`; the patterns of the source are ASCII and
  Go's engine walks the text rune by rune, so a text is read as its sequence
  of code points.
* `uint32`, `uint8` and `uint64` values are `Nat`; every conversion
  `uint32(x)` is written `x % 2 ^ 32`, `uint8(x)` is `x % 2 ^ 8`.
* A run-time panic (an index outside a slice) is the value `none`; a decoder
  therefore returns an `Option`.
* A Go `map[uint32]V` is an association list with at most one cell per key.
-/

namespace Canyon

/-! ## Data model -/

/-- The Go type `[4]uint32`. -/
abbrev Quad := Nat × Nat × Nat × Nat

/-- The record `StatementInfo` of the source. -/
structure StatementInfo where
  Line : Nat
  Column : Nat
  Length : Nat
  Count : Nat
  deriving DecidableEq, Repr

/-- The record `FunctionInfo` of the source. -/
structure FunctionInfo where
  Name : String
  Line : Nat
  StartPos : Quad
  EndPos : Quad
  deriving DecidableEq, Repr

/-- The record `BranchInfo` of the source; `Typ` is its field `Type`, a
`uint8`. -/
structure BranchInfo where
  Typ : Nat
  Line : Nat
  Position : Quad
  Paths : List Quad
  deriving DecidableEq, Repr

/-- A Go `map[uint32]V`: cells `(key, value)`, no key twice. -/
abbrev GoMap (V : Type) := List (Nat × V)

namespace GoMap

/-- The result of `make(map[uint32]V)`. -/
def empty {V : Type} : GoMap V := []

/-- The assignment `m[k] = v`: a cell already stored under `k` is replaced. -/
def insert {V : Type} (m : GoMap V) (k : Nat) (v : V) : GoMap V :=
  m.filter (fun e => e.1 != k) ++ [(k, v)]

/-- The read `m[k]` with its presence flag. -/
def find {V : Type} (m : GoMap V) (k : Nat) : Option V :=
  (m.find? (fun e => e.1 == k)).map Prod.snd

/-- The keys stored in the map. -/
def keys {V : Type} (m : GoMap V) : List Nat := m.map Prod.fst

end GoMap

/-! ## `strings.Trim` -/

namespace strings

/-- Membership of a character in a cutset. -/
def inCutset (cutset : String) (c : Char) : Bool := cutset.data.contains c

/-- `strings.Trim(s, cutset)`: every leading and every trailing character of
`s` that belongs to `cutset` is removed. -/
def Trim (s cutset : String) : String :=
  ⟨((s.data.dropWhile (inCutset cutset)).reverse.dropWhile (inCutset cutset)).reverse⟩

end strings

/-! ## `strconv.ParseUint` in base 10 -/

namespace strconv

/-- The two errors of `strconv`. -/
inductive NumError where
  | ErrSyntax
  | ErrRange
  deriving DecidableEq, Repr

/-- The constant `cutoff = maxUint64/10 + 1` of `ParseUint` in base 10. -/
def cutoff : Nat := (2 ^ 64 - 1) / 10 + 1

/-- The digit loop of `ParseUint` (base 10) with the accumulator `n`, a
`uint64`: a character that is no decimal digit ends the call with
`(0, ErrSyntax)`, an accumulator beyond `maxVal` ends it with
`(maxVal, ErrRange)`. -/
def ParseUintLoop (maxVal : Nat) : List Char → Nat → Nat × Option NumError
  | [], n => (n, none)
  | c :: cs, n =>
    if c.isDigit then
      let d := c.toNat - 48
      if n ≥ cutoff then (maxVal, some NumError.ErrRange)
      else
        let n10 := (n * 10) % 2 ^ 64
        let n1 := (n10 + d) % 2 ^ 64
        if n1 < n10 ∨ n1 > maxVal then (maxVal, some NumError.ErrRange)
        else ParseUintLoop maxVal cs n1
    else (0, some NumError.ErrSyntax)

/-- `strconv.ParseUint(s, 10, bitSize)`: the value and the error. -/
def ParseUint (s : String) (bitSize : Nat) : Nat × Option NumError :=
  if s.data = [] then (0, some NumError.ErrSyntax)
  else ParseUintLoop (2 ^ bitSize - 1) s.data 0

end strconv

/-! ## The regular expressions of the source

Each of the four patterns is a concatenation of literal characters and of
capture groups that hold one greedy repetition of a character class
(`(\d+)`, `([^']*)`, `([^\]]*)`).  Go gives a match the leftmost start and,
at that start, the result a backtracking search with greedy repetitions
finds first. -/

namespace regexp

/-- One element of a pattern. -/
inductive Item where
  /-- a literal character -/
  | lit (c : Char)
  /-- a capture group `(C+)` over the class `C` -/
  | capPlus (cls : Char → Bool)
  /-- a capture group `(C*)` over the class `C` -/
  | capStar (cls : Char → Bool)

/-- The greedy repetition of the class `cls`: `acc` is what the group has
taken so far; one more character is tried first, and only when the rest of
the pattern, `k`, fails after it the group stops where it is. -/
def greedy {R : Type} (cls : Char → Bool) (k : List Char → List Char → Option R) :
    List Char → List Char → Option R
  | acc, [] => k acc []
  | acc, c :: cs =>
    if cls c then
      match greedy cls k (acc ++ [c]) cs with
      | some r => some r
      | none => k acc (c :: cs)
    else k acc (c :: cs)

/-- Match a pattern at the start of the text: the texts of the capture
groups in order and the text left after the match. -/
def matchItems : List Item → List Char → Option (List (List Char) × List Char)
  | [], s => some ([], s)
  | Item.lit _ :: _, [] => none
  | Item.lit c :: rest, x :: xs => if x = c then matchItems rest xs else none
  | Item.capStar cls :: rest, s =>
    greedy cls (fun cap s1 => (matchItems rest s1).map (fun r => (cap :: r.1, r.2))) [] s
  | Item.capPlus _ :: _, [] => none
  | Item.capPlus cls :: rest, x :: xs =>
    if cls x then
      greedy cls (fun cap s1 => (matchItems rest s1).map (fun r => (cap :: r.1, r.2))) [x] xs
    else none

/-- The submatch slice of a match at the start of `s`: the whole match
first, then the capture groups. -/
def submatches (s : List Char) (r : List (List Char) × List Char) : List String :=
  (String.mk (s.take (s.length - r.2.length))) :: r.1.map String.mk

/-- The leftmost match in the text: its submatch slice and the text after
it. -/
def findFirst (re : List Item) : List Char → Option (List String × List Char)
  | [] => (matchItems re []).map (fun r => (submatches [] r, r.2))
  | c :: cs =>
    match matchItems re (c :: cs) with
    | some r => some (submatches (c :: cs) r, r.2)
    | none => findFirst re cs

/-- The successive non-overlapping matches; `fuel` bounds their number.
Each pattern of the source holds a literal, so no match is empty and the
search for the next match starts where the last one ended. -/
def findAll (re : List Item) : Nat → List Char → List (List String)
  | 0, _ => []
  | fuel + 1, s =>
    match findFirst re s with
    | none => []
    | some (m, rest) => m :: findAll re fuel rest

/-- `re.FindAllStringSubmatch(s, -1)`. -/
def FindAllStringSubmatch (re : List Item) (s : String) : List (List String) :=
  findAll re (s.data.length + 1) s.data

end regexp

open regexp

/-- The class `\d`. -/
def digit : Char → Bool := Char.isDigit

/-- The class `[^c]`. -/
def notChar (c : Char) : Char → Bool := fun x => x != c

/-- The pattern `(\d+):\((\d+),(\d+),(\d+),(\d+)\)` of
`parseStatementMapSimple`. -/
def statementRe : List Item :=
  [Item.capPlus digit, Item.lit ':', Item.lit '(',
   Item.capPlus digit, Item.lit ',', Item.capPlus digit, Item.lit ',',
   Item.capPlus digit, Item.lit ',', Item.capPlus digit, Item.lit ')']

/-- The pattern
`(\d+):\('([^']*)',(\d+),\((\d+),(\d+),(\d+),(\d+)\),\((\d+),(\d+),(\d+),(\d+)\)\)`
of `parseFunctionMapSimple`. -/
def functionRe : List Item :=
  [Item.capPlus digit, Item.lit ':', Item.lit '(', Item.lit '\'',
   Item.capStar (notChar '\''), Item.lit '\'', Item.lit ',',
   Item.capPlus digit, Item.lit ',', Item.lit '(',
   Item.capPlus digit, Item.lit ',', Item.capPlus digit, Item.lit ',',
   Item.capPlus digit, Item.lit ',', Item.capPlus digit, Item.lit ')',
   Item.lit ',', Item.lit '(',
   Item.capPlus digit, Item.lit ',', Item.capPlus digit, Item.lit ',',
   Item.capPlus digit, Item.lit ',', Item.capPlus digit, Item.lit ')',
   Item.lit ')']

/-- The pattern `(\d+):\((\d+),(\d+),\((\d+),(\d+),(\d+),(\d+)\),\[([^\]]*)\]\)`
of `parseBranchMapSimple`. -/
def branchRe : List Item :=
  [Item.capPlus digit, Item.lit ':', Item.lit '(',
   Item.capPlus digit, Item.lit ',', Item.capPlus digit, Item.lit ',',
   Item.lit '(',
   Item.capPlus digit, Item.lit ',', Item.capPlus digit, Item.lit ',',
   Item.capPlus digit, Item.lit ',', Item.capPlus digit, Item.lit ')',
   Item.lit ',', Item.lit '[', Item.capStar (notChar ']'), Item.lit ']',
   Item.lit ')']

/-- The pattern `\((\d+),(\d+),(\d+),(\d+)\)` of `parsePaths`. -/
def pathRe : List Item :=
  [Item.lit '(',
   Item.capPlus digit, Item.lit ',', Item.capPlus digit, Item.lit ',',
   Item.capPlus digit, Item.lit ',', Item.capPlus digit, Item.lit ')']

/-! ## The decoders -/

/-- The expression `uint32(v)` for `v, _ := strconv.ParseUint(m[i], 10, 32)`;
`none` when `i` is no index of `m`. -/
def field32 (m : List String) (i : Nat) : Option Nat := do
  let s ← m[i]?
  pure ((strconv.ParseUint s 32).1 % 2 ^ 32)

/-- The loop `for i := 0; i < 4; i++ { val, _ := strconv.ParseUint(match[off+i], 10, 32);
pos[i] = uint32(val) }` on a zeroed `[4]uint32`. -/
def readQuad (m : List String) (off : Nat) : Option Quad := do
  let v0 ← field32 m (off + 0)
  let v1 ← field32 m (off + 1)
  let v2 ← field32 m (off + 2)
  let v3 ← field32 m (off + 3)
  pure (v0, v1, v2, v3)

/-- The body of the loop of `parseStatementMapSimple` for one match. -/
def statementStep (result : GoMap StatementInfo) (m : List String) :
    Option (GoMap StatementInfo) :=
  if m.length = 6 then do
    let key ← field32 m 1
    let line ← field32 m 2
    let column ← field32 m 3
    let length ← field32 m 4
    let count ← field32 m 5
    pure (result.insert key
      { Line := line, Column := column, Length := length, Count := count })
  else pure result

/-- The function `parseStatementMapSimple` of the source. -/
def parseStatementMapSimple (mapStr : String) : Option (GoMap StatementInfo) :=
  let mapStr := strings.Trim mapStr "\x7b\x7d"
  let ms := regexp.FindAllStringSubmatch statementRe mapStr
  ms.foldlM statementStep GoMap.empty

/-- The body of the loop of `parseFunctionMapSimple` for one match. -/
def functionStep (result : GoMap FunctionInfo) (m : List String) :
    Option (GoMap FunctionInfo) :=
  if m.length = 12 then do
    let key ← field32 m 1
    let name ← m[2]?
    let line ← field32 m 3
    let startPos ← readQuad m 4
    let endPos ← readQuad m 8
    pure (result.insert key
      { Name := name, Line := line, StartPos := startPos, EndPos := endPos })
  else pure result

/-- The function `parseFunctionMapSimple` of the source. -/
def parseFunctionMapSimple (mapStr : String) : Option (GoMap FunctionInfo) :=
  let mapStr := strings.Trim mapStr "\x7b\x7d"
  let ms := regexp.FindAllStringSubmatch functionRe mapStr
  ms.foldlM functionStep GoMap.empty

/-- The body of the loop of `parsePaths` for one match. -/
def pathStep (paths : List Quad) (m : List String) : Option (List Quad) :=
  if m.length = 5 then do
    let path ← readQuad m 1
    pure (paths ++ [path])
  else pure paths

/-- The function `parsePaths` of the source. -/
def parsePaths (pathsStr : String) : Option (List Quad) :=
  let ms := regexp.FindAllStringSubmatch pathRe pathsStr
  ms.foldlM pathStep []

/-- The body of the loop of `parseBranchMapSimple` for one match. -/
def branchStep (result : GoMap BranchInfo) (m : List String) :
    Option (GoMap BranchInfo) :=
  if m.length = 9 then do
    let key ← field32 m 1
    let s2 ← m[2]?
    let branchType := (strconv.ParseUint s2 8).1
    let line ← field32 m 3
    let position ← readQuad m 4
    let pathsStr ← m[8]?
    let paths ← parsePaths pathsStr
    pure (result.insert key
      { Typ := branchType % 2 ^ 8, Line := line, Position := position, Paths := paths })
  else pure result

/-- The function `parseBranchMapSimple` of the source. -/
def parseBranchMapSimple (mapStr : String) : Option (GoMap BranchInfo) :=
  let mapStr := strings.Trim mapStr "\x7b\x7d"
  let ms := regexp.FindAllStringSubmatch branchRe mapStr
  ms.foldlM branchStep GoMap.empty

/-! ## The native fast path: `toUint32` -/

/-- A value of Go's `interface{}`: its dynamic type and its payload.  An
unsigned payload is a `Nat`, a signed one an `Int`; a floating-point value
is given by its bit pattern; `other` stands for a value of any further
dynamic type (a struct, a slice, a pointer, ...), named by `typeName`. -/
inductive GoValue where
  | uint8 (v : Nat)
  | uint16 (v : Nat)
  | uint32 (v : Nat)
  | uint64 (v : Nat)
  | uint (v : Nat)
  | int8 (v : Int)
  | int16 (v : Int)
  | int32 (v : Int)
  | int64 (v : Int)
  | int (v : Int)
  | float32 (bits : Nat)
  | float64 (bits : Nat)
  | bool (b : Bool)
  | string (s : String)
  | nil
  | other (typeName : String)
  deriving DecidableEq, Repr

namespace GoValue

/-- The payload lies in the range of the dynamic type (`int` and `uint` are
64 bits wide). -/
def inRange : GoValue → Bool
  | uint8 v => decide (v < 2 ^ 8)
  | uint16 v => decide (v < 2 ^ 16)
  | uint32 v => decide (v < 2 ^ 32)
  | uint64 v => decide (v < 2 ^ 64)
  | uint v => decide (v < 2 ^ 64)
  | int8 v => decide (-(2 ^ 7) ≤ v ∧ v < 2 ^ 7)
  | int16 v => decide (-(2 ^ 15) ≤ v ∧ v < 2 ^ 15)
  | int32 v => decide (-(2 ^ 31) ≤ v ∧ v < 2 ^ 31)
  | int64 v => decide (-(2 ^ 63) ≤ v ∧ v < 2 ^ 63)
  | int v => decide (-(2 ^ 63) ≤ v ∧ v < 2 ^ 63)
  | float32 b => decide (b < 2 ^ 32)
  | float64 b => decide (b < 2 ^ 64)
  | bool _ => true
  | string _ => true
  | nil => true
  | other _ => true

/-- The dynamic type is one of the five cases of the type switch of
`toUint32`. -/
def supported : GoValue → Bool
  | uint32 _ => true
  | uint64 _ => true
  | int _ => true
  | int32 _ => true
  | int64 _ => true
  | _ => false

/-- The number an integer value stands for (`none` for a value that is no
integer). -/
def number : GoValue → Option Int
  | uint8 v => some v
  | uint16 v => some v
  | uint32 v => some v
  | uint64 v => some v
  | uint v => some v
  | int8 v => some v
  | int16 v => some v
  | int32 v => some v
  | int64 v => some v
  | int v => some v
  | _ => none

end GoValue

/-- The function `toUint32` of the source. -/
def toUint32 : GoValue → Nat
  | GoValue.uint32 val => val
  | GoValue.uint64 val => val % 2 ^ 32
  | GoValue.int val => (val % 2 ^ 32).toNat
  | GoValue.int32 val => (val % 2 ^ 32).toNat
  | GoValue.int64 val => (val % 2 ^ 32).toNat
  | _ => 0

/-! ## The assembly of a record -/

/-- The record `ParsedCoverageRecord` of the source; the `time.Time` value
`Ts` is carried through unchanged and is kept as a number. -/
structure ParsedCoverageRecord where
  Hash : String
  StatementMap : GoMap StatementInfo
  FnMap : GoMap FunctionInfo
  BranchMap : GoMap BranchInfo
  RestoreStatementMap : GoMap StatementInfo
  RestoreFnMap : GoMap FunctionInfo
  RestoreBranchMap : GoMap BranchInfo
  Ts : Nat
  deriving DecidableEq, Repr

/-- The body of the loop `for key, stmt := range statementMap` of
`querySingleRecord` for one cell of the native map; an index outside `stmt`
is `none`. -/
def nativeStep (result : GoMap StatementInfo) (cell : Nat × List GoValue) :
    Option (GoMap StatementInfo) :=
  if cell.2.length ≥ 4 then do
    let s0 ← cell.2[0]?
    let s1 ← cell.2[1]?
    let s2 ← cell.2[2]?
    let s3 ← cell.2[3]?
    pure (result.insert cell.1
      { Line := toUint32 s0, Column := toUint32 s1, Length := toUint32 s2, Count := toUint32 s3 })
  else pure result

/-- The part of `querySingleRecord` that builds `parsedRecord` from the
values `rows.Scan` has filled in: the hash, the native statement map (its
cells visited in list order), the five text fields and the timestamp. -/
def querySingleRecord (hash : String) (statementMap : GoMap (List GoValue))
    (fnMapStr branchMapStr restoreStmtStr restoreFnStr restoreBranchStr : String) (ts : Nat) :
    Option ParsedCoverageRecord := do
  let stmts ← statementMap.foldlM nativeStep GoMap.empty
  let fnMap ← parseFunctionMapSimple fnMapStr
  let branchMap ← parseBranchMapSimple branchMapStr
  let restoreStmts ← parseStatementMapSimple restoreStmtStr
  let restoreFn ← parseFunctionMapSimple restoreFnStr
  let restoreBranch ← parseBranchMapSimple restoreBranchStr
  pure
    { Hash := hash, StatementMap := stmts, FnMap := fnMap, BranchMap := branchMap,
      RestoreStatementMap := restoreStmts, RestoreFnMap := restoreFn,
      RestoreBranchMap := restoreBranch, Ts := ts }

/-! ## The texts the decoders read

The definitions of this section describe input texts; they are no part of
the source. -/

/-- The base-10 text of a number. -/
def dec (n : Nat) : String := toString n

/-- The text `(a,b,c,d)` of a 4-tuple. -/
def quadText (q : Quad) : String :=
  "(" ++ dec q.1 ++ "," ++ dec q.2.1 ++ "," ++ dec q.2.2.1 ++ "," ++ dec q.2.2.2 ++ ")"

/-- The text `k:(a,b,c,d)` of a statement entry. -/
def statementEntry (k : Nat) (v : StatementInfo) : String :=
  dec k ++ ":" ++ quadText (v.Line, v.Column, v.Length, v.Count)

/-- The text `k:('name',l,(s1,s2,s3,s4),(e1,e2,e3,e4))` of a function entry. -/
def functionEntry (k : Nat) (v : FunctionInfo) : String :=
  dec k ++ ":('" ++ v.Name ++ "'," ++ dec v.Line ++ "," ++ quadText v.StartPos ++ "," ++
    quadText v.EndPos ++ ")"

/-- The concatenation of segments, each a separator followed by an entry. -/
def concatSegs : List (String × String) → String
  | [] => ""
  | g :: rest => g.1 ++ g.2 ++ concatSegs rest

/-- Entries joined by separators: each pair is the separator written before
the entry and the entry; no separator is written before the first entry. -/
def joinEntries : List (String × String) → String
  | [] => ""
  | g :: rest => g.2 ++ concatSegs rest

/-- The tuples of a path list, each written `(a,b,c,d)`, joined by commas. -/
def pathsText (paths : List Quad) : String :=
  joinEntries (paths.map (fun q => (",", quadText q)))

/-- The text `k:(t,l,(p1,p2,p3,p4),[paths])` of a branch entry. -/
def branchEntry (k : Nat) (v : BranchInfo) : String :=
  dec k ++ ":(" ++ dec v.Typ ++ "," ++ dec v.Line ++ "," ++ quadText v.Position ++ ",[" ++
    pathsText v.Paths ++ "])"

/-- The number a run of decimal digits denotes, continuing from `n`. -/
def digitsValue (n : Nat) (ds : List Char) : Nat :=
  ds.foldl (fun a c => a * 10 + (c.toNat - 48)) n

/-- The digit texts of a 4-tuple, the capture groups it fills. -/
def quadCaps (q : Quad) : List (List Char) :=
  [Nat.toDigits 10 q.1, Nat.toDigits 10 q.2.1, Nat.toDigits 10 q.2.2.1, Nat.toDigits 10 q.2.2.2]

/-- The text of a list of segments, each a separator followed by an entry. -/
def segText (segs : List (List Char × List Char × List (List Char))) : List Char :=
  (segs.map (fun g => g.1 ++ g.2.1)).flatten

/-- The values of a 4-tuple lie in the unsigned 32-bit range. -/
def Quad.inRange (q : Quad) : Prop :=
  q.1 < 2 ^ 32 ∧ q.2.1 < 2 ^ 32 ∧ q.2.2.1 < 2 ^ 32 ∧ q.2.2.2 < 2 ^ 32

/-- The fields of a statement entry lie in the unsigned 32-bit range. -/
def StatementInfo.inRange (v : StatementInfo) : Prop :=
  v.Line < 2 ^ 32 ∧ v.Column < 2 ^ 32 ∧ v.Length < 2 ^ 32 ∧ v.Count < 2 ^ 32

/-- The segment of a statement entry: the separator before it, its text and
the capture groups it fills. -/
def statementSeg (g : String × Nat × StatementInfo) :
    List Char × List Char × List (List Char) :=
  (g.1.data, (statementEntry g.2.1 g.2.2).data,
    Nat.toDigits 10 g.2.1 :: quadCaps (g.2.2.Line, g.2.2.Column, g.2.2.Length, g.2.2.Count))

/-- The segment of a path tuple. -/
def pathSeg (g : String × Quad) : List Char × List Char × List (List Char) :=
  (g.1.data, (quadText g.2).data, quadCaps g.2)

/-- The numbers of a function entry lie in the unsigned 32-bit range. -/
def FunctionInfo.inRange (v : FunctionInfo) : Prop :=
  v.Line < 2 ^ 32 ∧ Quad.inRange v.StartPos ∧ Quad.inRange v.EndPos

/-- The segment of a function entry. -/
def functionSeg (g : String × Nat × FunctionInfo) :
    List Char × List Char × List (List Char) :=
  (g.1.data, (functionEntry g.2.1 g.2.2).data,
    Nat.toDigits 10 g.2.1 :: g.2.2.Name.data :: Nat.toDigits 10 g.2.2.Line ::
      (quadCaps g.2.2.StartPos ++ quadCaps g.2.2.EndPos))

/-- The numbers of a branch entry lie in their ranges: the type in the
unsigned 8-bit range, the others in the unsigned 32-bit range. -/
def BranchInfo.inRange (v : BranchInfo) : Prop :=
  v.Typ < 2 ^ 8 ∧ v.Line < 2 ^ 32 ∧ Quad.inRange v.Position ∧ ∀ q ∈ v.Paths, Quad.inRange q

/-- The segment of a branch entry. -/
def branchSeg (g : String × Nat × BranchInfo) :
    List Char × List Char × List (List Char) :=
  (g.1.data, (branchEntry g.2.1 g.2.2).data,
    Nat.toDigits 10 g.2.1 :: Nat.toDigits 10 g.2.2.Typ :: Nat.toDigits 10 g.2.2.Line ::
      (quadCaps g.2.2.Position ++ [(pathsText g.2.2.Paths).data]))

/-- The number of capture groups of a pattern. -/
def groups : List Item → Nat
  | [] => 0
  | Item.lit _ :: rest => groups rest
  | Item.capPlus _ :: rest => groups rest + 1
  | Item.capStar _ :: rest => groups rest + 1

/-- The least number of characters a match of a pattern takes. -/
def minLen : List Item → Nat
  | [] => 0
  | Item.lit _ :: rest => minLen rest + 1
  | Item.capPlus _ :: rest => minLen rest + 1
  | Item.capStar _ :: rest => minLen rest

instance (q : Quad) : Decidable (Quad.inRange q) := by
  unfold Quad.inRange
  infer_instance

instance (v : StatementInfo) : Decidable (StatementInfo.inRange v) := by
  unfold StatementInfo.inRange
  infer_instance

instance (v : FunctionInfo) : Decidable (FunctionInfo.inRange v) := by
  unfold FunctionInfo.inRange
  infer_instance

instance (v : BranchInfo) : Decidable (BranchInfo.inRange v) := by
  unfold BranchInfo.inRange
  infer_instance

/-- What the native fast path stores for a sequence: the coercions of its
first four elements, when it has four. -/
def nativeCell : List GoValue → Option StatementInfo
  | a :: b :: c :: d :: _ =>
    some { Line := toUint32 a, Column := toUint32 b, Length := toUint32 c, Count := toUint32 d }
  | _ => none

/-- An integer of a width that `toUint32` supports, with a value in the
unsigned 32-bit range. -/
def GoValue.fitsUint32 (v : GoValue) : Bool :=
  match v.number with
  | some n => v.supported && v.inRange && decide (0 ≤ n ∧ n < 2 ^ 32)
  | none => false

/-- The capture groups of a match fit the pattern: one text for each group,
made of characters of the class of the group, and not empty for a group
`(C+)`. -/
def capsOk : List Item → List (List Char) → Prop
  | [], caps => caps = []
  | Item.lit _ :: rest, caps => capsOk rest caps
  | Item.capPlus cls :: rest, caps =>
    ∃ cap tl, caps = cap :: tl ∧ cap ≠ [] ∧ (∀ c ∈ cap, cls c = true) ∧ capsOk rest tl
  | Item.capStar cls :: rest, caps =>
    ∃ cap tl, caps = cap :: tl ∧ (∀ c ∈ cap, cls c = true) ∧ capsOk rest tl

/-- A non-empty run of ASCII decimal digits. -/
def IsDigitRun (s : String) : Prop :=
  s.data ≠ [] ∧ ∀ c ∈ s.data, c.isDigit = true

/-- The number a digit run denotes. -/
def runValue (s : String) : Nat := digitsValue 0 s.data

/-- What `strconv.ParseUint(s, 10, bits)` returns on a digit run: never a
syntax error; the value of the run without error when it is below
`2 ^ bits`, and `2 ^ bits - 1` with a range error when it is not. -/
def ParsesSaturating (s : String) (bits : Nat) : Prop :=
  (strconv.ParseUint s bits).2 ≠ some strconv.NumError.ErrSyntax ∧
    (runValue s < 2 ^ bits → strconv.ParseUint s bits = (runValue s, none)) ∧
    (2 ^ bits ≤ runValue s →
      strconv.ParseUint s bits = (2 ^ bits - 1, some strconv.NumError.ErrRange))

/-- The cell `i` of a submatch slice is a digit run, `strconv.ParseUint` with
bit size `bits` saturates on it, and the conversion of the result to `bits`
bits is the value of the run when that value fits. -/
def DigitField (m : List String) (i bits : Nat) : Prop :=
  ∃ ds, m[i]? = some ds ∧ IsDigitRun ds ∧ ParsesSaturating ds bits ∧
    (runValue ds < 2 ^ bits → (strconv.ParseUint ds bits).1 % 2 ^ bits = runValue ds)

/-- The value `v` cut down to the largest number of `bits` bits. -/
def sat (bits v : Nat) : Nat := min v (2 ^ bits - 1)

/-- The text `k:(t,l,(p1,p2,p3,p4),[x])` of a branch entry whose brackets
enclose the text `x`. -/
def branchEntryWith (k t l : Nat) (p : Quad) (x : String) : String :=
  dec k ++ ":(" ++ dec t ++ "," ++ dec l ++ "," ++ quadText p ++ ",[" ++ x ++ "])"

/-! ## Decimal digit runs and `strconv.ParseUint` -/

theorem digitsValue_nil (n : Nat) : digitsValue n [] = n := rfl

theorem digitsValue_cons (n : Nat) (c : Char) (cs : List Char) :
    digitsValue n (c :: cs) = digitsValue (n * 10 + (c.toNat - 48)) cs := rfl

theorem digitsValue_append (n : Nat) (xs ys : List Char) :
    digitsValue n (xs ++ ys) = digitsValue (digitsValue n xs) ys := by
  simp [digitsValue, List.foldl_append]

theorem le_digitsValue (ds : List Char) : ∀ n, n ≤ digitsValue n ds := by
  induction ds with
  | nil => intro n; exact le_refl n
  | cons c cs ih =>
    intro n
    rw [digitsValue_cons]
    exact le_trans (by omega) (ih _)

theorem isDigit_toNat_sub (c : Char) (h : c.isDigit = true) : c.toNat - 48 ≤ 9 := by
  simp [Char.isDigit] at h
  have h2 := h.2
  have : c.val.toNat ≤ 57 := by
    have := UInt32.le_def.mp h2
    simpa using this
  simp [Char.toNat]
  omega

/-- On a run of digits the loop of `ParseUint` returns the value of the run
when it fits below `maxVal`, and `maxVal` with a range error when it does
not. -/
theorem ParseUintLoop_digits (maxVal : Nat) (hmax : maxVal < 2 ^ 32) (ds : List Char)
    (hds : ∀ c ∈ ds, c.isDigit = true) :
    ∀ n, n ≤ maxVal →
      strconv.ParseUintLoop maxVal ds n =
        if digitsValue n ds ≤ maxVal then (digitsValue n ds, none)
        else (maxVal, some strconv.NumError.ErrRange) := by
  induction ds with
  | nil => intro n hn; simp [strconv.ParseUintLoop, digitsValue_nil, hn]
  | cons c cs ih =>
    intro n hn
    have hc : c.isDigit = true := hds c (List.mem_cons_self _ _)
    have hd := isDigit_toNat_sub c hc
    have hcs : ∀ x ∈ cs, x.isDigit = true := fun x hx => hds x (List.mem_cons_of_mem _ hx)
    have hcut : ¬ (n ≥ strconv.cutoff) := by
      simp only [strconv.cutoff]; norm_num; omega
    have h10 : (n * 10) % 2 ^ 64 = n * 10 := Nat.mod_eq_of_lt (by omega)
    have h1 : (n * 10 + (c.toNat - 48)) % 2 ^ 64 = n * 10 + (c.toNat - 48) :=
      Nat.mod_eq_of_lt (by omega)
    rw [strconv.ParseUintLoop]
    simp only [hc, if_true, hcut, if_false, h10, h1, digitsValue_cons]
    by_cases hov : n * 10 + (c.toNat - 48) > maxVal
    · have hge := le_digitsValue cs (n * 10 + (c.toNat - 48))
      have : ¬ (digitsValue (n * 10 + (c.toNat - 48)) cs ≤ maxVal) := by omega
      simp [hov, this]
    · have hlt : ¬ (n * 10 + (c.toNat - 48) < n * 10) := by omega
      simp only [hlt, hov, or_self, if_false]
      exact ih hcs _ (by omega)

theorem digitChar_spec : ∀ d, d < 10 →
    (Nat.digitChar d).isDigit = true ∧ (Nat.digitChar d).toNat - 48 = d := by
  decide

/-- What `Nat.toDigitsCore` adds in front of its accumulator: a non-empty run
of digits that denotes `n`. -/
theorem toDigitsCore_spec : ∀ (fuel n : Nat) (acc : List Char), n < fuel →
    ∃ ds, Nat.toDigitsCore 10 fuel n acc = ds ++ acc ∧ ds ≠ [] ∧
      (∀ c ∈ ds, c.isDigit = true) ∧ ∀ a, digitsValue a ds = a * 10 ^ ds.length + n := by
  intro fuel
  induction fuel with
  | zero => intro n acc h; omega
  | succ f ih =>
    intro n acc h
    have hd := digitChar_spec (n % 10) (Nat.mod_lt _ (by norm_num))
    by_cases h0 : n / 10 = 0
    · refine ⟨[Nat.digitChar (n % 10)], ?_, by simp, ?_, ?_⟩
      · simp [Nat.toDigitsCore, h0]
      · intro c hc; simp at hc; rw [hc]; exact hd.1
      · intro a
        simp only [digitsValue, List.foldl_cons, List.foldl_nil, hd.2, List.length_singleton]
        omega
    · obtain ⟨ds, h1, _, h3, h4⟩ := ih (n / 10) (Nat.digitChar (n % 10) :: acc) (by omega)
      refine ⟨ds ++ [Nat.digitChar (n % 10)], ?_, by simp, ?_, ?_⟩
      · simp [Nat.toDigitsCore, h0, h1]
      · intro c hc
        rcases List.mem_append.mp hc with hc | hc
        · exact h3 c hc
        · simp at hc; rw [hc]; exact hd.1
      · intro a
        rw [digitsValue_append, h4 a]
        simp only [digitsValue, List.foldl_cons, List.foldl_nil, hd.2, List.length_append,
          List.length_singleton, pow_succ]
        have := Nat.div_add_mod n 10
        nlinarith [this]

theorem toDigits_spec (n : Nat) :
    Nat.toDigits 10 n ≠ [] ∧ (∀ c ∈ Nat.toDigits 10 n, c.isDigit = true) ∧
      digitsValue 0 (Nat.toDigits 10 n) = n := by
  obtain ⟨ds, h1, h2, h3, h4⟩ := toDigitsCore_spec (n + 1) n [] (by omega)
  have : Nat.toDigits 10 n = ds := by simp [Nat.toDigits, h1]
  rw [this]
  exact ⟨h2, h3, by simpa using h4 0⟩

/-! ## The characters of the entry texts -/

theorem dec_data (n : Nat) : (dec n).data = Nat.toDigits 10 n := rfl

theorem quadText_data (a b c d : Nat) :
    (quadText (a, b, c, d)).data =
      '(' :: (Nat.toDigits 10 a ++ ',' :: (Nat.toDigits 10 b ++ ',' ::
        (Nat.toDigits 10 c ++ ',' :: (Nat.toDigits 10 d ++ [')'])))) := by
  simp [quadText, dec_data, String.data_append]

theorem statementEntry_data (k a b c d : Nat) :
    (statementEntry k ⟨a, b, c, d⟩).data =
      Nat.toDigits 10 k ++ ':' :: (quadText (a, b, c, d)).data := by
  simp [statementEntry, dec_data, String.data_append]

theorem functionEntry_data (k : Nat) (name : String) (l : Nat) (s e : Quad) :
    (functionEntry k ⟨name, l, s, e⟩).data =
      Nat.toDigits 10 k ++ ':' :: '(' :: '\'' :: (name.data ++ '\'' :: ',' ::
        (Nat.toDigits 10 l ++ ',' :: ((quadText s).data ++ ',' :: ((quadText e).data ++ [')'])))) := by
  simp [functionEntry, dec_data, String.data_append]


/-! ## The matcher on well-formed text -/

/-- A greedy group that meets a run `ds` of its class, then a character
outside the class: when the rest of the pattern accepts what follows the
run, that is the result. -/
theorem greedy_run {R : Type} (cls : Char → Bool) (k : List Char → List Char → Option R)
    (ds : List Char) (hds : ∀ c ∈ ds, cls c = true) (s : List Char)
    (hs : ∀ c t, s = c :: t → cls c = false) (r : R) :
    ∀ acc, k (acc ++ ds) s = some r → greedy cls k acc (ds ++ s) = some r := by
  induction ds with
  | nil =>
    intro acc hk
    simp only [List.append_nil, List.nil_append] at hk ⊢
    cases s with
    | nil => simpa [greedy] using hk
    | cons c t => simp [greedy, hs c t rfl, hk]
  | cons d ds ih =>
    intro acc hk
    have hd : cls d = true := hds d (List.mem_cons_self _ _)
    have := ih (fun c hc => hds c (List.mem_cons_of_mem _ hc)) (acc ++ [d]) (by simpa using hk)
    simp [greedy, hd, this]

theorem matchItems_lit (c : Char) (rest : List Item) (s : List Char) :
    matchItems (Item.lit c :: rest) (c :: s) = matchItems rest s := by
  simp [matchItems]

/-- The group `(C+)` on a non-empty run of `C` followed by text that the
rest of the pattern accepts. -/
theorem matchItems_capPlus (cls : Char → Bool) (rest : List Item) (ds s : List Char)
    (hne : ds ≠ []) (hds : ∀ c ∈ ds, cls c = true) (hs : ∀ c t, s = c :: t → cls c = false)
    (caps : List (List Char)) (out : List Char) (h : matchItems rest s = some (caps, out)) :
    matchItems (Item.capPlus cls :: rest) (ds ++ s) = some (ds :: caps, out) := by
  cases ds with
  | nil => exact absurd rfl hne
  | cons d ds =>
    have hd : cls d = true := hds d (List.mem_cons_self _ _)
    simp only [List.cons_append, matchItems, hd, if_true]
    apply greedy_run cls _ ds (fun c hc => hds c (List.mem_cons_of_mem _ hc)) s hs
    simp [h]

/-- The group `(C*)` on a run of `C` followed by text that the rest of the
pattern accepts. -/
theorem matchItems_capStar (cls : Char → Bool) (rest : List Item) (ds s : List Char)
    (hds : ∀ c ∈ ds, cls c = true) (hs : ∀ c t, s = c :: t → cls c = false)
    (caps : List (List Char)) (out : List Char) (h : matchItems rest s = some (caps, out)) :
    matchItems (Item.capStar cls :: rest) (ds ++ s) = some (ds :: caps, out) := by
  simp only [matchItems]
  apply greedy_run cls _ ds hds s hs
  simp [h]

/-- The group `(\d+)` on a decimal numeral followed by a literal of the
pattern that is no digit. -/
theorem matchItems_number (n : Nat) (c : Char) (hc : c.isDigit = false) (rest : List Item)
    (s : List Char) (caps : List (List Char)) (out : List Char)
    (h : matchItems rest s = some (caps, out)) :
    matchItems (Item.capPlus digit :: Item.lit c :: rest) (Nat.toDigits 10 n ++ c :: s) =
      some (Nat.toDigits 10 n :: caps, out) := by
  obtain ⟨h1, h2, _⟩ := toDigits_spec n
  apply matchItems_capPlus digit _ _ _ h1 h2
  · intro x t hx
    cases hx
    exact hc
  · rw [matchItems_lit]; exact h

/-- The part `\((\d+),(\d+),(\d+),(\d+)\)` of a pattern on the text of a
4-tuple. -/
theorem matchItems_quad (q : Quad) (rest : List Item) (s : List Char)
    (caps : List (List Char)) (out : List Char) (h : matchItems rest s = some (caps, out)) :
    matchItems (Item.lit '(' :: Item.capPlus digit :: Item.lit ',' :: Item.capPlus digit ::
        Item.lit ',' :: Item.capPlus digit :: Item.lit ',' :: Item.capPlus digit ::
        Item.lit ')' :: rest) ((quadText q).data ++ s) = some (quadCaps q ++ caps, out) := by
  obtain ⟨a, b, c, d⟩ := q
  rw [quadText_data]
  simp only [List.cons_append, List.append_assoc, List.nil_append, matchItems_lit, quadCaps]
  refine matchItems_number a ',' (by decide) _ _ _ _ ?_
  refine matchItems_number b ',' (by decide) _ _ _ _ ?_
  refine matchItems_number c ',' (by decide) _ _ _ _ ?_
  exact matchItems_number d ')' (by decide) _ _ _ _ h

theorem matchItems_nil (s : List Char) : matchItems [] s = some ([], s) := by
  simp [matchItems]

/-- The statement pattern matches the text of a statement entry, whatever
follows it. -/
theorem matchItems_statementEntry (k : Nat) (v : StatementInfo) (s : List Char) :
    matchItems statementRe ((statementEntry k v).data ++ s) =
      some (Nat.toDigits 10 k :: quadCaps (v.Line, v.Column, v.Length, v.Count), s) := by
  obtain ⟨a, b, c, d⟩ := v
  rw [statementEntry_data]
  simp only [List.cons_append, List.append_assoc, statementRe]
  refine matchItems_number k ':' (by decide) _ _ _ _ ?_
  simpa using matchItems_quad (a, b, c, d) [] s [] s (matchItems_nil s)

/-- The path pattern matches the text of a 4-tuple, whatever follows it. -/
theorem matchItems_pathEntry (q : Quad) (s : List Char) :
    matchItems pathRe ((quadText q).data ++ s) = some (quadCaps q, s) := by
  simpa [pathRe] using matchItems_quad q [] s [] s (matchItems_nil s)

/-- The function pattern matches the text of a function entry whose name
holds no single quote, whatever follows it. -/
theorem matchItems_functionEntry (k : Nat) (v : FunctionInfo)
    (hname : '\'' ∉ v.Name.data) (s : List Char) :
    matchItems functionRe ((functionEntry k v).data ++ s) =
      some (Nat.toDigits 10 k :: v.Name.data :: Nat.toDigits 10 v.Line ::
        (quadCaps v.StartPos ++ quadCaps v.EndPos), s) := by
  obtain ⟨name, l, sp, ep⟩ := v
  rw [functionEntry_data]
  simp only [List.cons_append, List.append_assoc, functionRe]
  refine matchItems_number k ':' (by decide) _ _ _ _ ?_
  simp only [matchItems_lit]
  refine matchItems_capStar _ _ _ _ ?_ ?_ _ _ ?_
  · intro c hc
    simp only [notChar, bne_iff_ne, ne_eq]
    rintro rfl
    exact hname hc
  · intro c t hct
    cases hct
    simp [notChar]
  simp only [matchItems_lit]
  refine matchItems_number l ',' (by decide) _ _ _ _ ?_
  refine matchItems_quad sp _ _ _ _ ?_
  simp only [matchItems_lit]
  have := matchItems_quad ep [Item.lit ')'] (')' :: s) [] s (by simp [matchItems])
  simpa using this

/-! ## The scan for all matches -/

theorem matchItems_capPlus_reject (cls : Char → Bool) (rest : List Item) (c : Char)
    (t : List Char) (h : cls c = false) :
    matchItems (Item.capPlus cls :: rest) (c :: t) = none := by
  simp [matchItems, h]

theorem matchItems_lit_reject (c0 : Char) (rest : List Item) (c : Char)
    (t : List Char) (h : c ≠ c0) :
    matchItems (Item.lit c0 :: rest) (c :: t) = none := by
  simp [matchItems, h]

theorem findFirst_cons_none (re : List Item) (c : Char) (cs : List Char)
    (h : matchItems re (c :: cs) = none) : findFirst re (c :: cs) = findFirst re cs := by
  simp [findFirst, h]

/-- Characters at which no match can start are passed over. -/
theorem findFirst_skip (re : List Item) (sep s : List Char)
    (h : ∀ c ∈ sep, ∀ t, matchItems re (c :: t) = none) :
    findFirst re (sep ++ s) = findFirst re s := by
  induction sep with
  | nil => rfl
  | cons c cs ih =>
    rw [List.cons_append, findFirst_cons_none re c _ (h c (List.mem_cons_self _ _) _)]
    exact ih (fun x hx => h x (List.mem_cons_of_mem _ hx))

theorem submatches_prefix (e s : List Char) (caps : List (List Char)) :
    submatches (e ++ s) (caps, s) = String.mk e :: caps.map String.mk := by
  simp only [submatches, List.length_append, Nat.add_sub_cancel]
  rw [List.take_left' rfl]

/-- A match at the very start of the text is the leftmost one. -/
theorem findFirst_entry (re : List Item) (e s : List Char) (caps : List (List Char))
    (hne : e ≠ []) (h : matchItems re (e ++ s) = some (caps, s)) :
    findFirst re (e ++ s) = some (String.mk e :: caps.map String.mk, s) := by
  have hs := submatches_prefix e s caps
  cases e with
  | nil => exact absurd rfl hne
  | cons c cs =>
    simp only [List.cons_append] at h hs ⊢
    simp [findFirst, h, hs]

/-- The scan of a text made of separators, at whose characters no match can
start, each followed by an entry that the pattern matches: the matches are
the entries, in text order. -/
theorem findAll_segments (re : List Item) (tail : List Char)
    (htail : findFirst re tail = none) :
    ∀ (segs : List (List Char × List Char × List (List Char))),
      (∀ g ∈ segs, ∀ c ∈ g.1, ∀ t, matchItems re (c :: t) = none) →
      (∀ g ∈ segs, g.2.1 ≠ [] ∧ ∀ s, matchItems re (g.2.1 ++ s) = some (g.2.2, s)) →
      ∀ fuel, (segText segs ++ tail).length < fuel →
        findAll re fuel (segText segs ++ tail) =
          segs.map (fun g => String.mk g.2.1 :: g.2.2.map String.mk) := by
  intro segs
  induction segs with
  | nil =>
    intro _ _ fuel hf
    cases fuel with
    | zero => omega
    | succ f => simp [segText, findAll, htail]
  | cons g gs ih =>
    intro hsep hent fuel hf
    obtain ⟨hne, hm⟩ := hent g (List.mem_cons_self _ _)
    have htxt : segText (g :: gs) ++ tail = g.1 ++ (g.2.1 ++ (segText gs ++ tail)) := by
      simp [segText, List.append_assoc]
    rw [htxt] at hf ⊢
    cases fuel with
    | zero => omega
    | succ f =>
      have hlen : 0 < g.2.1.length := List.length_pos.mpr hne
      simp only [findAll, findFirst_skip re g.1 _ (hsep g (List.mem_cons_self _ _)),
        findFirst_entry re g.2.1 _ g.2.2 hne (hm _), List.map_cons]
      rw [ih (fun x hx => hsep x (List.mem_cons_of_mem _ hx))
        (fun x hx => hent x (List.mem_cons_of_mem _ hx)) f]
      simp only [List.length_append] at hf ⊢
      omega

/-- A loop whose body succeeds on every match runs to its end. -/
theorem foldlM_map_some {A B C : Type} (step : C → B → Option C) (f : A → B) (g : C → A → C)
    (xs : List A) (h : ∀ acc, ∀ x ∈ xs, step acc (f x) = some (g acc x)) :
    ∀ init, (xs.map f).foldlM step init = some (xs.foldl g init) := by
  induction xs with
  | nil => intro init; rfl
  | cons x xs ih =>
    intro init
    simp only [List.map_cons, List.foldlM_cons, h init x (List.mem_cons_self _ _),
      List.foldl_cons]
    exact ih (fun acc y hy => h acc y (List.mem_cons_of_mem _ hy)) _

/-! ## `strings.Trim` on a braced text -/

theorem inCutset_braces (c : Char) :
    strings.inCutset "\x7b\x7d" c = false ↔ c ≠ '{' ∧ c ≠ '}' := by
  have h : "\x7b\x7d".data = ['{', '}'] := rfl
  simp [strings.inCutset, h]

theorem reverse_dropWhile_reverse (P : Char → Bool) (l : List Char)
    (h : ∀ c ∈ l.getLast?, P c = false) : (l.reverse.dropWhile P).reverse = l := by
  rcases List.eq_nil_or_concat l with rfl | ⟨i, z, rfl⟩
  · rfl
  · have hz : P z = false := h z (by simp)
    simp [List.dropWhile_cons, hz]

/-- The braces around a text that neither starts nor ends with a brace are
what `strings.Trim` removes. -/
theorem Trim_braces (body : List Char)
    (hhead : ∀ c ∈ body.head?, strings.inCutset "\x7b\x7d" c = false)
    (hlast : ∀ c ∈ body.getLast?, strings.inCutset "\x7b\x7d" c = false) :
    strings.Trim (String.mk ('{' :: (body ++ ['}']))) "\x7b\x7d" = String.mk body := by
  have h1 : strings.inCutset "\x7b\x7d" '{' = true := by decide
  have h2 : strings.inCutset "\x7b\x7d" '}' = true := by decide
  simp only [strings.Trim, List.dropWhile_cons, h1, if_true]
  congr 1
  cases body with
  | nil => simp [List.dropWhile, h2]
  | cons c t =>
    have hc : strings.inCutset "\x7b\x7d" c = false := hhead c (by simp)
    have hrev : (c :: (t ++ ['}'])).reverse = '}' :: (c :: t).reverse := by simp
    simp only [List.cons_append, List.dropWhile_cons, hc, Bool.false_eq_true, if_false]
    rw [hrev, List.dropWhile_cons, h2, if_pos rfl]
    exact reverse_dropWhile_reverse _ _ hlast
/-! ## The decoders on a braced list of entries -/

theorem ParseUint_dec (n bits : Nat) (hb : bits ≤ 32) (hn : n < 2 ^ bits) :
    strconv.ParseUint (String.mk (Nat.toDigits 10 n)) bits = (n, none) := by
  obtain ⟨h1, h2, h3⟩ := toDigits_spec n
  have hpow : 2 ^ bits ≤ 2 ^ 32 := Nat.pow_le_pow_right (by norm_num) hb
  have hloop := ParseUintLoop_digits (2 ^ bits - 1) (by omega) _ h2 0 (Nat.zero_le _)
  rw [h3] at hloop
  simp only [strconv.ParseUint, h1, if_false, hloop]
  rw [if_pos (by omega)]

theorem field32_dec (m : List String) (i n : Nat) (hn : n < 2 ^ 32)
    (hm : m[i]? = some (String.mk (Nat.toDigits 10 n))) : field32 m i = some n := by
  simp [field32, hm, ParseUint_dec n 32 (le_refl _) hn]
  omega

theorem readQuad_dec (m : List String) (off a b c d : Nat)
    (ha : a < 2 ^ 32) (hb : b < 2 ^ 32) (hc : c < 2 ^ 32) (hd : d < 2 ^ 32)
    (h0 : m[off]? = some (String.mk (Nat.toDigits 10 a)))
    (h1 : m[off + 1]? = some (String.mk (Nat.toDigits 10 b)))
    (h2 : m[off + 2]? = some (String.mk (Nat.toDigits 10 c)))
    (h3 : m[off + 3]? = some (String.mk (Nat.toDigits 10 d))) :
    readQuad m off = some (a, b, c, d) := by
  simp [readQuad, field32_dec m _ _ ha h0, field32_dec m _ _ hb h1, field32_dec m _ _ hc h2,
    field32_dec m _ _ hd h3]

theorem statementStep_entry (result : GoMap StatementInfo) (w : String) (k : Nat)
    (v : StatementInfo) (hk : k < 2 ^ 32) (hv : StatementInfo.inRange v) :
    statementStep result (w :: (Nat.toDigits 10 k ::
        quadCaps (v.Line, v.Column, v.Length, v.Count)).map String.mk) =
      some (result.insert k v) := by
  obtain ⟨a, b, c, d⟩ := v
  obtain ⟨ha, hb, hc, hd⟩ := hv
  simp only [quadCaps, List.map_cons, List.map_nil] at *
  simp [statementStep, field32_dec _ 1 k hk, field32_dec _ 2 a ha, field32_dec _ 3 b hb,
    field32_dec _ 4 c hc, field32_dec _ 5 d hd]

theorem segText_nil : segText [] = [] := rfl

theorem segText_cons (g : List Char × List Char × List (List Char))
    (gs : List (List Char × List Char × List (List Char))) :
    segText (g :: gs) = g.1 ++ (g.2.1 ++ segText gs) := by
  simp [segText]

theorem segText_getLast (z : Char) :
    ∀ segs : List (List Char × List Char × List (List Char)), segs ≠ [] →
      (∀ g ∈ segs, ∃ i, g.2.1 = i ++ [z]) → ∃ i, segText segs = i ++ [z] := by
  intro segs
  induction segs with
  | nil => intro h; exact absurd rfl h
  | cons g gs ih =>
    intro _ hall
    rw [segText_cons]
    cases gs with
    | nil =>
      obtain ⟨i, hi⟩ := hall g (List.mem_cons_self _ _)
      exact ⟨g.1 ++ i, by simp [segText_nil, hi]⟩
    | cons g2 gs2 =>
      obtain ⟨i, hi⟩ := ih (by simp) (fun x hx => hall x (List.mem_cons_of_mem _ hx))
      exact ⟨g.1 ++ (g.2.1 ++ i), by rw [hi]; simp⟩

/-- The scan of a braced text: separators at whose characters no match can
start, entries that the pattern matches, that start with no brace and end
with the character `z`, no brace either; nothing is written before the first
entry. -/
theorem scan_braced (re : List Item) (z : Char) (hz : strings.inCutset "\x7b\x7d" z = false)
    (hempty : findFirst re [] = none)
    (segs : List (List Char × List Char × List (List Char)))
    (hfirst : ∀ g ∈ segs.head?, g.1 = [])
    (hsep : ∀ g ∈ segs, ∀ c ∈ g.1, ∀ t, matchItems re (c :: t) = none)
    (hent : ∀ g ∈ segs, (∀ s, matchItems re (g.2.1 ++ s) = some (g.2.2, s)) ∧
      (∃ c t, g.2.1 = c :: t ∧ strings.inCutset "\x7b\x7d" c = false) ∧ ∃ i, g.2.1 = i ++ [z]) :
    FindAllStringSubmatch re
        (strings.Trim (String.mk ('{' :: (segText segs ++ ['}']))) "\x7b\x7d") =
      segs.map (fun g => String.mk g.2.1 :: g.2.2.map String.mk) := by
  have hhead : ∀ c ∈ (segText segs).head?, strings.inCutset "\x7b\x7d" c = false := by
    cases segs with
    | nil => intro c hc; simp [segText_nil] at hc
    | cons g gs =>
      intro c hc
      obtain ⟨_, ⟨c0, t, h0, hc0⟩, _⟩ := hent g (List.mem_cons_self _ _)
      have hg : g.1 = [] := hfirst g (by simp)
      rw [segText_cons, hg, h0] at hc
      simp at hc
      rw [← hc]; exact hc0
  have hlast : ∀ c ∈ (segText segs).getLast?, strings.inCutset "\x7b\x7d" c = false := by
    cases segs with
    | nil => intro c hc; simp [segText_nil] at hc
    | cons g gs =>
      intro c hc
      obtain ⟨i, hi⟩ := segText_getLast z (g :: gs) (by simp) (fun x hx => (hent x hx).2.2)
      rw [hi] at hc
      simp at hc
      rw [← hc]; exact hz
  rw [Trim_braces _ hhead hlast]
  have h := findAll_segments re [] hempty segs hsep
    (fun g hg => ⟨by
      obtain ⟨_, ⟨c, t, h0, _⟩, _⟩ := hent g hg
      rw [h0]; simp, (hent g hg).1⟩) ((segText segs).length + 1) (by simp)
  simpa [FindAllStringSubmatch] using h

theorem concatSegs_data (f : String × String → List Char × List Char × List (List Char))
    (hf : ∀ g, (f g).1 = g.1.data ∧ (f g).2.1 = g.2.data) :
    ∀ gs : List (String × String), (concatSegs gs).data = segText (gs.map f) := by
  intro gs
  induction gs with
  | nil => rfl
  | cons g gs ih =>
    simp only [concatSegs, String.data_append, List.map_cons, segText_cons, ih, (hf g).1,
      (hf g).2, List.append_assoc]

theorem statementEntry_head (k : Nat) (v : StatementInfo) :
    ∃ c t, (statementEntry k v).data = c :: t ∧ c.isDigit = true := by
  obtain ⟨h1, h2, _⟩ := toDigits_spec k
  obtain ⟨a, b, c, d⟩ := v
  rw [statementEntry_data]
  cases hk : Nat.toDigits 10 k with
  | nil => exact absurd hk h1
  | cons x xs => exact ⟨x, _, rfl, h2 x (by rw [hk]; exact List.mem_cons_self _ _)⟩

theorem quadText_last (q : Quad) : ∃ i, (quadText q).data = i ++ [')'] := by
  obtain ⟨a, b, c, d⟩ := q
  rw [quadText_data]
  exact ⟨'(' :: (Nat.toDigits 10 a ++ ',' :: (Nat.toDigits 10 b ++ ',' ::
    (Nat.toDigits 10 c ++ ',' :: Nat.toDigits 10 d))), by simp⟩

theorem statementEntry_last (k : Nat) (v : StatementInfo) :
    ∃ i, (statementEntry k v).data = i ++ [')'] := by
  obtain ⟨a, b, c, d⟩ := v
  obtain ⟨i, hi⟩ := quadText_last (a, b, c, d)
  rw [statementEntry_data, hi]
  exact ⟨Nat.toDigits 10 k ++ ':' :: i, by simp⟩

theorem isDigit_not_brace (c : Char) (h : c.isDigit = true) :
    strings.inCutset "\x7b\x7d" c = false := by
  rw [inCutset_braces]
  constructor <;> rintro rfl <;> simp [Char.isDigit] at h

theorem findFirst_nil_capPlus (cls : Char → Bool) (rest : List Item) :
    findFirst (Item.capPlus cls :: rest) [] = none := by
  simp [findFirst, matchItems]

theorem findFirst_nil_lit (c : Char) (rest : List Item) :
    findFirst (Item.lit c :: rest) [] = none := by
  simp [findFirst, matchItems]

theorem braced_data (body : String) :
    "\x7b" ++ body ++ "\x7d" = String.mk ('{' :: (body.data ++ ['}'])) := by
  apply String.ext
  simp [String.data_append]

theorem joinEntries_cons_data (f : String × String → List Char × List Char × List (List Char))
    (hf : ∀ g, (f g).1 = g.1.data ∧ (f g).2.1 = g.2.data) (g : String × String)
    (gs : List (String × String)) :
    (joinEntries (g :: gs)).data = segText ((("", g.2) :: gs).map f) := by
  simp only [joinEntries, String.data_append, List.map_cons, segText_cons,
    concatSegs_data f hf gs, (hf _).1, (hf _).2]
  rfl

/-- The statement decoder on a braced text of entries in range, separated by
texts without digits. -/
theorem parseStatement_segs (es : List (String × Nat × StatementInfo))
    (hfirst : ∀ g ∈ es.head?, g.1 = "")
    (hsep : ∀ g ∈ es, ∀ c ∈ g.1.data, c.isDigit = false)
    (hrange : ∀ g ∈ es, g.2.1 < 2 ^ 32 ∧ StatementInfo.inRange g.2.2) :
    parseStatementMapSimple (String.mk ('{' :: (segText (es.map statementSeg) ++ ['}']))) =
      some (es.foldl (fun m g => m.insert g.2.1 g.2.2) GoMap.empty) := by
  have hscan := scan_braced statementRe ')' (by decide) (findFirst_nil_capPlus _ _)
    (es.map statementSeg)
    (by
      cases es with
      | nil => intro g hg; simp at hg
      | cons e es =>
        intro g hg
        simp only [List.map_cons, List.head?_cons, Option.mem_def, Option.some.injEq] at hg
        subst hg
        have := hfirst e (by simp)
        simp [statementSeg, this])
    (by
      intro g hg c hc t
      obtain ⟨e, he, rfl⟩ := List.mem_map.mp hg
      exact matchItems_capPlus_reject _ _ _ _ (hsep e he c hc))
    (by
      intro g hg
      obtain ⟨e, he, rfl⟩ := List.mem_map.mp hg
      refine ⟨fun s => matchItems_statementEntry _ _ s, ?_, statementEntry_last _ _⟩
      obtain ⟨c, t, h1, h2⟩ := statementEntry_head e.2.1 e.2.2
      exact ⟨c, t, h1, isDigit_not_brace c h2⟩)
  simp only [parseStatementMapSimple, hscan, List.map_map]
  apply foldlM_map_some
  intro acc e he
  exact statementStep_entry acc _ _ _ (hrange e he).1 (hrange e he).2


/-- The statement decoder on a braced text of entries in range joined by
separators without digits: the entries are inserted in text order. -/
theorem parseStatement_joined (es : List (String × Nat × StatementInfo))
    (hsep : ∀ g ∈ es.tail, ∀ c ∈ g.1.data, c.isDigit = false)
    (hrange : ∀ g ∈ es, g.2.1 < 2 ^ 32 ∧ StatementInfo.inRange g.2.2) :
    parseStatementMapSimple
        ("\x7b" ++ joinEntries (es.map (fun g => (g.1, statementEntry g.2.1 g.2.2))) ++ "\x7d") =
      some (es.foldl (fun m g => m.insert g.2.1 g.2.2) GoMap.empty) := by
  cases es with
  | nil => decide
  | cons e es =>
    have hdata := joinEntries_cons_data
      (fun g => (g.1.data, g.2.data, ([] : List (List Char)))) (fun _ => ⟨rfl, rfl⟩)
      (e.1, statementEntry e.2.1 e.2.2) (es.map (fun g => (g.1, statementEntry g.2.1 g.2.2)))
    have htext : (joinEntries ((e :: es).map (fun g => (g.1, statementEntry g.2.1 g.2.2)))).data =
        segText ((("", e.2) :: es).map statementSeg) := by
      rw [List.map_cons, hdata]
      simp [segText, statementSeg, List.map_map, Function.comp_def]
    rw [braced_data, htext]
    have h := parseStatement_segs (("", e.2) :: es) (by simp)
      (by
        intro g hg c hc
        rcases List.mem_cons.mp hg with rfl | hg
        · simp at hc
        · exact hsep g (by simpa using hg) c hc)
      (by
        intro g hg
        rcases List.mem_cons.mp hg with rfl | hg
        · exact hrange e (List.mem_cons_self _ _)
        · exact hrange g (List.mem_cons_of_mem _ hg))
    rw [h]
    simp [List.foldl_cons]

theorem statement_text_eq (k a b c d : Nat) :
    "\x7b" ++ toString k ++ ":(" ++ toString a ++ "," ++ toString b ++ "," ++ toString c ++ "," ++
        toString d ++ ")\x7d" =
      "\x7b" ++ joinEntries ([("", k, (⟨a, b, c, d⟩ : StatementInfo))].map
        (fun g => (g.1, statementEntry g.2.1 g.2.2))) ++ "\x7d" := by
  apply String.ext
  simp [joinEntries, concatSegs, statementEntry, quadText, dec, String.data_append]

/-- C1. Statement decoder, single entry: for every key `k` and all `a`, `b`,
`c`, `d` in the unsigned 32-bit range, each written in base 10,
`parseStatementMapSimple` applied to the text `{k:(a,b,c,d)}` returns the
mapping with the single key `k`, whose value is
`StatementInfo{Line: a, Column: b, Length: c, Count: d}`. -/
theorem statement_single_entry (k a b c d : Nat) (hk : k < 2 ^ 32) (ha : a < 2 ^ 32)
    (hb : b < 2 ^ 32) (hc : c < 2 ^ 32) (hd : d < 2 ^ 32) :
    parseStatementMapSimple
        ("\x7b" ++ toString k ++ ":(" ++ toString a ++ "," ++ toString b ++ "," ++ toString c ++
          "," ++ toString d ++ ")\x7d") =
      some [(k, { Line := a, Column := b, Length := c, Count := d })] := by
  rw [statement_text_eq, parseStatement_joined _ (by simp)
    (by
      intro g hg
      simp only [List.mem_singleton] at hg
      subst hg
      exact ⟨hk, ha, hb, hc, hd⟩)]
  rfl

/-- The witness of C1: the entry `7:(1,2,3,4294967295)`. -/
theorem statement_single_entry_witness :
    (7 < 2 ^ 32 ∧ 1 < 2 ^ 32 ∧ 2 < 2 ^ 32 ∧ 3 < 2 ^ 32 ∧ 4294967295 < 2 ^ 32) ∧
      parseStatementMapSimple
          ("\x7b" ++ toString 7 ++ ":(" ++ toString 1 ++ "," ++ toString 2 ++ "," ++ toString 3 ++
            "," ++ toString 4294967295 ++ ")\x7d") =
        some [(7, { Line := 1, Column := 2, Length := 3, Count := 4294967295 })] :=
  ⟨by norm_num, statement_single_entry 7 1 2 3 4294967295 (by norm_num) (by norm_num)
    (by norm_num) (by norm_num) (by norm_num)⟩

/-! ## The path-list decoder -/

theorem quadText_ne_nil (q : Quad) : (quadText q).data ≠ [] := by
  obtain ⟨a, b, c, d⟩ := q
  rw [quadText_data]
  simp

theorem pathStep_entry (paths : List Quad) (w : String) (q : Quad) (hq : Quad.inRange q) :
    pathStep paths (w :: (quadCaps q).map String.mk) = some (paths ++ [q]) := by
  obtain ⟨a, b, c, d⟩ := q
  obtain ⟨ha, hb, hc, hd⟩ := hq
  simp only [quadCaps, List.map_cons, List.map_nil] at *
  simp [pathStep, readQuad_dec _ 1 a b c d ha hb hc hd]

theorem foldl_snoc {A B : Type} (f : A → B) (xs : List A) :
    ∀ init : List B, xs.foldl (fun acc x => acc ++ [f x]) init = init ++ xs.map f := by
  induction xs with
  | nil => intro init; simp
  | cons x xs ih => intro init; simp [ih]

/-- The path scan on tuples in range, each preceded by a separator that
holds no opening parenthesis: the tuples, in text order. -/
theorem parsePaths_segs (gs : List (String × Quad))
    (hsep : ∀ g ∈ gs, '(' ∉ g.1.data) (hrange : ∀ g ∈ gs, Quad.inRange g.2) :
    parsePaths (String.mk (segText (gs.map pathSeg))) = some (gs.map Prod.snd) := by
  have h := findAll_segments pathRe [] (findFirst_nil_lit _ _) (gs.map pathSeg)
    (by
      intro g hg c hc t
      obtain ⟨e, he, rfl⟩ := List.mem_map.mp hg
      apply matchItems_lit_reject
      rintro rfl
      exact hsep e he hc)
    (by
      intro g hg
      obtain ⟨e, he, rfl⟩ := List.mem_map.mp hg
      exact ⟨quadText_ne_nil _, fun s => matchItems_pathEntry _ s⟩)
    ((segText (gs.map pathSeg)).length + 1) (by simp)
  simp only [List.append_nil] at h
  simp only [parsePaths, FindAllStringSubmatch, h, List.map_map]
  refine (foldlM_map_some pathStep _ (fun acc g => acc ++ [g.2]) gs
    (fun acc g hg => pathStep_entry acc _ _ (hrange g hg)) []).trans ?_
  simp [foldl_snoc]

theorem pathsText_data (paths : List Quad) :
    ∃ gs : List (String × Quad), (pathsText paths).data = segText (gs.map pathSeg) ∧
      gs.map Prod.snd = paths ∧ ∀ g ∈ gs, g.1 = "" ∨ g.1 = "," := by
  cases paths with
  | nil => exact ⟨[], rfl, rfl, by simp⟩
  | cons q qs =>
    refine ⟨("", q) :: qs.map (fun p => (",", p)), ?_, ?_, ?_⟩
    · have hdata := joinEntries_cons_data
        (fun g => (g.1.data, g.2.data, ([] : List (List Char)))) (fun _ => ⟨rfl, rfl⟩)
        (",", quadText q) (qs.map (fun p => (",", quadText p)))
      rw [pathsText, List.map_cons, hdata]
      simp [segText, pathSeg, List.map_map, Function.comp_def]
    · simp [List.map_map, Function.comp_def]
    · intro g hg
      rcases List.mem_cons.mp hg with rfl | hg
      · exact Or.inl rfl
      · obtain ⟨p, _, rfl⟩ := List.mem_map.mp hg
        exact Or.inr rfl

/-- The path-list decoder on the text of a list of tuples in range. -/
theorem parsePaths_pathsText (paths : List Quad) (hrange : ∀ q ∈ paths, Quad.inRange q) :
    parsePaths (pathsText paths) = some paths := by
  obtain ⟨gs, h1, h2, h3⟩ := pathsText_data paths
  have h := parsePaths_segs gs
    (by
      intro g hg
      rcases h3 g hg with h | h <;> rw [h] <;> decide)
    (by
      intro g hg
      apply hrange
      rw [← h2]
      exact List.mem_map_of_mem _ hg)
  rw [← h1, h2] at h
  exact h

/-- C4. The path-list decoder keeps order and duplicates: for every list `L`
of 4-tuples of unsigned 32-bit values, repeated tuples allowed, `parsePaths`
applied to the tuples of `L` written `(a,b,c,d)` and joined by commas returns
`L` itself, hence a sequence of the same length in the same order; and the
text `(0,0,1,1),(0,1,1,2)` yields the two tuples `(0,0,1,1)`, `(0,1,1,2)`. -/
theorem parsePaths_keeps_order (L : List Quad) (hL : ∀ q ∈ L, Quad.inRange q) :
    parsePaths (pathsText L) = some L ∧
      (∀ r, parsePaths (pathsText L) = some r → r.length = L.length) ∧
      parsePaths "(0,0,1,1),(0,1,1,2)" = some [(0, 0, 1, 1), (0, 1, 1, 2)] := by
  have h := parsePaths_pathsText L hL
  refine ⟨h, ?_, by decide⟩
  intro r hr
  rw [h] at hr
  cases hr
  rfl

/-- The witness of C4: a list with a repeated tuple. -/
theorem parsePaths_keeps_order_witness :
    (∀ q ∈ [((3, 4, 5, 6) : Quad), (0, 0, 1, 1), (3, 4, 5, 6)], Quad.inRange q) ∧
      parsePaths (pathsText [(3, 4, 5, 6), (0, 0, 1, 1), (3, 4, 5, 6)]) =
        some [(3, 4, 5, 6), (0, 0, 1, 1), (3, 4, 5, 6)] :=
  have h : ∀ q ∈ [((3, 4, 5, 6) : Quad), (0, 0, 1, 1), (3, 4, 5, 6)], Quad.inRange q := by
    intro q hq
    simp only [List.mem_cons, List.mem_singleton, List.not_mem_nil, or_false] at hq
    rcases hq with rfl | rfl | rfl <;> simp [Quad.inRange]
  ⟨h, (parsePaths_keeps_order _ h).1⟩

/-! ## The function decoder -/

theorem functionStep_entry (result : GoMap FunctionInfo) (w : String) (k : Nat)
    (v : FunctionInfo) (hk : k < 2 ^ 32) (hv : FunctionInfo.inRange v) :
    functionStep result (w :: (Nat.toDigits 10 k :: v.Name.data :: Nat.toDigits 10 v.Line ::
        (quadCaps v.StartPos ++ quadCaps v.EndPos)).map String.mk) =
      some (result.insert k v) := by
  obtain ⟨name, l, ⟨s1, s2, s3, s4⟩, ⟨e1, e2, e3, e4⟩⟩ := v
  obtain ⟨hl, ⟨hs1, hs2, hs3, hs4⟩, ⟨he1, he2, he3, he4⟩⟩ := hv
  simp only [quadCaps, List.map_cons, List.map_nil, List.cons_append, List.nil_append] at *
  simp [functionStep, field32_dec _ 1 k hk, field32_dec _ 3 l hl,
    readQuad_dec _ 4 s1 s2 s3 s4 hs1 hs2 hs3 hs4, readQuad_dec _ 8 e1 e2 e3 e4 he1 he2 he3 he4]

theorem functionEntry_head (k : Nat) (v : FunctionInfo) :
    ∃ c t, (functionEntry k v).data = c :: t ∧ c.isDigit = true := by
  obtain ⟨h1, h2, _⟩ := toDigits_spec k
  obtain ⟨name, l, sp, ep⟩ := v
  rw [functionEntry_data]
  cases hk : Nat.toDigits 10 k with
  | nil => exact absurd hk h1
  | cons x xs => exact ⟨x, _, rfl, h2 x (by rw [hk]; exact List.mem_cons_self _ _)⟩

theorem functionEntry_last (k : Nat) (v : FunctionInfo) :
    ∃ i, (functionEntry k v).data = i ++ [')'] := by
  obtain ⟨name, l, sp, ep⟩ := v
  rw [functionEntry_data]
  exact ⟨Nat.toDigits 10 k ++ ':' :: '(' :: '\'' :: (name.data ++ '\'' :: ',' ::
    (Nat.toDigits 10 l ++ ',' :: ((quadText sp).data ++ ',' :: (quadText ep).data))), by simp⟩

/-- The function decoder on a braced text of entries in range, with names
free of single quotes, separated by texts without digits. -/
theorem parseFunction_segs (es : List (String × Nat × FunctionInfo))
    (hfirst : ∀ g ∈ es.head?, g.1 = "")
    (hsep : ∀ g ∈ es, ∀ c ∈ g.1.data, c.isDigit = false)
    (hrange : ∀ g ∈ es, g.2.1 < 2 ^ 32 ∧ FunctionInfo.inRange g.2.2 ∧
      '\'' ∉ g.2.2.Name.data) :
    parseFunctionMapSimple (String.mk ('{' :: (segText (es.map functionSeg) ++ ['}']))) =
      some (es.foldl (fun m g => m.insert g.2.1 g.2.2) GoMap.empty) := by
  have hscan := scan_braced functionRe ')' (by decide) (findFirst_nil_capPlus _ _)
    (es.map functionSeg)
    (by
      cases es with
      | nil => intro g hg; simp at hg
      | cons e es =>
        intro g hg
        simp only [List.map_cons, List.head?_cons, Option.mem_def, Option.some.injEq] at hg
        subst hg
        have := hfirst e (by simp)
        simp [functionSeg, this])
    (by
      intro g hg c hc t
      obtain ⟨e, he, rfl⟩ := List.mem_map.mp hg
      exact matchItems_capPlus_reject _ _ _ _ (hsep e he c hc))
    (by
      intro g hg
      obtain ⟨e, he, rfl⟩ := List.mem_map.mp hg
      refine ⟨fun s => matchItems_functionEntry _ _ (hrange e he).2.2 s, ?_,
        functionEntry_last _ _⟩
      obtain ⟨c, t, h1, h2⟩ := functionEntry_head e.2.1 e.2.2
      exact ⟨c, t, h1, isDigit_not_brace c h2⟩)
  simp only [parseFunctionMapSimple, hscan, List.map_map]
  apply foldlM_map_some
  intro acc e he
  exact functionStep_entry acc _ _ _ (hrange e he).1 (hrange e he).2.1

/-- The function decoder on a braced text of entries joined by separators
without digits: the entries are inserted in text order. -/
theorem parseFunction_joined (es : List (String × Nat × FunctionInfo))
    (hsep : ∀ g ∈ es.tail, ∀ c ∈ g.1.data, c.isDigit = false)
    (hrange : ∀ g ∈ es, g.2.1 < 2 ^ 32 ∧ FunctionInfo.inRange g.2.2 ∧
      '\'' ∉ g.2.2.Name.data) :
    parseFunctionMapSimple
        ("\x7b" ++ joinEntries (es.map (fun g => (g.1, functionEntry g.2.1 g.2.2))) ++ "\x7d") =
      some (es.foldl (fun m g => m.insert g.2.1 g.2.2) GoMap.empty) := by
  cases es with
  | nil => decide
  | cons e es =>
    have hdata := joinEntries_cons_data
      (fun g => (g.1.data, g.2.data, ([] : List (List Char)))) (fun _ => ⟨rfl, rfl⟩)
      (e.1, functionEntry e.2.1 e.2.2) (es.map (fun g => (g.1, functionEntry g.2.1 g.2.2)))
    have htext : (joinEntries ((e :: es).map (fun g => (g.1, functionEntry g.2.1 g.2.2)))).data =
        segText ((("", e.2) :: es).map functionSeg) := by
      rw [List.map_cons, hdata]
      simp [segText, functionSeg, List.map_map, Function.comp_def]
    rw [braced_data, htext]
    have h := parseFunction_segs (("", e.2) :: es) (by simp)
      (by
        intro g hg c hc
        rcases List.mem_cons.mp hg with rfl | hg
        · simp at hc
        · exact hsep g (by simpa using hg) c hc)
      (by
        intro g hg
        rcases List.mem_cons.mp hg with rfl | hg
        · exact hrange e (List.mem_cons_self _ _)
        · exact hrange g (List.mem_cons_of_mem _ hg))
    rw [h]
    simp [List.foldl_cons]

theorem function_text_eq (k : Nat) (name : String) (l : Nat) (s e : Quad) :
    "\x7b" ++ toString k ++ ":('" ++ name ++ "'," ++ toString l ++ "," ++ quadText s ++ "," ++
        quadText e ++ ")\x7d" =
      "\x7b" ++ joinEntries ([("", k, (⟨name, l, s, e⟩ : FunctionInfo))].map
        (fun g => (g.1, functionEntry g.2.1 g.2.2))) ++ "\x7d" := by
  apply String.ext
  simp [joinEntries, concatSegs, functionEntry, dec, String.data_append]

/-- C2. Function decoder, single entry: for every key `k`, line `l` and eight
position values in the unsigned 32-bit range, and every name that holds no
single quote (the empty name included), `parseFunctionMapSimple` applied to
`{k:('name',l,(s1,s2,s3,s4),(e1,e2,e3,e4))}` returns the mapping with the
single key `k`, whose value is `FunctionInfo{Name: name, Line: l, StartPos:
(s1,s2,s3,s4), EndPos: (e1,e2,e3,e4)}`; and
`5:('myFunc',10,(1,2,3,4),(5,6,7,8))` decodes to key 5 with name `myFunc`,
line 10, start position (1,2,3,4) and end position (5,6,7,8). -/
theorem function_single_entry (k l : Nat) (name : String) (s e : Quad) (hk : k < 2 ^ 32)
    (hl : l < 2 ^ 32) (hs : Quad.inRange s) (he : Quad.inRange e)
    (hname : '\'' ∉ name.data) :
    parseFunctionMapSimple
        ("\x7b" ++ toString k ++ ":('" ++ name ++ "'," ++ toString l ++ "," ++ quadText s ++ "," ++
          quadText e ++ ")\x7d") =
      some [(k, { Name := name, Line := l, StartPos := s, EndPos := e })] ∧
    parseFunctionMapSimple "5:('myFunc',10,(1,2,3,4),(5,6,7,8))" =
      some [(5,
        { Name := "myFunc", Line := 10, StartPos := (1, 2, 3, 4), EndPos := (5, 6, 7, 8) })] := by
  refine ⟨?_, by decide⟩
  rw [function_text_eq, parseFunction_joined _ (by simp)
    (by
      intro g hg
      simp only [List.mem_singleton] at hg
      subst hg
      exact ⟨hk, ⟨hl, hs, he⟩, hname⟩)]
  rfl

/-- The witness of C2: an entry with the empty name. -/
theorem function_single_entry_witness :
    (3 < 2 ^ 32 ∧ 10 < 2 ^ 32 ∧ Quad.inRange (1, 2, 3, 4) ∧ Quad.inRange (5, 6, 7, 8) ∧
        '\'' ∉ "".data) ∧
      parseFunctionMapSimple
          ("\x7b" ++ toString 3 ++ ":('" ++ "" ++ "'," ++ toString 10 ++ "," ++
            quadText (1, 2, 3, 4) ++ "," ++ quadText (5, 6, 7, 8) ++ ")\x7d") =
        some [(3, { Name := "", Line := 10, StartPos := (1, 2, 3, 4), EndPos := (5, 6, 7, 8) })] :=
  ⟨by decide, (function_single_entry 3 10 "" (1, 2, 3, 4) (5, 6, 7, 8) (by decide) (by decide)
    (by decide) (by decide) (by decide)).1⟩

/-! ## The branch decoder -/

theorem branchEntry_data (k t l : Nat) (p : Quad) (paths : List Quad) :
    (branchEntry k ⟨t, l, p, paths⟩).data =
      Nat.toDigits 10 k ++ ':' :: '(' :: (Nat.toDigits 10 t ++ ',' :: (Nat.toDigits 10 l ++ ',' ::
        ((quadText p).data ++ ',' :: '[' :: ((pathsText paths).data ++ [']', ')'])))) := by
  simp [branchEntry, dec_data, String.data_append]

theorem mem_quadText (q : Quad) (c : Char) (hc : c ∈ (quadText q).data) :
    c.isDigit = true ∨ c = '(' ∨ c = ',' ∨ c = ')' := by
  obtain ⟨a, b, x, d⟩ := q
  rw [quadText_data] at hc
  simp only [List.mem_cons, List.mem_append, List.mem_singleton, List.not_mem_nil,
    or_false] at hc
  rcases hc with h | h | h | h | h | h | h | h | h
  · exact Or.inr (Or.inl h)
  · exact Or.inl ((toDigits_spec a).2.1 c h)
  · exact Or.inr (Or.inr (Or.inl h))
  · exact Or.inl ((toDigits_spec b).2.1 c h)
  · exact Or.inr (Or.inr (Or.inl h))
  · exact Or.inl ((toDigits_spec x).2.1 c h)
  · exact Or.inr (Or.inr (Or.inl h))
  · exact Or.inl ((toDigits_spec d).2.1 c h)
  · exact Or.inr (Or.inr (Or.inr h))

theorem mem_segText (c : Char) :
    ∀ segs : List (List Char × List Char × List (List Char)), c ∈ segText segs →
      ∃ g ∈ segs, c ∈ g.1 ∨ c ∈ g.2.1 := by
  intro segs
  induction segs with
  | nil => intro h; simp [segText_nil] at h
  | cons g gs ih =>
    intro h
    rw [segText_cons] at h
    rcases List.mem_append.mp h with h | h
    · exact ⟨g, List.mem_cons_self _ _, Or.inl h⟩
    · rcases List.mem_append.mp h with h | h
      · exact ⟨g, List.mem_cons_self _ _, Or.inr h⟩
      · obtain ⟨x, hx, hc⟩ := ih h
        exact ⟨x, List.mem_cons_of_mem _ hx, hc⟩

/-- The text of a path list holds digits, parentheses and commas only. -/
theorem mem_pathsText (paths : List Quad) (c : Char) (hc : c ∈ (pathsText paths).data) :
    c.isDigit = true ∨ c = '(' ∨ c = ',' ∨ c = ')' := by
  obtain ⟨gs, h1, _, h3⟩ := pathsText_data paths
  rw [h1] at hc
  obtain ⟨g, hg, h⟩ := mem_segText c _ hc
  obtain ⟨e, he, rfl⟩ := List.mem_map.mp hg
  rcases h with h | h
  · rcases h3 e he with h0 | h0
    · simp [pathSeg, h0] at h
    · simp [pathSeg, h0] at h
      exact Or.inr (Or.inr (Or.inl h))
  · exact mem_quadText e.2 c h

theorem pathsText_no_bracket (paths : List Quad) :
    ∀ c ∈ (pathsText paths).data, notChar ']' c = true := by
  intro c hc
  simp only [notChar, bne_iff_ne, ne_eq]
  rintro rfl
  rcases mem_pathsText paths _ hc with h | h | h | h
  · exact absurd h (by decide)
  · exact absurd h (by decide)
  · exact absurd h (by decide)
  · exact absurd h (by decide)

/-- The branch pattern matches the text of a branch entry, whatever follows
it. -/
theorem matchItems_branchEntry (k : Nat) (v : BranchInfo) (s : List Char) :
    matchItems branchRe ((branchEntry k v).data ++ s) =
      some (Nat.toDigits 10 k :: Nat.toDigits 10 v.Typ :: Nat.toDigits 10 v.Line ::
        (quadCaps v.Position ++ [(pathsText v.Paths).data]), s) := by
  obtain ⟨t, l, p, paths⟩ := v
  rw [branchEntry_data]
  simp only [List.cons_append, List.append_assoc, List.nil_append, branchRe]
  refine matchItems_number k ':' (by decide) _ _ _ _ ?_
  simp only [matchItems_lit]
  refine matchItems_number t ',' (by decide) _ _ _ _ ?_
  refine matchItems_number l ',' (by decide) _ _ _ _ ?_
  refine matchItems_quad p _ _ _ _ ?_
  simp only [matchItems_lit]
  have h := matchItems_capStar (notChar ']') [Item.lit ']', Item.lit ')']
    (pathsText paths).data (']' :: ')' :: s) (pathsText_no_bracket paths)
    (by intro c t hct; cases hct; simp [notChar]) [] s (by simp [matchItems])
  simpa using h

theorem branchStep_entry (result : GoMap BranchInfo) (w : String) (k : Nat)
    (v : BranchInfo) (hk : k < 2 ^ 32) (hv : BranchInfo.inRange v) :
    branchStep result (w :: (Nat.toDigits 10 k :: Nat.toDigits 10 v.Typ ::
        Nat.toDigits 10 v.Line :: (quadCaps v.Position ++ [(pathsText v.Paths).data])).map
          String.mk) =
      some (result.insert k v) := by
  obtain ⟨t, l, ⟨p1, p2, p3, p4⟩, paths⟩ := v
  obtain ⟨ht, hl, ⟨h1, h2, h3, h4⟩, hp⟩ := hv
  simp only [quadCaps, List.map_cons, List.map_nil, List.cons_append, List.nil_append] at *
  have hpaths : parsePaths (String.mk (pathsText paths).data) = some paths :=
    parsePaths_pathsText paths hp
  have hmod : t % 256 = t := Nat.mod_eq_of_lt (by omega)
  simp [branchStep, field32_dec _ 1 k hk, field32_dec _ 3 l hl,
    readQuad_dec _ 4 p1 p2 p3 p4 h1 h2 h3 h4, ParseUint_dec t 8 (by norm_num) ht, hpaths, hmod]

theorem branchEntry_head (k : Nat) (v : BranchInfo) :
    ∃ c t, (branchEntry k v).data = c :: t ∧ c.isDigit = true := by
  obtain ⟨h1, h2, _⟩ := toDigits_spec k
  obtain ⟨t, l, p, paths⟩ := v
  rw [branchEntry_data]
  cases hk : Nat.toDigits 10 k with
  | nil => exact absurd hk h1
  | cons x xs => exact ⟨x, _, rfl, h2 x (by rw [hk]; exact List.mem_cons_self _ _)⟩

theorem branchEntry_last (k : Nat) (v : BranchInfo) :
    ∃ i, (branchEntry k v).data = i ++ [')'] := by
  obtain ⟨t, l, p, paths⟩ := v
  rw [branchEntry_data]
  exact ⟨Nat.toDigits 10 k ++ ':' :: '(' :: (Nat.toDigits 10 t ++ ',' ::
    (Nat.toDigits 10 l ++ ',' :: ((quadText p).data ++ ',' :: '[' ::
      ((pathsText paths).data ++ [']'])))), by simp⟩

/-- The branch decoder on a braced text of entries in range, separated by
texts without digits. -/
theorem parseBranch_segs (es : List (String × Nat × BranchInfo))
    (hfirst : ∀ g ∈ es.head?, g.1 = "")
    (hsep : ∀ g ∈ es, ∀ c ∈ g.1.data, c.isDigit = false)
    (hrange : ∀ g ∈ es, g.2.1 < 2 ^ 32 ∧ BranchInfo.inRange g.2.2) :
    parseBranchMapSimple (String.mk ('{' :: (segText (es.map branchSeg) ++ ['}']))) =
      some (es.foldl (fun m g => m.insert g.2.1 g.2.2) GoMap.empty) := by
  have hscan := scan_braced branchRe ')' (by decide) (findFirst_nil_capPlus _ _)
    (es.map branchSeg)
    (by
      cases es with
      | nil => intro g hg; simp at hg
      | cons e es =>
        intro g hg
        simp only [List.map_cons, List.head?_cons, Option.mem_def, Option.some.injEq] at hg
        subst hg
        have := hfirst e (by simp)
        simp [branchSeg, this])
    (by
      intro g hg c hc t
      obtain ⟨e, he, rfl⟩ := List.mem_map.mp hg
      exact matchItems_capPlus_reject _ _ _ _ (hsep e he c hc))
    (by
      intro g hg
      obtain ⟨e, he, rfl⟩ := List.mem_map.mp hg
      refine ⟨fun s => matchItems_branchEntry _ _ s, ?_, branchEntry_last _ _⟩
      obtain ⟨c, t, h1, h2⟩ := branchEntry_head e.2.1 e.2.2
      exact ⟨c, t, h1, isDigit_not_brace c h2⟩)
  simp only [parseBranchMapSimple, hscan, List.map_map]
  apply foldlM_map_some
  intro acc e he
  exact branchStep_entry acc _ _ _ (hrange e he).1 (hrange e he).2

/-- The branch decoder on a braced text of entries joined by separators
without digits: the entries are inserted in text order. -/
theorem parseBranch_joined (es : List (String × Nat × BranchInfo))
    (hsep : ∀ g ∈ es.tail, ∀ c ∈ g.1.data, c.isDigit = false)
    (hrange : ∀ g ∈ es, g.2.1 < 2 ^ 32 ∧ BranchInfo.inRange g.2.2) :
    parseBranchMapSimple
        ("\x7b" ++ joinEntries (es.map (fun g => (g.1, branchEntry g.2.1 g.2.2))) ++ "\x7d") =
      some (es.foldl (fun m g => m.insert g.2.1 g.2.2) GoMap.empty) := by
  cases es with
  | nil => decide
  | cons e es =>
    have hdata := joinEntries_cons_data
      (fun g => (g.1.data, g.2.data, ([] : List (List Char)))) (fun _ => ⟨rfl, rfl⟩)
      (e.1, branchEntry e.2.1 e.2.2) (es.map (fun g => (g.1, branchEntry g.2.1 g.2.2)))
    have htext : (joinEntries ((e :: es).map (fun g => (g.1, branchEntry g.2.1 g.2.2)))).data =
        segText ((("", e.2) :: es).map branchSeg) := by
      rw [List.map_cons, hdata]
      simp [segText, branchSeg, List.map_map, Function.comp_def]
    rw [braced_data, htext]
    have h := parseBranch_segs (("", e.2) :: es) (by simp)
      (by
        intro g hg c hc
        rcases List.mem_cons.mp hg with rfl | hg
        · simp at hc
        · exact hsep g (by simpa using hg) c hc)
      (by
        intro g hg
        rcases List.mem_cons.mp hg with rfl | hg
        · exact hrange e (List.mem_cons_self _ _)
        · exact hrange g (List.mem_cons_of_mem _ hg))
    rw [h]
    simp [List.foldl_cons]

theorem branch_text_eq (k t l : Nat) (p : Quad) (P : List Quad) :
    "\x7b" ++ toString k ++ ":(" ++ toString t ++ "," ++ toString l ++ "," ++ quadText p ++ ",[" ++
        pathsText P ++ "])\x7d" =
      "\x7b" ++ joinEntries ([("", k, (⟨t, l, p, P⟩ : BranchInfo))].map
        (fun g => (g.1, branchEntry g.2.1 g.2.2))) ++ "\x7d" := by
  apply String.ext
  simp [joinEntries, concatSegs, branchEntry, dec, String.data_append]

/-- C3. Branch decoder, single entry: for every key `k`, line `l` and position
`p` in the unsigned 32-bit range, every type `t` in the unsigned 8-bit range
and every list `P` of 4-tuples of unsigned 32-bit values, the non-empty ones
among them, `parseBranchMapSimple` applied to `{k:(t,l,(p1,p2,p3,p4),[tuples of P joined
by commas])}` returns the mapping with the single key `k`, whose value is
`BranchInfo{Type: t, Line: l, Position: p, Paths: P}`, the paths in the
order of the text. -/
theorem branch_single_entry (k t l : Nat) (p : Quad) (P : List Quad) (hk : k < 2 ^ 32)
    (ht : t < 2 ^ 8) (hl : l < 2 ^ 32) (hp : Quad.inRange p)
    (hP : ∀ q ∈ P, Quad.inRange q) :
    parseBranchMapSimple
        ("\x7b" ++ toString k ++ ":(" ++ toString t ++ "," ++ toString l ++ "," ++ quadText p ++
          ",[" ++ pathsText P ++ "])\x7d") =
      some [(k, { Typ := t, Line := l, Position := p, Paths := P })] := by
  rw [branch_text_eq, parseBranch_joined _ (by simp)
    (by
      intro g hg
      simp only [List.mem_singleton] at hg
      subst hg
      exact ⟨hk, ht, hl, hp, hP⟩)]
  rfl

/-- The witness of C3: an entry with two paths. -/
theorem branch_single_entry_witness :
    (9 < 2 ^ 32 ∧ 255 < 2 ^ 8 ∧ 12 < 2 ^ 32 ∧ Quad.inRange (1, 2, 3, 4) ∧
        ∀ q ∈ [((0, 0, 1, 1) : Quad), (0, 1, 1, 2)], Quad.inRange q) ∧
      parseBranchMapSimple
          ("\x7b" ++ toString 9 ++ ":(" ++ toString 255 ++ "," ++ toString 12 ++ "," ++
            quadText (1, 2, 3, 4) ++ ",[" ++ pathsText [(0, 0, 1, 1), (0, 1, 1, 2)] ++ "])\x7d") =
        some [(9, ⟨255, 12, (1, 2, 3, 4), [(0, 0, 1, 1), (0, 1, 1, 2)]⟩)] :=
  ⟨by decide, branch_single_entry 9 255 12 (1, 2, 3, 4) [(0, 0, 1, 1), (0, 1, 1, 2)] (by decide)
    (by decide) (by decide) (by decide) (by decide)⟩

/-! ## Overwriting in a map -/

theorem GoMap.find_nil {V : Type} (k : Nat) : GoMap.find ([] : GoMap V) k = none := rfl

/-- The read after the assignment `m[k] = v`. -/
theorem GoMap.find_insert {V : Type} (m : GoMap V) (k k1 : Nat) (v : V) :
    GoMap.find (m.insert k v) k1 = if k = k1 then some v else GoMap.find m k1 := by
  simp only [GoMap.find, GoMap.insert, List.find?_append, List.find?_filter]
  by_cases h : k = k1
  · subst h
    have hnone : List.find? (fun a => (a.1 != k) && (a.1 == k)) m = none := by
      rw [List.find?_eq_none]
      intro x _
      by_cases hx : x.1 = k <;> simp [hx]
    simp [hnone]
  · have hk : ¬ k1 = k := fun hh => h hh.symm
    have hp : (fun a : Nat × V => decide ((a.1 != k) = true ∧ (a.1 == k1) = true)) =
        fun a => a.1 == k1 := by
      funext a
      by_cases ha : a.1 = k1
      · simp [ha, hk]
      · simp [ha]
    rw [hp]
    cases hm : List.find? (fun a : Nat × V => a.1 == k1) m <;> simp [h]

/-- After a run of assignments a key reads the value assigned to it last. -/
theorem GoMap.find_foldl_insert {V A : Type} (key : A → Nat) (val : A → V) (k1 : Nat) :
    ∀ (es : List A) (m : GoMap V),
      GoMap.find (es.foldl (fun acc g => acc.insert (key g) (val g)) m) k1 =
        match es.reverse.find? (fun g => key g == k1) with
        | some g => some (val g)
        | none => GoMap.find m k1 := by
  intro es
  induction es using List.reverseRecOn with
  | nil => intro m; rfl
  | append_singleton es e ih =>
    intro m
    rw [List.foldl_append, List.reverse_append]
    simp only [List.foldl_cons, List.foldl_nil, List.reverse_cons, List.reverse_nil,
      List.nil_append, List.singleton_append, List.find?_cons, GoMap.find_insert]
    by_cases h : key e = k1
    · simp [h]
    · have hb : (key e == k1) = false := by simpa using h
      simp only [h, if_false, hb]
      exact ih m

theorem GoMap.insert_insert_same {V : Type} (k : Nat) (v1 v2 : V) :
    ((GoMap.empty : GoMap V).insert k v1).insert k v2 = [(k, v2)] := by
  simp [GoMap.insert, GoMap.empty, List.filter]

theorem two_entries_text (e1 e2 : String) :
    "\x7b" ++ e1 ++ "," ++ e2 ++ "\x7d" = "\x7b" ++ joinEntries [("", e1), (",", e2)] ++ "\x7d" := by
  apply String.ext
  simp [joinEntries, concatSegs, String.data_append]

/-- C5. Duplicate keys, the last occurrence wins: for each of the three
decoders, on a braced text that holds two well-formed entries with the same
key `k` separated by a comma the result has the single key `k`, and its value
is that of the later entry; and `{1:(1,2,3,4),1:(5,6,7,8)}` decodes with
`parseStatementMapSimple` to the one-entry mapping `1 -> (5,6,7,8)`. -/
theorem duplicate_key_last_wins (k : Nat) (hk : k < 2 ^ 32)
    (s1 s2 : StatementInfo) (hs1 : StatementInfo.inRange s1) (hs2 : StatementInfo.inRange s2)
    (f1 f2 : FunctionInfo) (hf1 : FunctionInfo.inRange f1) (hf2 : FunctionInfo.inRange f2)
    (hn1 : '\'' ∉ f1.Name.data) (hn2 : '\'' ∉ f2.Name.data)
    (b1 b2 : BranchInfo) (hb1 : BranchInfo.inRange b1) (hb2 : BranchInfo.inRange b2) :
    parseStatementMapSimple ("\x7b" ++ statementEntry k s1 ++ "," ++ statementEntry k s2 ++ "\x7d") =
      some [(k, s2)] ∧
    parseFunctionMapSimple ("\x7b" ++ functionEntry k f1 ++ "," ++ functionEntry k f2 ++ "\x7d") =
      some [(k, f2)] ∧
    parseBranchMapSimple ("\x7b" ++ branchEntry k b1 ++ "," ++ branchEntry k b2 ++ "\x7d") =
      some [(k, b2)] ∧
    parseStatementMapSimple "\x7b1:(1,2,3,4),1:(5,6,7,8)\x7d" =
      some [(1, { Line := 5, Column := 6, Length := 7, Count := 8 })] := by
  have hcomma : ∀ c ∈ ",".data, c.isDigit = false := by decide
  refine ⟨?_, ?_, ?_, by decide⟩
  · have h := parseStatement_joined [("", k, s1), (",", k, s2)]
      (by
        intro g hg c hc
        simp only [List.tail_cons, List.mem_singleton] at hg
        subst hg
        exact hcomma c hc)
      (by
        intro g hg
        simp only [List.mem_cons, List.mem_singleton, List.not_mem_nil, or_false] at hg
        rcases hg with rfl | rfl
        · exact ⟨hk, hs1⟩
        · exact ⟨hk, hs2⟩)
    rw [two_entries_text]
    simpa [GoMap.insert_insert_same] using h
  · have h := parseFunction_joined [("", k, f1), (",", k, f2)]
      (by
        intro g hg c hc
        simp only [List.tail_cons, List.mem_singleton] at hg
        subst hg
        exact hcomma c hc)
      (by
        intro g hg
        simp only [List.mem_cons, List.mem_singleton, List.not_mem_nil, or_false] at hg
        rcases hg with rfl | rfl
        · exact ⟨hk, hf1, hn1⟩
        · exact ⟨hk, hf2, hn2⟩)
    rw [two_entries_text]
    simpa [GoMap.insert_insert_same] using h
  · have h := parseBranch_joined [("", k, b1), (",", k, b2)]
      (by
        intro g hg c hc
        simp only [List.tail_cons, List.mem_singleton] at hg
        subst hg
        exact hcomma c hc)
      (by
        intro g hg
        simp only [List.mem_cons, List.mem_singleton, List.not_mem_nil, or_false] at hg
        rcases hg with rfl | rfl
        · exact ⟨hk, hb1⟩
        · exact ⟨hk, hb2⟩)
    rw [two_entries_text]
    simpa [GoMap.insert_insert_same] using h

/-- The witness of C5: key 1 written twice, for each decoder. -/
theorem duplicate_key_last_wins_witness :
    parseStatementMapSimple
        ("\x7b" ++ statementEntry 1 ⟨1, 2, 3, 4⟩ ++ "," ++ statementEntry 1 ⟨5, 6, 7, 8⟩ ++ "\x7d") =
      some [(1, ⟨5, 6, 7, 8⟩)] ∧
    parseFunctionMapSimple
        ("\x7b" ++ functionEntry 1 ⟨"f", 1, (1, 2, 3, 4), (5, 6, 7, 8)⟩ ++ "," ++
          functionEntry 1 ⟨"g", 2, (2, 2, 3, 4), (6, 6, 7, 8)⟩ ++ "\x7d") =
      some [(1, ⟨"g", 2, (2, 2, 3, 4), (6, 6, 7, 8)⟩)] ∧
    parseBranchMapSimple
        ("\x7b" ++ branchEntry 1 ⟨0, 1, (1, 2, 3, 4), [(0, 0, 1, 1)]⟩ ++ "," ++
          branchEntry 1 ⟨1, 2, (2, 2, 3, 4), [(0, 1, 1, 2), (0, 0, 1, 1)]⟩ ++ "\x7d") =
      some [(1, ⟨1, 2, (2, 2, 3, 4), [(0, 1, 1, 2), (0, 0, 1, 1)]⟩)] :=
  have h := duplicate_key_last_wins 1 (by decide)
    ⟨1, 2, 3, 4⟩ ⟨5, 6, 7, 8⟩ (by decide) (by decide)
    ⟨"f", 1, (1, 2, 3, 4), (5, 6, 7, 8)⟩ ⟨"g", 2, (2, 2, 3, 4), (6, 6, 7, 8)⟩
    (by decide) (by decide) (by decide) (by decide)
    ⟨0, 1, (1, 2, 3, 4), [(0, 0, 1, 1)]⟩ ⟨1, 2, (2, 2, 3, 4), [(0, 1, 1, 2), (0, 0, 1, 1)]⟩
    (by decide) (by decide)
  ⟨h.1, h.2.1, h.2.2.1⟩

/-- C6. Statement decoder, many entries with arbitrary separators without
digits: for every list of statement entries `k_i:(a_i,b_i,c_i,d_i)` with all
values in the unsigned 32-bit range and every choice of separators between
consecutive entries that hold no ASCII decimal digit,
`parseStatementMapSimple` applied to the entries joined by those separators
and wrapped in braces returns the mapping obtained by inserting
`k_i -> (a_i,b_i,c_i,d_i)` in text order, a later insertion overwriting an
earlier one with the same key: a key reads the value of the last entry that
carries it, and a key that no entry carries is absent.  In a triple of `es`
the first component is the separator written before the entry (none is
written before the first entry). -/
theorem statement_many_entries (es : List (String × Nat × StatementInfo))
    (hsep : ∀ g ∈ es.tail, ∀ c ∈ g.1.data, c.isDigit = false)
    (hrange : ∀ g ∈ es, g.2.1 < 2 ^ 32 ∧ StatementInfo.inRange g.2.2) :
    ∃ r, parseStatementMapSimple
        ("\x7b" ++ joinEntries (es.map (fun g => (g.1, statementEntry g.2.1 g.2.2))) ++ "\x7d") =
          some r ∧
      r = es.foldl (fun m g => m.insert g.2.1 g.2.2) GoMap.empty ∧
      ∀ k, r.find k = (es.reverse.find? (fun g => g.2.1 == k)).map (fun g => g.2.2) := by
  refine ⟨_, parseStatement_joined es hsep hrange, rfl, ?_⟩
  intro k
  rw [GoMap.find_foldl_insert (fun g : String × Nat × StatementInfo => g.2.1)
    (fun g => g.2.2) k es GoMap.empty]
  cases List.find? (fun g : String × Nat × StatementInfo => g.2.1 == k) es.reverse <;> rfl

/-- The witness of C6: three entries, the key 1 written twice, with the
separators ` ; ` and the empty text. -/
theorem statement_many_entries_witness :
    ∃ r, parseStatementMapSimple
        ("\x7b" ++ joinEntries ([("", 1, (⟨1, 2, 3, 4⟩ : StatementInfo)), (" ; ", 2, ⟨5, 6, 7, 8⟩),
          ("", 1, ⟨9, 9, 9, 9⟩)].map (fun g => (g.1, statementEntry g.2.1 g.2.2))) ++ "\x7d") =
          some r ∧
      r = [("", 1, (⟨1, 2, 3, 4⟩ : StatementInfo)), (" ; ", 2, ⟨5, 6, 7, 8⟩),
          ("", 1, ⟨9, 9, 9, 9⟩)].foldl (fun m g => m.insert g.2.1 g.2.2) GoMap.empty ∧
      ∀ k, r.find k = ([("", 1, (⟨1, 2, 3, 4⟩ : StatementInfo)), (" ; ", 2, ⟨5, 6, 7, 8⟩),
          ("", 1, ⟨9, 9, 9, 9⟩)].reverse.find? (fun g => g.2.1 == k)).map (fun g => g.2.2) :=
  statement_many_entries
    [("", 1, ⟨1, 2, 3, 4⟩), (" ; ", 2, ⟨5, 6, 7, 8⟩), ("", 1, ⟨9, 9, 9, 9⟩)]
    (by decide) (by decide)

/-! ## What every match holds -/

/-- A success of the greedy repetition is a success of the rest of the
pattern on a suffix of the text. -/
theorem greedy_some {R : Type} (cls : Char → Bool) (k : List Char → List Char → Option R)
    (r : R) : ∀ (s acc : List Char), greedy cls k acc s = some r →
      ∃ acc1 s1, s1 <:+ s ∧ k acc1 s1 = some r := by
  intro s
  induction s with
  | nil =>
    intro acc h
    exact ⟨acc, [], List.suffix_refl _, by simpa [greedy] using h⟩
  | cons c cs ih =>
    intro acc h
    rw [greedy] at h
    by_cases hc : cls c = true
    · simp only [hc, if_true] at h
      cases hg : greedy cls k (acc ++ [c]) cs with
      | some r1 =>
        rw [hg] at h
        cases h
        obtain ⟨acc1, s1, hs, hk⟩ := ih _ hg
        exact ⟨acc1, s1, hs.trans (List.suffix_cons _ _), hk⟩
      | none =>
        rw [hg] at h
        exact ⟨acc, c :: cs, List.suffix_refl _, h⟩
    · simp only [hc, Bool.false_eq_true, if_false] at h
      exact ⟨acc, c :: cs, List.suffix_refl _, h⟩

/-- A match holds every literal of the pattern, leaves a suffix of the text
and fills every capture group. -/
theorem matchItems_some : ∀ (items : List Item) (s : List Char)
    (r : List (List Char) × List Char), matchItems items s = some r →
      (∀ c, Item.lit c ∈ items → c ∈ s) ∧ r.2 <:+ s ∧ r.1.length = groups items := by
  intro items
  induction items with
  | nil =>
    intro s r h
    simp only [matchItems, Option.some.injEq] at h
    subst h
    exact ⟨by simp, List.suffix_refl _, rfl⟩
  | cons it rest ih =>
    intro s r h
    cases it with
    | lit c0 =>
      cases s with
      | nil => simp [matchItems] at h
      | cons x xs =>
        by_cases hx : x = c0
        · simp only [matchItems, hx, if_true] at h
          obtain ⟨h1, h2, h3⟩ := ih xs r h
          refine ⟨?_, h2.trans (List.suffix_cons _ _), by simpa [groups] using h3⟩
          intro c hc
          rcases List.mem_cons.mp hc with hc | hc
          · cases hc
            rw [hx]; exact List.mem_cons_self _ _
          · exact List.mem_cons_of_mem _ (h1 c hc)
        · simp [matchItems, hx] at h
    | capStar cls =>
      simp only [matchItems] at h
      obtain ⟨acc1, s1, hs, hk⟩ := greedy_some cls _ r s [] h
      cases hm : matchItems rest s1 with
      | none => simp [hm] at hk
      | some r1 =>
        simp only [hm, Option.map_some', Option.some.injEq] at hk
        obtain ⟨h1, h2, h3⟩ := ih s1 r1 hm
        subst hk
        refine ⟨?_, h2.trans hs, by simp [groups, h3]⟩
        intro c hc
        rcases List.mem_cons.mp hc with hc | hc
        · cases hc
        · exact hs.subset (h1 c hc)
    | capPlus cls =>
      cases s with
      | nil => simp [matchItems] at h
      | cons x xs =>
        by_cases hx : cls x = true
        · simp only [matchItems, hx, if_true] at h
          obtain ⟨acc1, s1, hs, hk⟩ := greedy_some cls _ r xs [x] h
          cases hm : matchItems rest s1 with
          | none => simp [hm] at hk
          | some r1 =>
            simp only [hm, Option.map_some', Option.some.injEq] at hk
            obtain ⟨h1, h2, h3⟩ := ih s1 r1 hm
            subst hk
            have hs2 : s1 <:+ x :: xs := hs.trans (List.suffix_cons _ _)
            refine ⟨?_, h2.trans hs2, by simp [groups, h3]⟩
            intro c hc
            rcases List.mem_cons.mp hc with hc | hc
            · cases hc
            · exact hs2.subset (h1 c hc)
        · simp [matchItems, hx] at h

/-- The leftmost match: it leaves a suffix of the text, its submatch slice has
one cell for the whole match and one for each capture group, and the text
holds every literal of the pattern. -/
theorem findFirst_some (re : List Item) : ∀ (s : List Char) (m : List String)
    (rest : List Char), findFirst re s = some (m, rest) →
      rest <:+ s ∧ m.length = groups re + 1 ∧ ∀ c, Item.lit c ∈ re → c ∈ s := by
  intro s
  induction s with
  | nil =>
    intro m rest h
    simp only [findFirst] at h
    cases hm : matchItems re [] with
    | none => simp [hm] at h
    | some r =>
      simp only [hm, Option.map_some', Option.some.injEq, Prod.mk.injEq] at h
      obtain ⟨h1, h2, h3⟩ := matchItems_some re [] r hm
      obtain ⟨rfl, rfl⟩ := h
      exact ⟨h2, by simp [submatches, h3], h1⟩
  | cons c cs ih =>
    intro m rest h
    simp only [findFirst] at h
    cases hm : matchItems re (c :: cs) with
    | none =>
      simp only [hm] at h
      obtain ⟨h1, h2, h3⟩ := ih m rest h
      exact ⟨h1.trans (List.suffix_cons _ _), h2, fun x hx => List.mem_cons_of_mem _ (h3 x hx)⟩
    | some r =>
      simp only [hm, Option.some.injEq, Prod.mk.injEq] at h
      obtain ⟨h1, h2, h3⟩ := matchItems_some re (c :: cs) r hm
      obtain ⟨rfl, rfl⟩ := h
      exact ⟨h2, by simp [submatches, h3], h1⟩

/-- Every match of a scan has one cell for the whole match and one for each
capture group. -/
theorem findAll_length (re : List Item) : ∀ (fuel : Nat) (s : List Char),
    ∀ m ∈ findAll re fuel s, m.length = groups re + 1 := by
  intro fuel
  induction fuel with
  | zero => intro s m hm; simp [findAll] at hm
  | succ f ih =>
    intro s m hm
    simp only [findAll] at hm
    cases hf : findFirst re s with
    | none => simp [hf] at hm
    | some p =>
      obtain ⟨m0, rest⟩ := p
      simp only [hf, List.mem_cons] at hm
      rcases hm with rfl | hm
      · exact (findFirst_some re s _ rest hf).2.1
      · exact ih rest m hm

/-- A text that lacks a literal of the pattern holds no match. -/
theorem findAll_no_literal (re : List Item) (c : Char) (hc : Item.lit c ∈ re)
    (fuel : Nat) (s : List Char) (hs : c ∉ s) : findAll re fuel s = [] := by
  cases fuel with
  | zero => rfl
  | succ f =>
    simp only [findAll]
    cases hf : findFirst re s with
    | none => rfl
    | some p =>
      obtain ⟨m0, rest⟩ := p
      exact absurd ((findFirst_some re s m0 rest hf).2.2 c hc) hs

theorem Trim_subset (s cutset : String) :
    ∀ c ∈ (strings.Trim s cutset).data, c ∈ s.data := by
  intro c hc
  simp only [strings.Trim, List.mem_reverse] at hc
  exact (List.dropWhile_sublist _).subset ((List.dropWhile_sublist _).subset hc |> List.mem_reverse.mp)

/-! ## The fuel of the scan -/

theorem greedy_some_length {R : Type} (cls : Char → Bool)
    (k : List Char → List Char → Option R) (r : R) :
    ∀ (s acc : List Char), greedy cls k acc s = some r →
      ∃ acc1 s1, s1.length + acc.length ≤ s.length + acc1.length ∧ s1.length ≤ s.length ∧
        k acc1 s1 = some r := by
  intro s
  induction s with
  | nil =>
    intro acc h
    exact ⟨acc, [], by simp, by simp, by simpa [greedy] using h⟩
  | cons c cs ih =>
    intro acc h
    rw [greedy] at h
    by_cases hc : cls c = true
    · simp only [hc, if_true] at h
      cases hg : greedy cls k (acc ++ [c]) cs with
      | some r1 =>
        rw [hg] at h
        cases h
        obtain ⟨acc1, s1, h1, h2, hk⟩ := ih _ hg
        simp only [List.length_append, List.length_singleton, List.length_cons] at h1 ⊢
        exact ⟨acc1, s1, by omega, by omega, hk⟩
      | none =>
        rw [hg] at h
        exact ⟨acc, c :: cs, by simp, by simp, h⟩
    · simp only [hc, Bool.false_eq_true, if_false] at h
      exact ⟨acc, c :: cs, by simp, by simp, h⟩

/-- A match takes at least `minLen` characters of the text. -/
theorem matchItems_length : ∀ (items : List Item) (s : List Char)
    (r : List (List Char) × List Char), matchItems items s = some r →
      r.2.length + minLen items ≤ s.length := by
  intro items
  induction items with
  | nil =>
    intro s r h
    simp only [matchItems, Option.some.injEq] at h
    subst h
    simp [minLen]
  | cons it rest ih =>
    intro s r h
    cases it with
    | lit c0 =>
      cases s with
      | nil => simp [matchItems] at h
      | cons x xs =>
        by_cases hx : x = c0
        · simp only [matchItems, hx, if_true] at h
          have := ih xs r h
          simp only [minLen, List.length_cons]
          omega
        · simp [matchItems, hx] at h
    | capStar cls =>
      simp only [matchItems] at h
      obtain ⟨acc1, s1, _, hs, hk⟩ := greedy_some_length cls _ r s [] h
      cases hm : matchItems rest s1 with
      | none => simp [hm] at hk
      | some r1 =>
        simp only [hm, Option.map_some', Option.some.injEq] at hk
        have := ih s1 r1 hm
        subst hk
        simp only [minLen]
        omega
    | capPlus cls =>
      cases s with
      | nil => simp [matchItems] at h
      | cons x xs =>
        by_cases hx : cls x = true
        · simp only [matchItems, hx, if_true] at h
          obtain ⟨acc1, s1, _, hs, hk⟩ := greedy_some_length cls _ r xs [x] h
          cases hm : matchItems rest s1 with
          | none => simp [hm] at hk
          | some r1 =>
            simp only [hm, Option.map_some', Option.some.injEq] at hk
            have := ih s1 r1 hm
            subst hk
            simp only [minLen, List.length_cons]
            omega
        · simp [matchItems, hx] at h

theorem findFirst_length (re : List Item) : ∀ (s : List Char) (m : List String)
    (rest : List Char), findFirst re s = some (m, rest) →
      rest.length + minLen re ≤ s.length := by
  intro s
  induction s with
  | nil =>
    intro m rest h
    simp only [findFirst] at h
    cases hm : matchItems re [] with
    | none => simp [hm] at h
    | some r =>
      simp only [hm, Option.map_some', Option.some.injEq, Prod.mk.injEq] at h
      obtain ⟨_, rfl⟩ := h
      exact matchItems_length re [] r hm
  | cons c cs ih =>
    intro m rest h
    simp only [findFirst] at h
    cases hm : matchItems re (c :: cs) with
    | none =>
      simp only [hm] at h
      have := ih m rest h
      simp only [List.length_cons]
      omega
    | some r =>
      simp only [hm, Option.some.injEq, Prod.mk.injEq] at h
      obtain ⟨_, rfl⟩ := h
      exact matchItems_length re (c :: cs) r hm

/-- The scan of a pattern whose matches are never empty needs no more fuel
than the text has characters: more fuel gives the same matches. -/
theorem findAll_fuel (re : List Item) (hre : 0 < minLen re) :
    ∀ (fuel : Nat) (s : List Char), s.length < fuel →
      findAll re fuel s = findAll re (s.length + 1) s := by
  intro fuel
  induction fuel using Nat.strong_induction_on with
  | _ fuel ih =>
    intro s hs
    cases fuel with
    | zero => omega
    | succ f =>
      simp only [findAll]
      cases hf : findFirst re s with
      | none => rfl
      | some p =>
        obtain ⟨m, rest⟩ := p
        have hlen := findFirst_length re s m rest hf
        simp only []
        rw [ih f (by omega) rest (by omega)]
        by_cases hfs : s.length = f
        · rw [hfs, ih f (by omega) rest (by omega)]
        · rw [ih s.length (by omega) rest (by omega)]

/-! ## Texts without a colon, and totality -/

theorem scan_no_colon (re : List Item) (hre : Item.lit ':' ∈ re) (s : String)
    (h : ':' ∉ s.data) : FindAllStringSubmatch re (strings.Trim s "\x7b\x7d") = [] := by
  apply findAll_no_literal re ':' hre
  exact fun hc => h (Trim_subset s "\x7b\x7d" _ hc)

/-- C7. Empty and garbage input decode to the empty mapping: for every text
that holds no `:` character, each of `parseStatementMapSimple`,
`parseFunctionMapSimple` and `parseBranchMapSimple` returns a mapping, and
it has no entries. -/
theorem no_colon_decodes_empty (s : String) (h : ':' ∉ s.data) :
    parseStatementMapSimple s = some GoMap.empty ∧
      parseFunctionMapSimple s = some GoMap.empty ∧
      parseBranchMapSimple s = some GoMap.empty := by
  refine ⟨?_, ?_, ?_⟩
  · simp only [parseStatementMapSimple, scan_no_colon statementRe (by simp [statementRe]) s h]
    rfl
  · simp only [parseFunctionMapSimple, scan_no_colon functionRe (by simp [functionRe]) s h]
    rfl
  · simp only [parseBranchMapSimple, scan_no_colon branchRe (by simp [branchRe]) s h]
    rfl

/-- The witness of C7: the text `not a map`. -/
theorem no_colon_decodes_empty_witness :
    ':' ∉ "not a map".data ∧
      parseStatementMapSimple "not a map" = some GoMap.empty ∧
      parseFunctionMapSimple "not a map" = some GoMap.empty ∧
      parseBranchMapSimple "not a map" = some GoMap.empty :=
  ⟨by decide, no_colon_decodes_empty "not a map" (by decide)⟩

theorem field32_isSome (m : List String) (i : Nat) (h : i < m.length) :
    ∃ v, field32 m i = some v := by
  simp [field32, List.getElem?_eq_getElem h]

theorem readQuad_isSome (m : List String) (off : Nat) (h : off + 3 < m.length) :
    ∃ q, readQuad m off = some q := by
  obtain ⟨v0, h0⟩ := field32_isSome m off (by omega)
  obtain ⟨v1, h1⟩ := field32_isSome m (off + 1) (by omega)
  obtain ⟨v2, h2⟩ := field32_isSome m (off + 2) (by omega)
  obtain ⟨v3, h3⟩ := field32_isSome m (off + 3) (by omega)
  exact ⟨(v0, v1, v2, v3), by simp [readQuad, h0, h1, h2, h3]⟩

theorem foldlM_isSome {A C : Type} (step : C → A → Option C)
    (h : ∀ acc x, ∃ r, step acc x = some r) :
    ∀ (xs : List A) (init : C), ∃ r, xs.foldlM step init = some r := by
  intro xs
  induction xs with
  | nil => intro init; exact ⟨init, rfl⟩
  | cons x xs ih =>
    intro init
    obtain ⟨r, hr⟩ := h init x
    obtain ⟨r2, hr2⟩ := ih r
    exact ⟨r2, by simp [List.foldlM_cons, hr, hr2]⟩

theorem statementStep_isSome (acc : GoMap StatementInfo) (m : List String) :
    ∃ r, statementStep acc m = some r := by
  by_cases h : m.length = 6
  · obtain ⟨v1, h1⟩ := field32_isSome m 1 (by omega)
    obtain ⟨v2, h2⟩ := field32_isSome m 2 (by omega)
    obtain ⟨v3, h3⟩ := field32_isSome m 3 (by omega)
    obtain ⟨v4, h4⟩ := field32_isSome m 4 (by omega)
    obtain ⟨v5, h5⟩ := field32_isSome m 5 (by omega)
    exact Option.isSome_iff_exists.mp (by simp [statementStep, h, h1, h2, h3, h4, h5])
  · exact ⟨acc, by simp [statementStep, h]⟩

theorem functionStep_isSome (acc : GoMap FunctionInfo) (m : List String) :
    ∃ r, functionStep acc m = some r := by
  by_cases h : m.length = 12
  · obtain ⟨v1, h1⟩ := field32_isSome m 1 (by omega)
    have h2 : m[2]? = some m[2] := List.getElem?_eq_getElem (by omega)
    obtain ⟨v3, h3⟩ := field32_isSome m 3 (by omega)
    obtain ⟨q4, h4⟩ := readQuad_isSome m 4 (by omega)
    obtain ⟨q8, h8⟩ := readQuad_isSome m 8 (by omega)
    exact Option.isSome_iff_exists.mp (by simp [functionStep, h, h1, h2, h3, h4, h8])
  · exact ⟨acc, by simp [functionStep, h]⟩

theorem pathStep_isSome (acc : List Quad) (m : List String) :
    ∃ r, pathStep acc m = some r := by
  by_cases h : m.length = 5
  · obtain ⟨q, hq⟩ := readQuad_isSome m 1 (by omega)
    exact Option.isSome_iff_exists.mp (by simp [pathStep, h, hq])
  · exact ⟨acc, by simp [pathStep, h]⟩

theorem parsePaths_isSome (s : String) : ∃ r, parsePaths s = some r :=
  foldlM_isSome pathStep pathStep_isSome _ _

theorem branchStep_isSome (acc : GoMap BranchInfo) (m : List String) :
    ∃ r, branchStep acc m = some r := by
  by_cases h : m.length = 9
  · obtain ⟨v1, h1⟩ := field32_isSome m 1 (by omega)
    have h2 : m[2]? = some m[2] := List.getElem?_eq_getElem (by omega)
    obtain ⟨v3, h3⟩ := field32_isSome m 3 (by omega)
    obtain ⟨q4, h4⟩ := readQuad_isSome m 4 (by omega)
    have h8 : m[8]? = some m[8] := List.getElem?_eq_getElem (by omega)
    obtain ⟨ps, hps⟩ := parsePaths_isSome m[8]
    exact Option.isSome_iff_exists.mp (by simp [branchStep, h, h1, h2, h3, h4, h8, hps])
  · exact ⟨acc, by simp [branchStep, h]⟩

/-- C8. No decoder operation can fail: on every text each of
`parseStatementMapSimple`, `parseFunctionMapSimple`, `parseBranchMapSimple`
and `parsePaths` returns a result; every match that the scan of a decoder
returns has the length its guard asks for (6, 12, 9 and 5), so a guard
discards no match, and every index up to that length, the ones the decoder
reads among them, lies within the submatch slice.  The scan itself is
complete: with more fuel than the text has characters it returns the same
matches. -/
theorem decoders_never_fail (s : String) :
    (∃ r, parseStatementMapSimple s = some r) ∧
    (∃ r, parseFunctionMapSimple s = some r) ∧
    (∃ r, parseBranchMapSimple s = some r) ∧
    (∃ r, parsePaths s = some r) ∧
    (∀ m ∈ FindAllStringSubmatch statementRe (strings.Trim s "\x7b\x7d"),
      m.length = 6 ∧ ∀ i, i ≤ 5 → ∃ x, m[i]? = some x) ∧
    (∀ m ∈ FindAllStringSubmatch functionRe (strings.Trim s "\x7b\x7d"),
      m.length = 12 ∧ ∀ i, i ≤ 11 → ∃ x, m[i]? = some x) ∧
    (∀ m ∈ FindAllStringSubmatch branchRe (strings.Trim s "\x7b\x7d"),
      m.length = 9 ∧ ∀ i, i ≤ 8 → ∃ x, m[i]? = some x) ∧
    (∀ m ∈ FindAllStringSubmatch pathRe s,
      m.length = 5 ∧ ∀ i, i ≤ 4 → ∃ x, m[i]? = some x) ∧
    (∀ re ∈ [statementRe, functionRe, branchRe, pathRe], ∀ (t : String) (fuel : Nat),
      t.data.length < fuel → findAll re fuel t.data = FindAllStringSubmatch re t) := by
  have hidx : ∀ (m : List String) (n : Nat), m.length = n + 1 →
      ∀ i, i ≤ n → ∃ x, m[i]? = some x := by
    intro m n hm i hi
    exact ⟨m[i], List.getElem?_eq_getElem (by omega)⟩
  refine ⟨foldlM_isSome statementStep statementStep_isSome _ _,
    foldlM_isSome functionStep functionStep_isSome _ _,
    foldlM_isSome branchStep branchStep_isSome _ _, parsePaths_isSome s, ?_, ?_, ?_, ?_, ?_⟩
  · intro m hm
    have h := findAll_length statementRe _ _ m hm
    exact ⟨h, hidx m 5 h⟩
  · intro m hm
    have h := findAll_length functionRe _ _ m hm
    exact ⟨h, hidx m 11 h⟩
  · intro m hm
    have h := findAll_length branchRe _ _ m hm
    exact ⟨h, hidx m 8 h⟩
  · intro m hm
    have h := findAll_length pathRe _ _ m hm
    exact ⟨h, hidx m 4 h⟩
  · intro re hre t fuel hf
    simp only [List.mem_cons, List.mem_singleton, List.not_mem_nil, or_false] at hre
    have hmin : 0 < minLen re := by
      rcases hre with rfl | rfl | rfl | rfl <;> decide
    exact findAll_fuel re hmin fuel t.data hf

/-! ## The coercion `toUint32` -/

/-- C9, as the claim states it, fails: the `uint64` value 4294967296 is of a
supported width and in range, and `toUint32` returns 0 for it; the `int32`
value -1 is returned as 4294967295. -/
theorem toUint32_not_identity :
    (GoValue.uint64 4294967296).supported = true ∧
      (GoValue.uint64 4294967296).inRange = true ∧
      (GoValue.uint64 4294967296).number = some 4294967296 ∧
      toUint32 (GoValue.uint64 4294967296) = 0 ∧
      (GoValue.int32 (-1)).supported = true ∧
      (GoValue.int32 (-1)).inRange = true ∧
      (GoValue.int32 (-1)).number = some (-1) ∧
      toUint32 (GoValue.int32 (-1)) = 4294967295 := by
  decide

/-- C9, amended. For every value `v` of a width that the helper supports
(`uint32`, `uint64`, `int`, `int32`, `int64`), `toUint32(v)` is `v` reduced
modulo 2^32; it is numerically identical to `v` when `v` lies in the
unsigned 32-bit range. -/
theorem toUint32_supported (v : GoValue) (n : Int) (hs : v.supported = true)
    (hr : v.inRange = true) (hn : v.number = some n) :
    ((toUint32 v : Nat) : Int) = n % 2 ^ 32 ∧
      (0 ≤ n → n < 2 ^ 32 → ((toUint32 v : Nat) : Int) = n) := by
  have hmod : ((toUint32 v : Nat) : Int) = n % 2 ^ 32 := by
    cases v with
    | uint32 x =>
      simp only [GoValue.number, Option.some.injEq] at hn
      simp only [GoValue.inRange, decide_eq_true_eq] at hr
      subst hn
      simp only [toUint32]
      have : x % 2 ^ 32 = x := Nat.mod_eq_of_lt hr
      omega
    | uint64 x =>
      simp only [GoValue.number, Option.some.injEq] at hn
      subst hn
      simp only [toUint32]
      omega
    | int x =>
      simp only [GoValue.number, Option.some.injEq] at hn
      subst hn
      simp only [toUint32]
      omega
    | int32 x =>
      simp only [GoValue.number, Option.some.injEq] at hn
      subst hn
      simp only [toUint32]
      omega
    | int64 x =>
      simp only [GoValue.number, Option.some.injEq] at hn
      subst hn
      simp only [toUint32]
      omega
    | _ => simp [GoValue.supported] at hs
  refine ⟨hmod, fun h0 h1 => ?_⟩
  rw [hmod]
  exact Int.emod_eq_of_lt h0 h1

/-- The witness of C9, amended: the `int64` value 4294967295. -/
theorem toUint32_supported_witness :
    (GoValue.int64 4294967295).supported = true ∧
      (GoValue.int64 4294967295).inRange = true ∧
      (GoValue.int64 4294967295).number = some 4294967295 ∧
      ((toUint32 (GoValue.int64 4294967295) : Nat) : Int) = 4294967295 :=
  ⟨by decide, by decide, rfl,
    (toUint32_supported (GoValue.int64 4294967295) 4294967295 (by decide) (by decide) rfl).2
      (by norm_num) (by norm_num)⟩

/-- C10. Unsupported scalar types coerce to 0: for every value whose dynamic
type is none of `uint32`, `uint64`, `int`, `int32`, `int64` (text, floating
point, nil, a boolean, the integer widths `uint8`, `uint16`, `int8`, `int16`
and `uint`, and any further type), `toUint32` returns 0 whatever the value
is. -/
theorem toUint32_unsupported (v : GoValue) (h : v.supported = false) : toUint32 v = 0 := by
  cases v <;> first | rfl | simp [GoValue.supported] at h

/-- The witness of C10: the `uint16` value 7. -/
theorem toUint32_unsupported_witness :
    (GoValue.uint16 7).supported = false ∧ toUint32 (GoValue.uint16 7) = 0 :=
  ⟨rfl, toUint32_unsupported (GoValue.uint16 7) rfl⟩

/-! ## The native fast path and the assembly -/

theorem nativeStep_eq (acc : GoMap StatementInfo) (cell : Nat × List GoValue) :
    nativeStep acc cell =
      some (match nativeCell cell.2 with
        | some v => acc.insert cell.1 v
        | none => acc) := by
  obtain ⟨k, stmt⟩ := cell
  rcases stmt with _ | ⟨a, _ | ⟨b, _ | ⟨c, _ | ⟨d, rest⟩⟩⟩⟩ <;> simp [nativeStep, nativeCell]

theorem GoMap.insert_of_not_mem {V : Type} (m : GoMap V) (k : Nat) (v : V)
    (h : k ∉ GoMap.keys m) : m.insert k v = m ++ [(k, v)] := by
  simp only [GoMap.insert]
  congr 1
  rw [List.filter_eq_self]
  intro e he
  simp only [bne_iff_ne, ne_eq]
  rintro rfl
  exact h (List.mem_map_of_mem Prod.fst he)

/-- The loop over a native map without repeated keys stores, in order, the
cells whose sequence has four elements. -/
theorem native_foldlM : ∀ (m : GoMap (List GoValue)) (acc : GoMap StatementInfo),
    (GoMap.keys acc ++ GoMap.keys m).Nodup →
      m.foldlM nativeStep acc =
        some (acc ++ m.filterMap (fun e => (nativeCell e.2).map (fun v => (e.1, v)))) := by
  intro m
  induction m with
  | nil => intro acc _; simp
  | cons e tl ih =>
    intro acc h
    simp only [List.foldlM_cons, nativeStep_eq, Option.some_bind, Option.bind_eq_bind]
    have hk : e.1 ∉ GoMap.keys acc := by
      intro hin
      have := List.nodup_append.mp h
      exact this.2.2 hin (by simp [GoMap.keys])
    cases hc : nativeCell e.2 with
    | none =>
      simp only [List.filterMap_cons, hc, Option.map_none']
      apply ih
      simp only [GoMap.keys, List.map_cons] at h ⊢
      exact (List.nodup_append.mpr ⟨(List.nodup_append.mp h).1,
        ((List.nodup_append.mp h).2.1).of_cons,
        fun a ha hb => (List.nodup_append.mp h).2.2 ha (List.mem_cons_of_mem _ hb)⟩)
    | some v =>
      simp only [List.filterMap_cons, hc, Option.map_some']
      rw [GoMap.insert_of_not_mem acc e.1 v hk, ih]
      · simp
      · simp only [GoMap.keys, List.map_cons, List.map_append, List.map_nil,
          List.append_assoc, List.singleton_append] at h ⊢
        exact h

theorem GoMap.find_cons {V : Type} (e : Nat × V) (m : GoMap V) (k : Nat) :
    GoMap.find (e :: m) k = if e.1 = k then some e.2 else GoMap.find m k := by
  by_cases h : e.1 = k <;> simp [GoMap.find, List.find?_cons, h]

/-- A key of the native map reads, in what the loop stored, the coercions of
its sequence when that has four elements, and nothing otherwise. -/
theorem native_find (k : Nat) : ∀ (m : GoMap (List GoValue)), (GoMap.keys m).Nodup →
    GoMap.find (m.filterMap (fun e => (nativeCell e.2).map (fun v => (e.1, v)))) k =
      (GoMap.find m k).bind nativeCell := by
  intro m
  induction m with
  | nil => intro _; rfl
  | cons e tl ih =>
    intro h
    simp only [GoMap.keys, List.map_cons, List.nodup_cons] at h
    have ih2 := ih h.2
    rw [GoMap.find_cons]
    by_cases hk : e.1 = k
    · simp only [hk, if_true, Option.some_bind]
      cases hc : nativeCell e.2 with
      | none =>
        simp only [List.filterMap_cons, hc, Option.map_none']
        rw [ih2]
        have hnot : GoMap.find tl k = none := by
          simp only [GoMap.find, Option.map_eq_none', List.find?_eq_none]
          intro x hx
          simp only [beq_iff_eq]
          rintro rfl
          exact h.1 (hk ▸ List.mem_map_of_mem Prod.fst hx)
        simp [hnot]
      | some v =>
        simp only [List.filterMap_cons, hc, Option.map_some']
        rw [GoMap.find_cons]
        simp [hk]
    · simp only [hk, if_false]
      cases hc : nativeCell e.2 with
      | none =>
        simp only [List.filterMap_cons, hc, Option.map_none']
        exact ih2
      | some v =>
        simp only [List.filterMap_cons, hc, Option.map_some']
        rw [GoMap.find_cons]
        simp only [hk, if_false]
        exact ih2

theorem toUint32_of_fits (v : GoValue) (h : v.fitsUint32 = true) :
    v.number = some ((toUint32 v : Nat) : Int) := by
  cases v <;> simp only [GoValue.fitsUint32, GoValue.number, GoValue.supported,
    GoValue.inRange, Bool.and_eq_true, decide_eq_true_eq, Bool.false_and, Bool.false_eq_true,
    Bool.true_and] at h <;> simp only [GoValue.number, toUint32, Option.some.injEq]
  all_goals omega

theorem GoMap.mem_of_find {V : Type} (m : GoMap V) (k : Nat) (v : V)
    (h : GoMap.find m k = some v) : (k, v) ∈ m := by
  simp only [GoMap.find, Option.map_eq_some'] at h
  obtain ⟨e, he, rfl⟩ := h
  have hk := List.find?_some he
  have hm := List.mem_of_find?_eq_some he
  simp only [beq_iff_eq] at hk
  rw [← hk]
  exact hm

theorem native_keys : ∀ (m : GoMap (List GoValue)), (∀ e ∈ m, e.2.length = 4) →
    GoMap.keys (m.filterMap (fun e => (nativeCell e.2).map (fun v => (e.1, v)))) =
      GoMap.keys m := by
  intro m
  induction m with
  | nil => intro _; rfl
  | cons e tl ih =>
    intro h
    have he := h e (List.mem_cons_self _ _)
    obtain ⟨k, stmt⟩ := e
    rcases stmt with _ | ⟨a, _ | ⟨b, _ | ⟨c, _ | ⟨d, rest⟩⟩⟩⟩ <;> simp at he
    have := ih (fun x hx => h x (List.mem_cons_of_mem _ hx))
    have hc : nativeCell (a :: b :: c :: d :: rest) =
        some { Line := toUint32 a, Column := toUint32 b, Length := toUint32 c,
               Count := toUint32 d } := rfl
    simp only [GoMap.keys] at this
    simp only [GoMap.keys, List.filterMap_cons, hc, Option.map_some', List.map_cons, this]

/-- The record that `querySingleRecord` assembles: the native loop has
stored the cells with four elements, and the five decoders have returned. -/
theorem querySingleRecord_some (h : String) (t : Nat) (m : GoMap (List GoValue))
    (hkeys : (GoMap.keys m).Nodup) (f b rs rf rb : String) :
    ∃ fn br rst rfn rbr, parseFunctionMapSimple f = some fn ∧
      parseBranchMapSimple b = some br ∧ parseStatementMapSimple rs = some rst ∧
      parseFunctionMapSimple rf = some rfn ∧ parseBranchMapSimple rb = some rbr ∧
      querySingleRecord h m f b rs rf rb t =
        some { Hash := h,
               StatementMap := m.filterMap (fun e => (nativeCell e.2).map (fun v => (e.1, v))),
               FnMap := fn, BranchMap := br, RestoreStatementMap := rst,
               RestoreFnMap := rfn, RestoreBranchMap := rbr, Ts := t } := by
  obtain ⟨fn, hfn⟩ := foldlM_isSome functionStep functionStep_isSome
    (FindAllStringSubmatch functionRe (strings.Trim f "\x7b\x7d")) GoMap.empty
  obtain ⟨br, hbr⟩ := foldlM_isSome branchStep branchStep_isSome
    (FindAllStringSubmatch branchRe (strings.Trim b "\x7b\x7d")) GoMap.empty
  obtain ⟨rst, hrst⟩ := foldlM_isSome statementStep statementStep_isSome
    (FindAllStringSubmatch statementRe (strings.Trim rs "\x7b\x7d")) GoMap.empty
  obtain ⟨rfn, hrfn⟩ := foldlM_isSome functionStep functionStep_isSome
    (FindAllStringSubmatch functionRe (strings.Trim rf "\x7b\x7d")) GoMap.empty
  obtain ⟨rbr, hrbr⟩ := foldlM_isSome branchStep branchStep_isSome
    (FindAllStringSubmatch branchRe (strings.Trim rb "\x7b\x7d")) GoMap.empty
  refine ⟨fn, br, rst, rfn, rbr, hfn, hbr, hrst, hrfn, hrbr, ?_⟩
  have hn := native_foldlM m GoMap.empty (by simpa [GoMap.keys, GoMap.empty] using hkeys)
  have hfn2 : parseFunctionMapSimple f = some fn := hfn
  have hbr2 : parseBranchMapSimple b = some br := hbr
  have hrst2 : parseStatementMapSimple rs = some rst := hrst
  have hrfn2 : parseFunctionMapSimple rf = some rfn := hrfn
  have hrbr2 : parseBranchMapSimple rb = some rbr := hrbr
  simp only [querySingleRecord, hn, hfn2, hbr2, hrst2, hrfn2, hrbr2, Option.bind_eq_bind,
    Option.some_bind]
  simp [GoMap.empty]

/-- C11. End-to-end assembly: for every hash `h`, timestamp `t` and native
statement map `m` (a map, so no key twice) whose values are sequences of four
integers of supported widths in the unsigned 32-bit range, with the five text
fields all `{}`, the assembled record has `Hash = h`, `Ts = t`, a
`StatementMap` with the keys of `m` in which the key `k` holds the four
numbers of `m[k]` as `Line`, `Column`, `Length` and `Count`, and the five
other maps empty; and `h = "abc123"` with `m = {0:[1,2,3,4]}` gives the one
statement entry `{line:1, column:2, length:3, count:4}`. -/
theorem assembled_record (h : String) (t : Nat) (m : GoMap (List GoValue))
    (hkeys : (GoMap.keys m).Nodup)
    (hvals : ∀ e ∈ m, e.2.length = 4 ∧ ∀ v ∈ e.2, v.fitsUint32 = true) :
    (∃ r, querySingleRecord h m "\x7b\x7d" "\x7b\x7d" "\x7b\x7d" "\x7b\x7d" "\x7b\x7d" t =
        some r ∧
      r.Hash = h ∧ r.Ts = t ∧ GoMap.keys r.StatementMap = GoMap.keys m ∧
      (∀ k stmt, GoMap.find m k = some stmt →
        ∃ info, GoMap.find r.StatementMap k = some info ∧
          stmt.map GoValue.number =
            [some (info.Line : Int), some (info.Column : Int), some (info.Length : Int),
              some (info.Count : Int)]) ∧
      r.FnMap = GoMap.empty ∧ r.BranchMap = GoMap.empty ∧
      r.RestoreStatementMap = GoMap.empty ∧ r.RestoreFnMap = GoMap.empty ∧
      r.RestoreBranchMap = GoMap.empty) ∧
    querySingleRecord "abc123"
        [(0, [GoValue.uint32 1, GoValue.uint32 2, GoValue.uint32 3, GoValue.uint32 4])]
        "\x7b\x7d" "\x7b\x7d" "\x7b\x7d" "\x7b\x7d" "\x7b\x7d" t =
      some { Hash := "abc123",
             StatementMap := [(0, { Line := 1, Column := 2, Length := 3, Count := 4 })],
             FnMap := GoMap.empty, BranchMap := GoMap.empty,
             RestoreStatementMap := GoMap.empty, RestoreFnMap := GoMap.empty,
             RestoreBranchMap := GoMap.empty, Ts := t } := by
  refine ⟨?_, rfl⟩
  obtain ⟨fn, br, rst, rfn, rbr, hfn, hbr, hrst, hrfn, hrbr, hq⟩ :=
    querySingleRecord_some h t m hkeys "\x7b\x7d" "\x7b\x7d" "\x7b\x7d" "\x7b\x7d" "\x7b\x7d"
  have e1 : parseFunctionMapSimple "\x7b\x7d" = some GoMap.empty := by decide
  have e2 : parseBranchMapSimple "\x7b\x7d" = some GoMap.empty := by decide
  have e3 : parseStatementMapSimple "\x7b\x7d" = some GoMap.empty := by decide
  rw [e1] at hfn hrfn
  rw [e2] at hbr hrbr
  rw [e3] at hrst
  cases hfn; cases hbr; cases hrst; cases hrfn; cases hrbr
  refine ⟨_, hq, rfl, rfl, native_keys m (fun e he => (hvals e he).1), ?_, rfl, rfl, rfl, rfl,
    rfl⟩
  intro k stmt hfind
  have hmem := GoMap.mem_of_find m k stmt hfind
  obtain ⟨hlen, hfit⟩ := hvals (k, stmt) hmem
  simp only [native_find k m hkeys, hfind, Option.some_bind]
  rcases stmt with _ | ⟨a, _ | ⟨b, _ | ⟨c, _ | ⟨d, rest⟩⟩⟩⟩ <;> simp at hlen
  subst hlen
  refine ⟨_, rfl, ?_⟩
  simp [toUint32_of_fits a (hfit a (by simp)), toUint32_of_fits b (hfit b (by simp)),
    toUint32_of_fits c (hfit c (by simp)), toUint32_of_fits d (hfit d (by simp))]

/-- The witness of C11: a native map with two keys and mixed widths. -/
theorem assembled_record_witness :
    ∃ r, querySingleRecord "h1"
          [(0, [GoValue.uint32 1, GoValue.uint64 2, GoValue.int 3, GoValue.int64 4]),
           (7, [GoValue.int32 5, GoValue.uint32 6, GoValue.uint32 7, GoValue.uint64 8])]
          "\x7b\x7d" "\x7b\x7d" "\x7b\x7d" "\x7b\x7d" "\x7b\x7d" 1700000000 = some r ∧
      r.Hash = "h1" ∧ r.Ts = 1700000000 ∧ GoMap.keys r.StatementMap = [0, 7] ∧
      r.FnMap = GoMap.empty :=
  have hx := (assembled_record "h1" 1700000000
    [(0, [GoValue.uint32 1, GoValue.uint64 2, GoValue.int 3, GoValue.int64 4]),
     (7, [GoValue.int32 5, GoValue.uint32 6, GoValue.uint32 7, GoValue.uint64 8])]
    (by decide) (by decide)).1
  Exists.elim hx (fun r hr => ⟨r, hr.1, hr.2.1, hr.2.2.1, hr.2.2.2.1, hr.2.2.2.2.2.1⟩)

/-! ## The capture groups of every match -/

theorem greedy_caps {R : Type} (cls : Char → Bool) (k : List Char → List Char → Option R)
    (r : R) : ∀ (s acc : List Char), greedy cls k acc s = some r →
      (∀ c ∈ acc, cls c = true) →
      ∃ acc1 s1, k acc1 s1 = some r ∧ (∀ c ∈ acc1, cls c = true) ∧
        acc.length ≤ acc1.length := by
  intro s
  induction s with
  | nil =>
    intro acc h hacc
    exact ⟨acc, [], by simpa [greedy] using h, hacc, le_refl _⟩
  | cons c cs ih =>
    intro acc h hacc
    rw [greedy] at h
    by_cases hc : cls c = true
    · simp only [hc, if_true] at h
      cases hg : greedy cls k (acc ++ [c]) cs with
      | some r1 =>
        rw [hg] at h
        cases h
        obtain ⟨acc1, s1, hk, h1, h2⟩ := ih _ hg (by
          intro x hx
          rcases List.mem_append.mp hx with hx | hx
          · exact hacc x hx
          · simp at hx; rw [hx]; exact hc)
        simp only [List.length_append, List.length_singleton] at h2
        exact ⟨acc1, s1, hk, h1, by omega⟩
      | none =>
        rw [hg] at h
        exact ⟨acc, c :: cs, h, hacc, le_refl _⟩
    · simp only [hc, Bool.false_eq_true, if_false] at h
      exact ⟨acc, c :: cs, h, hacc, le_refl _⟩

/-- The capture groups of a match fit the pattern. -/
theorem matchItems_caps : ∀ (items : List Item) (s : List Char)
    (r : List (List Char) × List Char), matchItems items s = some r → capsOk items r.1 := by
  intro items
  induction items with
  | nil =>
    intro s r h
    simp only [matchItems, Option.some.injEq] at h
    subst h
    simp [capsOk]
  | cons it rest ih =>
    intro s r h
    cases it with
    | lit c0 =>
      cases s with
      | nil => simp [matchItems] at h
      | cons x xs =>
        by_cases hx : x = c0
        · simp only [matchItems, hx, if_true] at h
          simpa [capsOk] using ih xs r h
        · simp [matchItems, hx] at h
    | capStar cls =>
      simp only [matchItems] at h
      obtain ⟨acc1, s1, hk, h1, _⟩ := greedy_caps cls _ r s [] h (by simp)
      cases hm : matchItems rest s1 with
      | none => simp [hm] at hk
      | some r1 =>
        simp only [hm, Option.map_some', Option.some.injEq] at hk
        subst hk
        exact ⟨acc1, r1.1, rfl, h1, ih s1 r1 hm⟩
    | capPlus cls =>
      cases s with
      | nil => simp [matchItems] at h
      | cons x xs =>
        by_cases hx : cls x = true
        · simp only [matchItems, hx, if_true] at h
          obtain ⟨acc1, s1, hk, h1, h2⟩ := greedy_caps cls _ r xs [x] h (by simpa using hx)
          cases hm : matchItems rest s1 with
          | none => simp [hm] at hk
          | some r1 =>
            simp only [hm, Option.map_some', Option.some.injEq] at hk
            subst hk
            refine ⟨acc1, r1.1, rfl, ?_, h1, ih s1 r1 hm⟩
            intro hnil
            rw [hnil] at h2
            simp at h2
        · simp [matchItems, hx] at h

theorem findFirst_caps (re : List Item) : ∀ (s : List Char) (m : List String)
    (rest : List Char), findFirst re s = some (m, rest) →
      ∃ w caps, m = w :: caps.map String.mk ∧ capsOk re caps := by
  intro s
  induction s with
  | nil =>
    intro m rest h
    simp only [findFirst] at h
    cases hm : matchItems re [] with
    | none => simp [hm] at h
    | some r =>
      simp only [hm, Option.map_some', Option.some.injEq, Prod.mk.injEq] at h
      obtain ⟨rfl, _⟩ := h
      exact ⟨_, r.1, rfl, matchItems_caps re [] r hm⟩
  | cons c cs ih =>
    intro m rest h
    simp only [findFirst] at h
    cases hm : matchItems re (c :: cs) with
    | none =>
      simp only [hm] at h
      exact ih m rest h
    | some r =>
      simp only [hm, Option.some.injEq, Prod.mk.injEq] at h
      obtain ⟨rfl, _⟩ := h
      exact ⟨_, r.1, rfl, matchItems_caps re (c :: cs) r hm⟩

/-- Every match of a scan is the whole match followed by capture groups that
fit the pattern. -/
theorem findAll_caps (re : List Item) : ∀ (fuel : Nat) (s : List Char),
    ∀ m ∈ findAll re fuel s, ∃ w caps, m = w :: caps.map String.mk ∧ capsOk re caps := by
  intro fuel
  induction fuel with
  | zero => intro s m hm; simp [findAll] at hm
  | succ f ih =>
    intro s m hm
    simp only [findAll] at hm
    cases hf : findFirst re s with
    | none => simp [hf] at hm
    | some p =>
      obtain ⟨m0, rest⟩ := p
      simp only [hf, List.mem_cons] at hm
      rcases hm with rfl | hm
      · exact findFirst_caps re s _ rest hf
      · exact ih rest m hm

/-- On a digit run `strconv.ParseUint` saturates. -/
theorem ParseUint_digitRun (s : String) (bits : Nat) (hb : bits ≤ 32) (hs : IsDigitRun s) :
    ParsesSaturating s bits := by
  obtain ⟨h1, h2⟩ := hs
  have hpow : 2 ^ bits ≤ 2 ^ 32 := Nat.pow_le_pow_right (by norm_num) hb
  have hpos : 0 < 2 ^ bits := Nat.pow_pos (by norm_num)
  have hloop := ParseUintLoop_digits (2 ^ bits - 1) (by omega) _ h2 0 (Nat.zero_le _)
  have hp : strconv.ParseUint s bits =
      if digitsValue 0 s.data ≤ 2 ^ bits - 1 then (digitsValue 0 s.data, none)
      else (2 ^ bits - 1, some strconv.NumError.ErrRange) := by
    simp only [strconv.ParseUint, h1, if_false, hloop]
  refine ⟨?_, ?_, ?_⟩
  · rw [hp]
    split <;> simp
  · intro hv
    rw [hp, if_pos (by simp only [runValue] at hv; omega)]
    rfl
  · intro hv
    rw [hp, if_neg (by simp only [runValue] at hv; omega)]

theorem isDigitRun_mk (cap : List Char) (h1 : cap ≠ []) (h2 : ∀ c ∈ cap, digit c = true) :
    IsDigitRun (String.mk cap) :=
  ⟨h1, h2⟩

/-- The shape of every match of the statement pattern. -/
theorem statement_match_shape (fuel : Nat) (t : List Char) :
    ∀ m ∈ findAll statementRe fuel t, ∃ w dk da db dc dd, m = [w, dk, da, db, dc, dd] ∧
      IsDigitRun dk ∧ IsDigitRun da ∧ IsDigitRun db ∧ IsDigitRun dc ∧ IsDigitRun dd := by
  intro m hm
  obtain ⟨w, caps, rfl, h⟩ := findAll_caps statementRe fuel t m hm
  simp only [statementRe, capsOk] at h
  obtain ⟨k, _, rfl, hk1, hk2, a, _, rfl, ha1, ha2, b, _, rfl, hb1, hb2, c, _, rfl, hc1, hc2,
    d, _, rfl, hd1, hd2, rfl⟩ := h
  exact ⟨w, _, _, _, _, _, rfl, ⟨hk1, hk2⟩, ⟨ha1, ha2⟩, ⟨hb1, hb2⟩, ⟨hc1, hc2⟩, ⟨hd1, hd2⟩⟩

/-- The shape of every match of the path pattern. -/
theorem path_match_shape (fuel : Nat) (t : List Char) :
    ∀ m ∈ findAll pathRe fuel t, ∃ w da db dc dd, m = [w, da, db, dc, dd] ∧
      IsDigitRun da ∧ IsDigitRun db ∧ IsDigitRun dc ∧ IsDigitRun dd := by
  intro m hm
  obtain ⟨w, caps, rfl, h⟩ := findAll_caps pathRe fuel t m hm
  simp only [pathRe, capsOk] at h
  obtain ⟨a, _, rfl, ha1, ha2, b, _, rfl, hb1, hb2, c, _, rfl, hc1, hc2,
    d, _, rfl, hd1, hd2, rfl⟩ := h
  exact ⟨w, _, _, _, _, rfl, ⟨ha1, ha2⟩, ⟨hb1, hb2⟩, ⟨hc1, hc2⟩, ⟨hd1, hd2⟩⟩

/-- The shape of every match of the function pattern. -/
theorem function_match_shape (fuel : Nat) (t : List Char) :
    ∀ m ∈ findAll functionRe fuel t, ∃ w dk name dl s1 s2 s3 s4 e1 e2 e3 e4,
      m = [w, dk, name, dl, s1, s2, s3, s4, e1, e2, e3, e4] ∧ '\'' ∉ name.data ∧
      IsDigitRun dk ∧ IsDigitRun dl ∧ IsDigitRun s1 ∧ IsDigitRun s2 ∧ IsDigitRun s3 ∧
      IsDigitRun s4 ∧ IsDigitRun e1 ∧ IsDigitRun e2 ∧ IsDigitRun e3 ∧ IsDigitRun e4 := by
  intro m hm
  obtain ⟨w, caps, rfl, h⟩ := findAll_caps functionRe fuel t m hm
  simp only [functionRe, capsOk] at h
  obtain ⟨k, _, rfl, hk1, hk2, n, _, rfl, hn, l, _, rfl, hl1, hl2,
    s1, _, rfl, hs11, hs12, s2, _, rfl, hs21, hs22, s3, _, rfl, hs31, hs32,
    s4, _, rfl, hs41, hs42, e1, _, rfl, he11, he12, e2, _, rfl, he21, he22,
    e3, _, rfl, he31, he32, e4, _, rfl, he41, he42, rfl⟩ := h
  refine ⟨w, _, _, _, _, _, _, _, _, _, _, _, rfl, ?_, ⟨hk1, hk2⟩, ⟨hl1, hl2⟩, ⟨hs11, hs12⟩,
    ⟨hs21, hs22⟩, ⟨hs31, hs32⟩, ⟨hs41, hs42⟩, ⟨he11, he12⟩, ⟨he21, he22⟩, ⟨he31, he32⟩,
    ⟨he41, he42⟩⟩
  intro hq
  have := hn _ hq
  simp [notChar] at this

/-- The shape of every match of the branch pattern. -/
theorem branch_match_shape (fuel : Nat) (t : List Char) :
    ∀ m ∈ findAll branchRe fuel t, ∃ w dk dt dl p1 p2 p3 p4 paths,
      m = [w, dk, dt, dl, p1, p2, p3, p4, paths] ∧ ']' ∉ paths.data ∧
      IsDigitRun dk ∧ IsDigitRun dt ∧ IsDigitRun dl ∧ IsDigitRun p1 ∧ IsDigitRun p2 ∧
      IsDigitRun p3 ∧ IsDigitRun p4 := by
  intro m hm
  obtain ⟨w, caps, rfl, h⟩ := findAll_caps branchRe fuel t m hm
  simp only [branchRe, capsOk] at h
  obtain ⟨k, _, rfl, hk1, hk2, ty, _, rfl, ht1, ht2, l, _, rfl, hl1, hl2,
    p1, _, rfl, hp11, hp12, p2, _, rfl, hp21, hp22, p3, _, rfl, hp31, hp32,
    p4, _, rfl, hp41, hp42, x, _, rfl, hx, rfl⟩ := h
  refine ⟨w, _, _, _, _, _, _, _, _, rfl, ?_, ⟨hk1, hk2⟩, ⟨ht1, ht2⟩, ⟨hl1, hl2⟩, ⟨hp11, hp12⟩,
    ⟨hp21, hp22⟩, ⟨hp31, hp32⟩, ⟨hp41, hp42⟩⟩
  intro hq
  have := hx _ hq
  simp [notChar] at this

/-- The field stored for a digit run whose value fits 32 bits. -/
theorem field32_digitRun (m : List String) (i : Nat) (s : String) (hm : m[i]? = some s)
    (hs : IsDigitRun s) (hv : runValue s < 2 ^ 32) : field32 m i = some (runValue s) := by
  have hp := (ParseUint_digitRun s 32 (le_refl _) hs).2.1 hv
  simp only [field32, hm, Option.bind_eq_bind, Option.some_bind, hp]
  simp only [pure, Nat.mod_eq_of_lt hv]

theorem digitField_of_run (m : List String) (i bits : Nat) (ds : String) (hb : bits ≤ 32)
    (hm : m[i]? = some ds) (hs : IsDigitRun ds) : DigitField m i bits := by
  have hp := ParseUint_digitRun ds bits hb hs
  refine ⟨ds, hm, hs, hp, ?_⟩
  intro hv
  rw [hp.2.1 hv]
  exact Nat.mod_eq_of_lt hv

/-- C12, as the claim states it, fails: the text `4294967296:(1,2,3,4)` is
matched by the statement pattern with the key run `4294967296`, on which
`strconv.ParseUint` with bit size 32 returns a range error and the value
4294967295, and that value is stored as the key instead of the value of the
run. -/
theorem parse_error_after_match :
    regexp.FindAllStringSubmatch statementRe
        (strings.Trim "4294967296:(1,2,3,4)" "\x7b\x7d") =
      [["4294967296:(1,2,3,4)", "4294967296", "1", "2", "3", "4"]] ∧
    strconv.ParseUint "4294967296" 32 = (4294967295, some strconv.NumError.ErrRange) ∧
    runValue "4294967296" = 4294967296 ∧
    parseStatementMapSimple "4294967296:(1,2,3,4)" =
      some [(4294967295, { Line := 1, Column := 2, Length := 3, Count := 4 })] := by
  decide

/-- C12, amended. For every text and every match found by
`parseStatementMapSimple`, `parseFunctionMapSimple`, `parseBranchMapSimple`
or `parsePaths`, each captured numeric field is a non-empty digit run, and
the call of `strconv.ParseUint` on it (bit size 32, and 8 for the branch
type) never returns a syntax error: it succeeds with the value of the run
when that value fits the bit size, and the stored field is then that value;
when the value does not fit it returns a range error with the largest value
of the bit size. -/
theorem digit_fields_parse (s : String) :
    (∀ m ∈ regexp.FindAllStringSubmatch statementRe (strings.Trim s "\x7b\x7d"),
      ∀ i ∈ [1, 2, 3, 4, 5], DigitField m i 32) ∧
    (∀ m ∈ regexp.FindAllStringSubmatch functionRe (strings.Trim s "\x7b\x7d"),
      ∀ i ∈ [1, 3, 4, 5, 6, 7, 8, 9, 10, 11], DigitField m i 32) ∧
    (∀ m ∈ regexp.FindAllStringSubmatch branchRe (strings.Trim s "\x7b\x7d"),
      DigitField m 2 8 ∧ ∀ i ∈ [1, 3, 4, 5, 6, 7], DigitField m i 32) ∧
    (∀ m ∈ regexp.FindAllStringSubmatch pathRe s, ∀ i ∈ [1, 2, 3, 4], DigitField m i 32) := by
  refine ⟨?_, ?_, ?_, ?_⟩
  · intro m hm i hi
    obtain ⟨w, dk, da, db, dc, dd, rfl, hk, ha, hb, hc, hd⟩ := statement_match_shape _ _ m hm
    simp only [List.mem_cons, List.mem_singleton, List.not_mem_nil, or_false] at hi
    rcases hi with rfl | rfl | rfl | rfl | rfl
    · exact digitField_of_run _ _ _ _ (le_refl _) rfl hk
    · exact digitField_of_run _ _ _ _ (le_refl _) rfl ha
    · exact digitField_of_run _ _ _ _ (le_refl _) rfl hb
    · exact digitField_of_run _ _ _ _ (le_refl _) rfl hc
    · exact digitField_of_run _ _ _ _ (le_refl _) rfl hd
  · intro m hm i hi
    obtain ⟨w, dk, name, dl, s1, s2, s3, s4, e1, e2, e3, e4, rfl, _, hk, hl, h1, h2, h3, h4,
      h5, h6, h7, h8⟩ := function_match_shape _ _ m hm
    simp only [List.mem_cons, List.mem_singleton, List.not_mem_nil, or_false] at hi
    rcases hi with rfl | rfl | rfl | rfl | rfl | rfl | rfl | rfl | rfl | rfl
    · exact digitField_of_run _ _ _ _ (le_refl _) rfl hk
    · exact digitField_of_run _ _ _ _ (le_refl _) rfl hl
    · exact digitField_of_run _ _ _ _ (le_refl _) rfl h1
    · exact digitField_of_run _ _ _ _ (le_refl _) rfl h2
    · exact digitField_of_run _ _ _ _ (le_refl _) rfl h3
    · exact digitField_of_run _ _ _ _ (le_refl _) rfl h4
    · exact digitField_of_run _ _ _ _ (le_refl _) rfl h5
    · exact digitField_of_run _ _ _ _ (le_refl _) rfl h6
    · exact digitField_of_run _ _ _ _ (le_refl _) rfl h7
    · exact digitField_of_run _ _ _ _ (le_refl _) rfl h8
  · intro m hm
    obtain ⟨w, dk, dt, dl, p1, p2, p3, p4, paths, rfl, _, hk, ht, hl, h1, h2, h3, h4⟩ :=
      branch_match_shape _ _ m hm
    refine ⟨digitField_of_run _ _ _ _ (by norm_num) rfl ht, ?_⟩
    intro i hi
    simp only [List.mem_cons, List.mem_singleton, List.not_mem_nil, or_false] at hi
    rcases hi with rfl | rfl | rfl | rfl | rfl | rfl
    · exact digitField_of_run _ _ _ _ (le_refl _) rfl hk
    · exact digitField_of_run _ _ _ _ (le_refl _) rfl hl
    · exact digitField_of_run _ _ _ _ (le_refl _) rfl h1
    · exact digitField_of_run _ _ _ _ (le_refl _) rfl h2
    · exact digitField_of_run _ _ _ _ (le_refl _) rfl h3
    · exact digitField_of_run _ _ _ _ (le_refl _) rfl h4
  · intro m hm i hi
    obtain ⟨w, da, db, dc, dd, rfl, ha, hb, hc, hd⟩ := path_match_shape _ _ m hm
    simp only [List.mem_cons, List.mem_singleton, List.not_mem_nil, or_false] at hi
    rcases hi with rfl | rfl | rfl | rfl
    · exact digitField_of_run _ _ _ _ (le_refl _) rfl ha
    · exact digitField_of_run _ _ _ _ (le_refl _) rfl hb
    · exact digitField_of_run _ _ _ _ (le_refl _) rfl hc
    · exact digitField_of_run _ _ _ _ (le_refl _) rfl hd

/-! ## A fragment before an entry -/

theorem dropWhile_append_all (P : Char → Bool) (p l : List Char)
    (hp : ∀ c ∈ p, P c = true) : (p ++ l).dropWhile P = l.dropWhile P := by
  induction p with
  | nil => rfl
  | cons c cs ih =>
    simp only [List.cons_append, List.dropWhile_cons, hp c (List.mem_cons_self _ _), if_true]
    exact ih (fun x hx => hp x (List.mem_cons_of_mem _ hx))

theorem dropWhile_append_of_ne_nil (P : Char → Bool) (s q : List Char)
    (h : s.dropWhile P ≠ []) : (s ++ q).dropWhile P = s.dropWhile P ++ q := by
  induction s with
  | nil => simp at h
  | cons c cs ih =>
    by_cases hc : P c = true
    · simp only [List.cons_append, List.dropWhile_cons, hc, if_true] at h ⊢
      exact ih h
    · simp [List.dropWhile_cons, hc]

theorem dropWhile_append_stop (P : Char → Bool) (f : List Char) (c : Char) (t : List Char)
    (hc : P c = false) : (f ++ c :: t).dropWhile P = f.dropWhile P ++ c :: t := by
  induction f with
  | nil => simp [List.dropWhile_cons, hc]
  | cons x xs ih =>
    by_cases hx : P x = true
    · simp only [List.cons_append, List.dropWhile_cons, hx, if_true]
      exact ih
    · simp [List.dropWhile_cons, hx]

theorem dropWhile_suffix (P : Char → Bool) (l : List Char) : l.dropWhile P <:+ l := by
  induction l with
  | nil => exact List.suffix_refl _
  | cons c cs ih =>
    by_cases hc : P c = true
    · simp only [List.dropWhile_cons, hc, if_true]
      exact ih.trans (List.suffix_cons _ _)
    · simp only [List.dropWhile_cons, hc, Bool.false_eq_true, if_false]
      exact List.suffix_refl _

/-- Positions at which no match starts are passed over, also when a match
attempt there reads on into the text that follows. -/
theorem findFirst_skip_tails (re : List Item) (s : List Char) :
    ∀ sep : List Char, (∀ t ∈ sep.tails, t ≠ [] → matchItems re (t ++ s) = none) →
      findFirst re (sep ++ s) = findFirst re s := by
  intro sep
  induction sep with
  | nil => intro _; rfl
  | cons c cs ih =>
    intro h
    have hc := h (c :: cs) (by simp) (by simp)
    rw [List.cons_append] at hc ⊢
    rw [findFirst_cons_none re c _ hc]
    exact ih (fun t ht hne => h t (by simp [ht]) hne)

/-- The scan of a fragment in which no match starts, a comma and one entry:
the entry is the only match. -/
theorem findAll_fragment_entry (re : List Item) (f e : List Char) (caps : List (List Char))
    (hf : ∀ t ∈ f.tails, t ≠ [] → matchItems re (t ++ ',' :: e) = none)
    (hcomma : matchItems re (',' :: e) = none) (hne : e ≠ [])
    (he : matchItems re (e ++ []) = some (caps, [])) (hempty : findFirst re [] = none) :
    findAll re ((f ++ ',' :: e).length + 1) (f ++ ',' :: e) =
      [String.mk e :: caps.map String.mk] := by
  have h1 : findFirst re (f ++ ',' :: e) = some (String.mk e :: caps.map String.mk, []) := by
    rw [findFirst_skip_tails re _ f hf, findFirst_cons_none re ',' e hcomma]
    have := findFirst_entry re e [] caps hne he
    simpa using this
  have hlen : (f ++ ',' :: e).length = (f.length + e.length) + 1 := by
    simp only [List.length_append, List.length_cons]; omega
  rw [hlen]
  simp only [findAll, h1, hempty]

/-- C13, as the claim states it, fails: the fragment `1:(2,3,(4,5,6,7),[`
holds no match of the branch pattern, yet followed by a comma and the entry
`9:(1,2,(3,4,5,6),[(1,2,3,4)])` it opens a match that takes the entry into
its path list: the result has the key 1 and no key 9. -/
theorem branch_fragment_swallows_entry :
    regexp.FindAllStringSubmatch branchRe "1:(2,3,(4,5,6,7),[" = [] ∧
    parseBranchMapSimple
        ("1:(2,3,(4,5,6,7),[" ++ "," ++ branchEntry 9 ⟨1, 2, (3, 4, 5, 6), [(1, 2, 3, 4)]⟩) =
      some [(1, ⟨2, 3, (4, 5, 6, 7), [(3, 4, 5, 6), (1, 2, 3, 4)]⟩)] ∧
    (parseBranchMapSimple
        ("1:(2,3,(4,5,6,7),[" ++ "," ++ branchEntry 9 ⟨1, 2, (3, 4, 5, 6), [(1, 2, 3, 4)]⟩)).map
      (fun r => GoMap.find r 9) = some none := by
  decide

/-- C13, amended. Skip-on-mismatch in the branch decoder: for every text made
of a fragment, a comma and a well-formed branch entry with key `k`, such that
no match of the branch pattern starts at a position of the fragment (also
none that runs on into the entry), `parseBranchMapSimple` returns the mapping
with the single key `k`, holding that entry's type, line, position and
paths. -/
theorem branch_fragment_skipped (F : String) (k : Nat) (v : BranchInfo) (hk : k < 2 ^ 32)
    (hv : BranchInfo.inRange v)
    (hF : ∀ t ∈ F.data.tails, t ≠ [] →
      matchItems branchRe (t ++ ',' :: (branchEntry k v).data) = none) :
    parseBranchMapSimple (F ++ "," ++ branchEntry k v) = some [(k, v)] := by
  have hcomma : strings.inCutset "\x7b\x7d" ',' = false := by decide
  have hparen : strings.inCutset "\x7b\x7d" ')' = false := by decide
  obtain ⟨i, hi⟩ := branchEntry_last k v
  have htrim : strings.Trim (F ++ "," ++ branchEntry k v) "\x7b\x7d" =
      String.mk (F.data.dropWhile (strings.inCutset "\x7b\x7d") ++
        ',' :: (branchEntry k v).data) := by
    have hd : (F ++ "," ++ branchEntry k v).data = F.data ++ ',' :: (branchEntry k v).data := by
      simp [String.data_append]
    simp only [strings.Trim, hd, dropWhile_append_stop _ _ _ _ hcomma]
    congr 1
    apply reverse_dropWhile_reverse
    intro c hc
    rw [hi] at hc
    have hl : (List.dropWhile (strings.inCutset "\x7b\x7d") F.data ++ ',' :: (i ++ [')'])) =
        (List.dropWhile (strings.inCutset "\x7b\x7d") F.data ++ ',' :: i) ++ [')'] := by simp
    rw [hl, List.getLast?_append] at hc
    simp at hc
    rw [← hc]; exact hparen
  have hne : (branchEntry k v).data ≠ [] := by
    obtain ⟨c, t, h0, _⟩ := branchEntry_head k v
    rw [h0]; simp
  have hscan := findAll_fragment_entry branchRe
    (F.data.dropWhile (strings.inCutset "\x7b\x7d")) (branchEntry k v).data _
    (by
      intro t ht hnil
      apply hF t _ hnil
      rw [List.mem_tails] at ht ⊢
      exact ht.trans (dropWhile_suffix _ _))
    (matchItems_capPlus_reject _ _ _ _ (by decide)) hne
    (matchItems_branchEntry k v []) (findFirst_nil_capPlus _ _)
  simp only [parseBranchMapSimple, htrim, FindAllStringSubmatch, hscan, List.foldlM_cons,
    List.foldlM_nil, branchStep_entry GoMap.empty _ k v hk hv]
  rfl

/-- The witness of C13, amended: the fragment `1:(2,3,(4,5` before the entry
`9:(1,2,(3,4,5,6),[(1,2,3,4)])`. -/
theorem branch_fragment_skipped_witness :
    (∀ t ∈ "1:(2,3,(4,5".data.tails, t ≠ [] →
      matchItems branchRe
        (t ++ ',' :: (branchEntry 9 ⟨1, 2, (3, 4, 5, 6), [(1, 2, 3, 4)]⟩).data) = none) ∧
    parseBranchMapSimple
        ("1:(2,3,(4,5" ++ "," ++ branchEntry 9 ⟨1, 2, (3, 4, 5, 6), [(1, 2, 3, 4)]⟩) =
      some [(9, ⟨1, 2, (3, 4, 5, 6), [(1, 2, 3, 4)]⟩)] :=
  ⟨by decide, branch_fragment_skipped "1:(2,3,(4,5" 9 ⟨1, 2, (3, 4, 5, 6), [(1, 2, 3, 4)]⟩
    (by decide) (by decide) (by decide)⟩

/-! ## Names with a backslash or a single quote -/

theorem one_entry_text (e : String) :
    "\x7b" ++ e ++ "\x7d" = "\x7b" ++ joinEntries [("", e)] ++ "\x7d" := by
  apply String.ext
  simp [joinEntries, concatSegs, String.data_append]

/-- C14, as the claim states it, fails: the entry
`1:('a\b',2,(1,2,3,4),(5,6,7,8))`, whose name holds a backslash, is decoded,
with the name kept as it is written. -/
theorem backslash_name_is_decoded :
    '\\' ∈ "a\\b".data ∧
    parseFunctionMapSimple ("\x7b" ++ functionEntry 1 ⟨"a\\b", 2, (1, 2, 3, 4), (5, 6, 7, 8)⟩ ++
        "\x7d") =
      some [(1, ⟨"a\\b", 2, (1, 2, 3, 4), (5, 6, 7, 8)⟩)] ∧
    parseFunctionMapSimple "1:('a\\b',2,(1,2,3,4),(5,6,7,8))" =
      some [(1, ⟨"a\\b", 2, (1, 2, 3, 4), (5, 6, 7, 8)⟩)] := by
  decide

/-- C14, amended. A backslash in a function name does not break the match:
for every function entry `k:('name',l,(s1..s4),(e1..e4))` with numbers in the
unsigned 32-bit range whose name holds a backslash and no single quote,
`parseFunctionMapSimple` decodes the one-entry text to the mapping with the
single key `k`, the name stored as written, backslash included. -/
theorem backslash_name_kept (k : Nat) (v : FunctionInfo) (hk : k < 2 ^ 32)
    (hv : FunctionInfo.inRange v) (hb : '\\' ∈ v.Name.data) (hq : '\'' ∉ v.Name.data) :
    parseFunctionMapSimple ("\x7b" ++ functionEntry k v ++ "\x7d") = some [(k, v)] ∧
      ∀ r, parseFunctionMapSimple ("\x7b" ++ functionEntry k v ++ "\x7d") = some r →
        ∃ x, GoMap.find r k = some x ∧ '\\' ∈ x.Name.data := by
  have h := parseFunction_joined [("", k, v)] (by simp)
    (by
      intro g hg
      simp only [List.mem_singleton] at hg
      subst hg
      exact ⟨hk, hv, hq⟩)
  have h2 : parseFunctionMapSimple ("\x7b" ++ functionEntry k v ++ "\x7d") = some [(k, v)] := by
    rw [one_entry_text]
    exact h
  refine ⟨h2, ?_⟩
  intro r hr
  rw [h2] at hr
  cases hr
  exact ⟨v, by simp [GoMap.find], hb⟩

/-- The witness of C14, amended: the name `C:\dir`. -/
theorem backslash_name_kept_witness :
    ('\\' ∈ "C:\\dir".data ∧ '\'' ∉ "C:\\dir".data) ∧
    parseFunctionMapSimple
        ("\x7b" ++ functionEntry 4 ⟨"C:\\dir", 2, (1, 2, 3, 4), (5, 6, 7, 8)⟩ ++ "\x7d") =
      some [(4, ⟨"C:\\dir", 2, (1, 2, 3, 4), (5, 6, 7, 8)⟩)] :=
  ⟨by decide, (backslash_name_kept 4 ⟨"C:\\dir", 2, (1, 2, 3, 4), (5, 6, 7, 8)⟩ (by decide)
    (by decide) (by decide) (by decide)).1⟩

/-- A greedy group on a run of its class followed by text outside the class,
when the rest of the pattern fails wherever the group stops short of the end
of the run: the group takes the whole run. -/
theorem greedy_run_exact {R : Type} (cls : Char → Bool) (k : List Char → List Char → Option R)
    (s : List Char) (hs : ∀ c t, s = c :: t → cls c = false) :
    ∀ (ds acc : List Char), (∀ c ∈ ds, cls c = true) →
      (∀ d1 d2, ds = d1 ++ d2 → d2 ≠ [] → k (acc ++ d1) (d2 ++ s) = none) →
      greedy cls k acc (ds ++ s) = k (acc ++ ds) s := by
  intro ds
  induction ds with
  | nil =>
    intro acc _ _
    simp only [List.append_nil, List.nil_append]
    cases s with
    | nil => simp [greedy]
    | cons c t => simp [greedy, hs c t rfl]
  | cons d ds ih =>
    intro acc hds hk
    have hd : cls d = true := hds d (List.mem_cons_self _ _)
    have h1 := ih (acc ++ [d]) (fun c hc => hds c (List.mem_cons_of_mem _ hc))
      (by
        intro d1 d2 h12 hne
        have := hk (d :: d1) d2 (by rw [h12]; rfl) hne
        simpa using this)
    have h0 := hk [] (d :: ds) rfl (by simp)
    simp only [List.append_nil, List.cons_append] at h0
    have hassoc : acc ++ [d] ++ ds = acc ++ d :: ds := by simp
    rw [hassoc] at h1
    rw [List.cons_append, greedy, if_pos hd, h1]
    cases hr : k (acc ++ d :: ds) s with
    | some r => rfl
    | none => exact h0

/-- The group `(C*)` before a literal outside `C`, on a run of `C` followed
by that literal: the group takes the whole run, whatever the rest of the
pattern then does. -/
theorem matchItems_capStar_lit_exact (cls : Char → Bool) (c : Char) (hc : cls c = false)
    (rest : List Item) (ds s : List Char) (hds : ∀ x ∈ ds, cls x = true) :
    matchItems (Item.capStar cls :: Item.lit c :: rest) (ds ++ c :: s) =
      (matchItems rest s).map (fun r => (ds :: r.1, r.2)) := by
  rw [matchItems, greedy_run_exact cls _ (c :: s) (by intro x t hx; cases hx; exact hc)
    ds [] hds]
  · simp [matchItems]
  · intro d1 d2 h12 hne
    cases d2 with
    | nil => exact absurd rfl hne
    | cons y ys =>
      have hy : cls y = true := hds y (by rw [h12]; simp)
      have hyc : y ≠ c := by rintro rfl; rw [hc] at hy; exact absurd hy (by simp)
      simp [matchItems, hyc]

/-- The group `(C+)` before a literal outside `C`, on a non-empty run of `C`
followed by that literal. -/
theorem matchItems_capPlus_lit_exact (cls : Char → Bool) (c : Char) (hc : cls c = false)
    (rest : List Item) (ds s : List Char) (hne : ds ≠ []) (hds : ∀ x ∈ ds, cls x = true) :
    matchItems (Item.capPlus cls :: Item.lit c :: rest) (ds ++ c :: s) =
      (matchItems rest s).map (fun r => (ds :: r.1, r.2)) := by
  cases ds with
  | nil => exact absurd rfl hne
  | cons d ds =>
    have hd : cls d = true := hds d (List.mem_cons_self _ _)
    rw [List.cons_append, matchItems, if_pos hd,
      greedy_run_exact cls _ (c :: s) (by intro x t hx; cases hx; exact hc) ds [d]
      (fun x hx => hds x (List.mem_cons_of_mem _ hx))]
    · simp [matchItems]
    · intro d1 d2 h12 hne2
      cases d2 with
      | nil => exact absurd rfl hne2
      | cons y ys =>
        have hy : cls y = true := hds y (by rw [h12]; simp)
        have hyc : y ≠ c := by rintro rfl; rw [hc] at hy; exact absurd hy (by simp)
        simp [matchItems, hyc]

/-- No match in a text at none of whose positions the pattern matches. -/
theorem findFirst_none_of_tails (re : List Item) :
    ∀ s : List Char, (∀ t ∈ s.tails, matchItems re t = none) → findFirst re s = none := by
  intro s
  induction s with
  | nil =>
    intro h
    simp [findFirst, h [] (by simp)]
  | cons c cs ih =>
    intro h
    rw [findFirst_cons_none re c cs (h (c :: cs) (by simp))]
    exact ih (fun t ht => h t (by simp [ht]))

theorem matchItems_none_of_no_literal (re : List Item) (c : Char) (hc : Item.lit c ∈ re)
    (t : List Char) (ht : c ∉ t) : matchItems re t = none := by
  cases h : matchItems re t with
  | none => rfl
  | some r => exact absurd ((matchItems_some re t r h).1 c hc) ht

theorem suffix_run_append (x : List Char) : ∀ (ds t : List Char), (∀ c ∈ ds, digit c = true) →
    t <:+ ds ++ x →
      (∃ d1, d1 ≠ [] ∧ (∀ c ∈ d1, digit c = true) ∧ t = d1 ++ x) ∨ t <:+ x := by
  intro ds
  induction ds with
  | nil => intro t _ h; exact Or.inr h
  | cons d ds ih =>
    intro t hds h
    rw [List.cons_append, List.suffix_cons_iff] at h
    rcases h with rfl | h
    · exact Or.inl ⟨d :: ds, by simp, hds, rfl⟩
    · exact ih t (fun c hc => hds c (List.mem_cons_of_mem _ hc)) h

theorem not_colon_of_digit (c : Char) (h : c.isDigit = true) : c ≠ ':' := by
  rintro rfl
  exact absurd h (by decide)

theorem colon_not_mem_quadText (q : Quad) : ':' ∉ (quadText q).data := by
  intro h
  rcases mem_quadText q _ h with h | h | h | h
  · exact absurd h (by decide)
  · exact absurd h (by decide)
  · exact absurd h (by decide)
  · exact absurd h (by decide)

/-- No match of the function pattern in the text of an entry whose name has
a single quote that no comma follows, and no colon. -/
theorem findFirst_quoted_name (k : Nat) (v : FunctionInfo) (n1 n2 : String)
    (hname : v.Name = n1 ++ "'" ++ n2) (hn1 : '\'' ∉ n1.data)
    (hn2 : n2.data.head? ≠ some ',') (hcolon : ':' ∉ v.Name.data) :
    findFirst functionRe (functionEntry k v).data = none := by
  obtain ⟨name, l, sp, ep⟩ := v
  simp only at hname hcolon
  obtain ⟨_, hdig, _⟩ := toDigits_spec k
  have hnd : name.data = n1.data ++ '\'' :: n2.data := by
    rw [hname]; simp [String.data_append]
  apply findFirst_none_of_tails
  intro t ht
  rw [List.mem_tails, functionEntry_data] at ht
  rcases suffix_run_append _ _ t hdig ht with ⟨d1, hne, hd1, rfl⟩ | hsuf
  · simp only [functionRe]
    rw [matchItems_capPlus_lit_exact digit ':' (by decide) _ d1 _ hne hd1]
    simp only [matchItems_lit, hnd, List.append_assoc, List.cons_append]
    rw [matchItems_capStar_lit_exact (notChar '\'') '\'' (by simp [notChar]) _ n1.data _
      (by
        intro x hx
        simp only [notChar, bne_iff_ne, ne_eq]
        rintro rfl
        exact hn1 hx)]
    cases hn : n2.data with
    | nil => simp [matchItems]
    | cons y ys =>
      have hy : y ≠ ',' := by
        rintro rfl
        exact hn2 (by rw [hn]; rfl)
      simp [matchItems, hy]
  · rw [List.suffix_cons_iff] at hsuf
    rcases hsuf with rfl | hsuf
    · exact matchItems_capPlus_reject _ _ _ _ (by decide)
    · apply matchItems_none_of_no_literal functionRe ':' (by simp [functionRe])
      intro hmem
      have hin := hsuf.subset hmem
      simp only [List.mem_cons, List.mem_append, List.mem_singleton, List.not_mem_nil,
        or_false] at hin
      rcases hin with h | h | h | h | h | h | h | h | h | h | h
      · exact absurd h (by decide)
      · exact absurd h (by decide)
      · exact hcolon h
      · exact absurd h (by decide)
      · exact absurd h (by decide)
      · exact not_colon_of_digit _ ((toDigits_spec l).2.1 _ h) rfl
      · exact absurd h (by decide)
      · exact colon_not_mem_quadText sp h
      · exact absurd h (by decide)
      · exact colon_not_mem_quadText ep h
      · exact absurd h (by decide)

/-- C15, as the claim states it, fails: the name `x',1,(1,2,3,4),(5,6,7,8))`
holds a single quote, and the one-entry text for key 7 built with it decodes
to an entry for key 7, with the name `x`. -/
theorem quoted_name_can_leave_an_entry :
    '\'' ∈ "x',1,(1,2,3,4),(5,6,7,8))".data ∧
    parseFunctionMapSimple
        ("\x7b" ++ functionEntry 7 ⟨"x',1,(1,2,3,4),(5,6,7,8))", 9, (1, 1, 1, 1), (2, 2, 2, 2)⟩ ++
          "\x7d") =
      some [(7, ⟨"x", 1, (1, 2, 3, 4), (5, 6, 7, 8)⟩)] := by
  decide

/-- C15, amended. A single quote in a function name breaks the match when no
comma follows it: for every function entry `k:('name',l,(s1..s4),(e1..e4))`
whose name holds a single quote, the first of them not followed by a comma,
and no colon, `parseFunctionMapSimple` skips the entry: the mapping decoded
from the one-entry text is empty, so it has no entry for `k`.  Here `n1` is
the name up to its first single quote and `n2` the name after it. -/
theorem quoted_name_skipped (k : Nat) (v : FunctionInfo) (n1 n2 : String)
    (hname : v.Name = n1 ++ "'" ++ n2) (hn1 : '\'' ∉ n1.data)
    (hn2 : n2.data.head? ≠ some ',') (hcolon : ':' ∉ v.Name.data) :
    parseFunctionMapSimple ("\x7b" ++ functionEntry k v ++ "\x7d") = some GoMap.empty ∧
      ∀ r, parseFunctionMapSimple ("\x7b" ++ functionEntry k v ++ "\x7d") = some r →
        GoMap.find r k = none := by
  have hfirst := findFirst_quoted_name k v n1 n2 hname hn1 hn2 hcolon
  have htrim : strings.Trim ("\x7b" ++ functionEntry k v ++ "\x7d") "\x7b\x7d" =
      String.mk (functionEntry k v).data := by
    rw [braced_data]
    apply Trim_braces
    · intro c hc
      obtain ⟨c0, t, h0, hd⟩ := functionEntry_head k v
      rw [h0] at hc
      simp at hc
      rw [← hc]; exact isDigit_not_brace c0 hd
    · intro c hc
      obtain ⟨i, hi⟩ := functionEntry_last k v
      rw [hi] at hc
      simp at hc
      rw [← hc]; decide
  have h : parseFunctionMapSimple ("\x7b" ++ functionEntry k v ++ "\x7d") =
      some GoMap.empty := by
    simp only [parseFunctionMapSimple, htrim, FindAllStringSubmatch, findAll, hfirst]
    rfl
  refine ⟨h, ?_⟩
  intro r hr
  rw [h] at hr
  cases hr
  rfl

/-- The witness of C15, amended: the name `a'b`. -/
theorem quoted_name_skipped_witness :
    (("a'b" : String) = "a" ++ "'" ++ "b" ∧ '\'' ∉ "a".data ∧ "b".data.head? ≠ some ',' ∧
      ':' ∉ "a'b".data) ∧
    parseFunctionMapSimple
        ("\x7b" ++ functionEntry 7 ⟨"a'b", 9, (1, 1, 1, 1), (2, 2, 2, 2)⟩ ++ "\x7d") =
      some GoMap.empty :=
  ⟨by decide, (quoted_name_skipped 7 ⟨"a'b", 9, (1, 1, 1, 1), (2, 2, 2, 2)⟩ "a" "b" (by decide)
    (by decide) (by decide) (by decide)).1⟩

/-! ## Braces around a text -/

theorem dropWhile_eq_nil_of_all (P : Char → Bool) (l : List Char)
    (h : ∀ c ∈ l, P c = true) : l.dropWhile P = [] := by
  induction l with
  | nil => rfl
  | cons c cs ih =>
    simp only [List.dropWhile_cons, h c (List.mem_cons_self _ _), if_true]
    exact ih (fun x hx => h x (List.mem_cons_of_mem _ hx))

theorem all_of_dropWhile_eq_nil (P : Char → Bool) (l : List Char)
    (h : l.dropWhile P = []) : ∀ c ∈ l, P c = true := by
  induction l with
  | nil => intro c hc; simp at hc
  | cons x xs ih =>
    by_cases hx : P x = true
    · simp only [List.dropWhile_cons, hx, if_true] at h
      intro c hc
      rcases List.mem_cons.mp hc with rfl | hc
      · exact hx
      · exact ih h c hc
    · simp [List.dropWhile_cons, hx] at h

/-- Characters of the cutset written before and after a text do not change
what `strings.Trim` returns. -/
theorem Trim_append_cutset (cutset p s q : String)
    (hp : ∀ c ∈ p.data, strings.inCutset cutset c = true)
    (hq : ∀ c ∈ q.data, strings.inCutset cutset c = true) :
    strings.Trim (p ++ s ++ q) cutset = strings.Trim s cutset := by
  have hd : (p ++ s ++ q).data = p.data ++ (s.data ++ q.data) := by
    simp [String.data_append]
  simp only [strings.Trim, hd, dropWhile_append_all _ _ _ hp]
  congr 2
  by_cases hs : s.data.dropWhile (strings.inCutset cutset) = []
  · have hall := all_of_dropWhile_eq_nil _ _ hs
    rw [hs, dropWhile_eq_nil_of_all _ (s.data ++ q.data)
      (by
        intro c hc
        rcases List.mem_append.mp hc with hc | hc
        · exact hall c hc
        · exact hq c hc)]
  · rw [dropWhile_append_of_ne_nil _ _ _ hs, List.reverse_append,
      dropWhile_append_all _ _ _ (by
        intro c hc
        exact hq c (List.mem_reverse.mp hc))]

/-- C16. Outer braces are optional: for each of `parseStatementMapSimple`,
`parseFunctionMapSimple` and `parseBranchMapSimple`, for every text `s` and
all texts `p` and `q` made of the characters `{` and `}` only, decoding
`p ++ s ++ q` returns the same mapping as decoding `s`; in particular
decoding `{` ++ s ++ `}` equals decoding `s`. -/
theorem outer_braces_optional (p s q : String)
    (hp : ∀ c ∈ p.data, c = '{' ∨ c = '}') (hq : ∀ c ∈ q.data, c = '{' ∨ c = '}') :
    parseStatementMapSimple (p ++ s ++ q) = parseStatementMapSimple s ∧
    parseFunctionMapSimple (p ++ s ++ q) = parseFunctionMapSimple s ∧
    parseBranchMapSimple (p ++ s ++ q) = parseBranchMapSimple s ∧
    parseStatementMapSimple ("\x7b" ++ s ++ "\x7d") = parseStatementMapSimple s ∧
    parseFunctionMapSimple ("\x7b" ++ s ++ "\x7d") = parseFunctionMapSimple s ∧
    parseBranchMapSimple ("\x7b" ++ s ++ "\x7d") = parseBranchMapSimple s := by
  have hcut : ∀ c : Char, c = '{' ∨ c = '}' → strings.inCutset "\x7b\x7d" c = true := by
    intro c hc
    rcases hc with rfl | rfl <;> decide
  have h1 := Trim_append_cutset "\x7b\x7d" p s q (fun c hc => hcut c (hp c hc))
    (fun c hc => hcut c (hq c hc))
  have h2 := Trim_append_cutset "\x7b\x7d" "\x7b" s "\x7d" (by decide) (by decide)
  refine ⟨?_, ?_, ?_, ?_, ?_, ?_⟩ <;>
    simp only [parseStatementMapSimple, parseFunctionMapSimple, parseBranchMapSimple, h1, h2]

/-- The witness of C16: two layers of braces around the text
`1:(1,2,3,4),2:(5,6,7,8)` and a stray brace after it. -/
theorem outer_braces_optional_witness :
    ((∀ c ∈ "\x7b\x7b".data, c = '{' ∨ c = '}') ∧
      ∀ c ∈ "\x7d\x7d\x7b".data, c = '{' ∨ c = '}') ∧
    parseStatementMapSimple ("\x7b\x7b" ++ "1:(1,2,3,4),2:(5,6,7,8)" ++ "\x7d\x7d\x7b") =
      parseStatementMapSimple "1:(1,2,3,4),2:(5,6,7,8)" :=
  ⟨by decide, (outer_braces_optional "\x7b\x7b" "1:(1,2,3,4),2:(5,6,7,8)" "\x7d\x7d\x7b"
    (by decide) (by decide)).1⟩

/-! ## Digit runs out of range -/

theorem ParseUint_sat (s : String) (bits : Nat) (hb : bits ≤ 32) (hs : IsDigitRun s) :
    (strconv.ParseUint s bits).1 % 2 ^ bits = sat bits (runValue s) := by
  obtain ⟨_, h1, h2⟩ := ParseUint_digitRun s bits hb hs
  have hpos : 0 < 2 ^ bits := Nat.pow_pos (by norm_num)
  by_cases hv : runValue s < 2 ^ bits
  · rw [h1 hv]
    simp only [sat]
    rw [Nat.mod_eq_of_lt hv, Nat.min_eq_left (by omega)]
  · rw [h2 (by omega)]
    simp only [sat]
    rw [Nat.mod_eq_of_lt (by omega), Nat.min_eq_right (by omega)]

theorem field32_sat (m : List String) (i : Nat) (s : String) (hm : m[i]? = some s)
    (hs : IsDigitRun s) : field32 m i = some (sat 32 (runValue s)) := by
  have hp := ParseUint_sat s 32 (le_refl _) hs
  simp only [field32, hm, Option.bind_eq_bind, Option.some_bind]
  simp only [pure, hp]

theorem readQuad_sat (m : List String) (off : Nat) (a b c d : String)
    (h0 : m[off]? = some a) (h1 : m[off + 1]? = some b) (h2 : m[off + 2]? = some c)
    (h3 : m[off + 3]? = some d) (ha : IsDigitRun a) (hb : IsDigitRun b) (hc : IsDigitRun c)
    (hd : IsDigitRun d) :
    readQuad m off =
      some (sat 32 (runValue a), sat 32 (runValue b), sat 32 (runValue c),
        sat 32 (runValue d)) := by
  simp [readQuad, field32_sat m _ _ h0 ha, field32_sat m _ _ h1 hb, field32_sat m _ _ h2 hc,
    field32_sat m _ _ h3 hd]

/-- C17. Out-of-range digit runs saturate: in every match of a decoder each
captured digit run is stored as its value cut down to 4294967295 (key, line,
column, length, count, position and path components), and the branch type
as its value cut down to 255; the loop body stores the entry for every
match, so no entry is dropped and no field is zeroed, and two entries whose
keys both exceed 4294967295 are stored under the single key 4294967295. -/
theorem out_of_range_saturates (s : String) :
    (∀ v, 4294967295 < v → sat 32 v = 4294967295) ∧ (∀ v, 255 < v → sat 8 v = 255) ∧
    (∀ v, v ≤ 4294967295 → sat 32 v = v) ∧
    (∀ m ∈ regexp.FindAllStringSubmatch statementRe (strings.Trim s "\x7b\x7d"),
      ∃ w dk da db dc dd, m = [w, dk, da, db, dc, dd] ∧ ∀ acc, statementStep acc m =
        some (acc.insert (sat 32 (runValue dk))
          ⟨sat 32 (runValue da), sat 32 (runValue db), sat 32 (runValue dc),
            sat 32 (runValue dd)⟩)) ∧
    (∀ m ∈ regexp.FindAllStringSubmatch functionRe (strings.Trim s "\x7b\x7d"),
      ∃ w dk name dl s1 s2 s3 s4 e1 e2 e3 e4,
        m = [w, dk, name, dl, s1, s2, s3, s4, e1, e2, e3, e4] ∧ ∀ acc, functionStep acc m =
          some (acc.insert (sat 32 (runValue dk))
            ⟨name, sat 32 (runValue dl),
              (sat 32 (runValue s1), sat 32 (runValue s2), sat 32 (runValue s3),
                sat 32 (runValue s4)),
              (sat 32 (runValue e1), sat 32 (runValue e2), sat 32 (runValue e3),
                sat 32 (runValue e4))⟩)) ∧
    (∀ m ∈ regexp.FindAllStringSubmatch branchRe (strings.Trim s "\x7b\x7d"),
      ∃ w dk dt dl p1 p2 p3 p4 x paths, m = [w, dk, dt, dl, p1, p2, p3, p4, x] ∧
        parsePaths x = some paths ∧ ∀ acc, branchStep acc m =
          some (acc.insert (sat 32 (runValue dk))
            ⟨sat 8 (runValue dt), sat 32 (runValue dl),
              (sat 32 (runValue p1), sat 32 (runValue p2), sat 32 (runValue p3),
                sat 32 (runValue p4)), paths⟩)) ∧
    (∀ m ∈ regexp.FindAllStringSubmatch pathRe s,
      ∃ w da db dc dd, m = [w, da, db, dc, dd] ∧ ∀ acc, pathStep acc m =
        some (acc ++ [(sat 32 (runValue da), sat 32 (runValue db), sat 32 (runValue dc),
          sat 32 (runValue dd))])) ∧
    parseStatementMapSimple "\x7b4294967296:(1,2,3,4),99999999999:(5,6,7,8)\x7d" =
      some [(4294967295, { Line := 5, Column := 6, Length := 7, Count := 8 })] := by
  refine ⟨?_, ?_, ?_, ?_, ?_, ?_, ?_, by decide⟩
  · intro v hv
    simp only [sat]
    omega
  · intro v hv
    simp only [sat]
    omega
  · intro v hv
    simp only [sat]
    omega
  · intro m hm
    obtain ⟨w, dk, da, db, dc, dd, rfl, hk, ha, hb, hc, hd⟩ := statement_match_shape _ _ m hm
    refine ⟨w, dk, da, db, dc, dd, rfl, ?_⟩
    intro acc
    simp [statementStep, field32_sat [w, dk, da, db, dc, dd] 1 dk rfl hk,
      field32_sat [w, dk, da, db, dc, dd] 2 da rfl ha,
      field32_sat [w, dk, da, db, dc, dd] 3 db rfl hb,
      field32_sat [w, dk, da, db, dc, dd] 4 dc rfl hc,
      field32_sat [w, dk, da, db, dc, dd] 5 dd rfl hd]
  · intro m hm
    obtain ⟨w, dk, name, dl, s1, s2, s3, s4, e1, e2, e3, e4, rfl, _, hk, hl, h1, h2, h3, h4,
      h5, h6, h7, h8⟩ := function_match_shape _ _ m hm
    refine ⟨w, dk, name, dl, s1, s2, s3, s4, e1, e2, e3, e4, rfl, ?_⟩
    intro acc
    simp [functionStep,
      field32_sat [w, dk, name, dl, s1, s2, s3, s4, e1, e2, e3, e4] 1 dk rfl hk,
      field32_sat [w, dk, name, dl, s1, s2, s3, s4, e1, e2, e3, e4] 3 dl rfl hl,
      readQuad_sat [w, dk, name, dl, s1, s2, s3, s4, e1, e2, e3, e4] 4 s1 s2 s3 s4
        rfl rfl rfl rfl h1 h2 h3 h4,
      readQuad_sat [w, dk, name, dl, s1, s2, s3, s4, e1, e2, e3, e4] 8 e1 e2 e3 e4
        rfl rfl rfl rfl h5 h6 h7 h8]
  · intro m hm
    obtain ⟨w, dk, dt, dl, p1, p2, p3, p4, x, rfl, _, hk, ht, hl, h1, h2, h3, h4⟩ :=
      branch_match_shape _ _ m hm
    obtain ⟨paths, hpaths⟩ := parsePaths_isSome x
    refine ⟨w, dk, dt, dl, p1, p2, p3, p4, x, paths, rfl, hpaths, ?_⟩
    intro acc
    have ht8 := ParseUint_sat dt 8 (by norm_num) ht
    simp only [Nat.reducePow] at ht8
    simp [branchStep, field32_sat [w, dk, dt, dl, p1, p2, p3, p4, x] 1 dk rfl hk,
      field32_sat [w, dk, dt, dl, p1, p2, p3, p4, x] 3 dl rfl hl,
      readQuad_sat [w, dk, dt, dl, p1, p2, p3, p4, x] 4 p1 p2 p3 p4 rfl rfl rfl rfl h1 h2 h3 h4,
      hpaths, ht8]
  · intro m hm
    obtain ⟨w, da, db, dc, dd, rfl, ha, hb, hc, hd⟩ := path_match_shape _ _ m hm
    refine ⟨w, da, db, dc, dd, rfl, ?_⟩
    intro acc
    simp [pathStep, readQuad_sat [w, da, db, dc, dd] 1 da db dc dd rfl rfl rfl rfl ha hb hc hd]

/-! ## Short and long sequences on the native fast path -/

/-- C18. The native fast path drops short sequences and ignores extra
elements: for every native statement map `m` (a map, so no key twice) and
whatever the text fields are, the assembled `StatementMap` contains the key
`k` if and only if `m` contains `k` with a sequence of at least 4 elements,
and its value is then `{Line: toUint32(m[k][0]), Column: toUint32(m[k][1]),
Length: toUint32(m[k][2]), Count: toUint32(m[k][3])}`, whatever the elements
after the fourth are. -/
theorem native_fast_path (h : String) (t : Nat) (m : GoMap (List GoValue))
    (hkeys : (GoMap.keys m).Nodup) (f b rs rf rb : String) :
    ∃ r, querySingleRecord h m f b rs rf rb t = some r ∧
      (∀ k, GoMap.find r.StatementMap k =
        match GoMap.find m k with
        | some (s0 :: s1 :: s2 :: s3 :: _) =>
          some { Line := toUint32 s0, Column := toUint32 s1, Length := toUint32 s2,
                 Count := toUint32 s3 }
        | _ => none) ∧
      ∀ k, (GoMap.find r.StatementMap k).isSome = true ↔
        ∃ stmt, GoMap.find m k = some stmt ∧ 4 ≤ stmt.length := by
  obtain ⟨fn, br, rst, rfn, rbr, _, _, _, _, _, hq⟩ :=
    querySingleRecord_some h t m hkeys f b rs rf rb
  have hfind : ∀ k, GoMap.find
      (m.filterMap (fun e => (nativeCell e.2).map (fun v => (e.1, v)))) k =
      match GoMap.find m k with
      | some (s0 :: s1 :: s2 :: s3 :: _) =>
        some { Line := toUint32 s0, Column := toUint32 s1, Length := toUint32 s2,
               Count := toUint32 s3 }
      | _ => none := by
    intro k
    rw [native_find k m hkeys]
    cases GoMap.find m k with
    | none => rfl
    | some stmt =>
      rcases stmt with _ | ⟨a, _ | ⟨b, _ | ⟨c, _ | ⟨d, rest⟩⟩⟩⟩ <;> rfl
  refine ⟨_, hq, hfind, ?_⟩
  intro k
  simp only [hfind k]
  cases GoMap.find m k with
  | none => simp
  | some stmt =>
    rcases stmt with _ | ⟨a, _ | ⟨b, _ | ⟨c, _ | ⟨d, rest⟩⟩⟩⟩ <;> simp

/-- The witness of C18: a map with a short sequence, a long one and one of
four elements, two of them of unsupported types. -/
theorem native_fast_path_witness :
    ∃ r, querySingleRecord "h"
          [(1, [GoValue.uint32 1, GoValue.uint32 2, GoValue.uint32 3]),
           (2, [GoValue.uint64 4294967296, GoValue.int32 (-1), GoValue.string "x",
             GoValue.uint8 9, GoValue.uint32 77]),
           (3, [GoValue.int 5, GoValue.int64 6, GoValue.uint32 7, GoValue.uint64 8])]
          "" "" "" "" "" 0 = some r ∧
      GoMap.find r.StatementMap 1 = none ∧
      GoMap.find r.StatementMap 2 = some ⟨0, 4294967295, 0, 0⟩ ∧
      GoMap.find r.StatementMap 3 = some ⟨5, 6, 7, 8⟩ :=
  have hx := native_fast_path "h" 0
    [(1, [GoValue.uint32 1, GoValue.uint32 2, GoValue.uint32 3]),
     (2, [GoValue.uint64 4294967296, GoValue.int32 (-1), GoValue.string "x",
       GoValue.uint8 9, GoValue.uint32 77]),
     (3, [GoValue.int 5, GoValue.int64 6, GoValue.uint32 7, GoValue.uint64 8])]
    (by decide) "" "" "" "" ""
  Exists.elim hx (fun r hr => ⟨r, hr.1, by rw [hr.2.1 1]; rfl, by rw [hr.2.1 2]; rfl,
    by rw [hr.2.1 3]; rfl⟩)

/-! ## A branch entry with no path -/

theorem branchEntryWith_data (k t l : Nat) (p : Quad) (x : String) :
    (branchEntryWith k t l p x).data =
      Nat.toDigits 10 k ++ ':' :: '(' :: (Nat.toDigits 10 t ++ ',' :: (Nat.toDigits 10 l ++ ',' ::
        ((quadText p).data ++ ',' :: '[' :: (x.data ++ [']', ')'])))) := by
  simp [branchEntryWith, dec_data, String.data_append]

/-- The branch pattern matches the text of a branch entry whose brackets
enclose a text without `]`, whatever follows it. -/
theorem matchItems_branchEntryWith (k t l : Nat) (p : Quad) (x : String)
    (hx : ']' ∉ x.data) (s : List Char) :
    matchItems branchRe ((branchEntryWith k t l p x).data ++ s) =
      some (Nat.toDigits 10 k :: Nat.toDigits 10 t :: Nat.toDigits 10 l ::
        (quadCaps p ++ [x.data]), s) := by
  rw [branchEntryWith_data]
  simp only [List.cons_append, List.append_assoc, List.nil_append, branchRe]
  refine matchItems_number k ':' (by decide) _ _ _ _ ?_
  simp only [matchItems_lit]
  refine matchItems_number t ',' (by decide) _ _ _ _ ?_
  refine matchItems_number l ',' (by decide) _ _ _ _ ?_
  refine matchItems_quad p _ _ _ _ ?_
  simp only [matchItems_lit]
  have h := matchItems_capStar (notChar ']') [Item.lit ']', Item.lit ')']
    x.data (']' :: ')' :: s)
    (by
      intro c hc
      simp only [notChar, bne_iff_ne, ne_eq]
      rintro rfl
      exact hx hc)
    (by intro c t hct; cases hct; simp [notChar]) [] s (by simp [matchItems])
  simpa using h

theorem branchStep_entryWith (result : GoMap BranchInfo) (w : String) (k t l : Nat)
    (p : Quad) (x : String) (paths : List Quad) (hk : k < 2 ^ 32) (ht : t < 2 ^ 8)
    (hl : l < 2 ^ 32) (hp : Quad.inRange p) (hpaths : parsePaths x = some paths) :
    branchStep result (w :: (Nat.toDigits 10 k :: Nat.toDigits 10 t ::
        Nat.toDigits 10 l :: (quadCaps p ++ [x.data])).map String.mk) =
      some (result.insert k ⟨t, l, p, paths⟩) := by
  obtain ⟨p1, p2, p3, p4⟩ := p
  obtain ⟨h1, h2, h3, h4⟩ := hp
  simp only [quadCaps, List.map_cons, List.map_nil, List.cons_append, List.nil_append] at *
  have hmod : t % 256 = t := Nat.mod_eq_of_lt (by omega)
  have hpx : parsePaths (String.mk x.data) = some paths := hpaths
  simp [branchStep, field32_dec _ 1 k hk, field32_dec _ 3 l hl,
    readQuad_dec _ 4 p1 p2 p3 p4 h1 h2 h3 h4, ParseUint_dec t 8 (by norm_num) ht, hpx, hmod]

/-- The branch decoder on a braced entry whose brackets enclose a text
without `]`: the paths are what `parsePaths` finds in that text. -/
theorem parseBranch_entryWith (k t l : Nat) (p : Quad) (x : String) (paths : List Quad)
    (hk : k < 2 ^ 32) (ht : t < 2 ^ 8) (hl : l < 2 ^ 32) (hp : Quad.inRange p)
    (hx : ']' ∉ x.data) (hpaths : parsePaths x = some paths) :
    parseBranchMapSimple ("\x7b" ++ branchEntryWith k t l p x ++ "\x7d") =
      some [(k, ⟨t, l, p, paths⟩)] := by
  obtain ⟨hk1, hk2, _⟩ := toDigits_spec k
  have hscan := scan_braced branchRe ')' (by decide) (findFirst_nil_capPlus _ _)
    [([], (branchEntryWith k t l p x).data,
      Nat.toDigits 10 k :: Nat.toDigits 10 t :: Nat.toDigits 10 l :: (quadCaps p ++ [x.data]))]
    (by simp) (by simp)
    (by
      intro g hg
      simp only [List.mem_singleton] at hg
      subst hg
      refine ⟨fun s => matchItems_branchEntryWith k t l p x hx s, ?_, ?_⟩
      · simp only [branchEntryWith_data]
        cases hd : Nat.toDigits 10 k with
        | nil => exact absurd hd hk1
        | cons c cs =>
          exact ⟨c, _, rfl, isDigit_not_brace c (hk2 c (by rw [hd]; exact List.mem_cons_self _ _))⟩
      · simp only [branchEntryWith_data]
        exact ⟨Nat.toDigits 10 k ++ ':' :: '(' :: (Nat.toDigits 10 t ++ ',' ::
          (Nat.toDigits 10 l ++ ',' :: ((quadText p).data ++ ',' :: '[' :: (x.data ++ [']'])))),
          by simp⟩)
  have htext : "\x7b" ++ branchEntryWith k t l p x ++ "\x7d" =
      String.mk ('{' :: (segText [([], (branchEntryWith k t l p x).data,
        Nat.toDigits 10 k :: Nat.toDigits 10 t :: Nat.toDigits 10 l ::
          (quadCaps p ++ [x.data]))] ++ ['}'])) := by
    rw [braced_data]
    simp [segText]
  have hstep := branchStep_entryWith GoMap.empty (String.mk (branchEntryWith k t l p x).data)
    k t l p x paths hk ht hl hp hpaths
  simp only [List.map_cons] at hstep
  simp only [parseBranchMapSimple, htext, hscan, List.map_cons, List.map_nil, List.foldlM_cons,
    List.foldlM_nil, hstep]
  rfl

theorem parsePaths_of_no_match (x : String)
    (h : regexp.FindAllStringSubmatch pathRe x = []) : parsePaths x = some [] := by
  simp [parsePaths, h]

theorem branch_text_with (k t l : Nat) (p : Quad) (x : String) :
    "\x7b" ++ toString k ++ ":(" ++ toString t ++ "," ++ toString l ++ "," ++ quadText p ++
        ",[" ++ x ++ "])\x7d" =
      "\x7b" ++ branchEntryWith k t l p x ++ "\x7d" := by
  apply String.ext
  simp [branchEntryWith, dec, String.data_append]

/-- C19. A branch entry with an empty path list is accepted: for every key
`k`, type `t` in the unsigned 8-bit range and line and position values in
the unsigned 32-bit range, `parseBranchMapSimple` applied to
`{k:(t,l,(p1,p2,p3,p4),[])}` returns the one-entry mapping for `k` with
those values and a `Paths` sequence of length 0; and the same holds when the
brackets enclose a text `x` that holds no 4-field tuple (the path pattern
has no match in it) and no `]`. -/
theorem branch_empty_paths (k t l : Nat) (p : Quad) (x : String) (hk : k < 2 ^ 32)
    (ht : t < 2 ^ 8) (hl : l < 2 ^ 32) (hp : Quad.inRange p) (hx : ']' ∉ x.data)
    (hnone : regexp.FindAllStringSubmatch pathRe x = []) :
    parseBranchMapSimple
        ("\x7b" ++ toString k ++ ":(" ++ toString t ++ "," ++ toString l ++ "," ++ quadText p ++
          ",[])\x7d") =
      some [(k, { Typ := t, Line := l, Position := p, Paths := [] })] ∧
    parseBranchMapSimple
        ("\x7b" ++ toString k ++ ":(" ++ toString t ++ "," ++ toString l ++ "," ++ quadText p ++
          ",[" ++ x ++ "])\x7d") =
      some [(k, { Typ := t, Line := l, Position := p, Paths := [] })] ∧
    ∀ r v, parseBranchMapSimple
        ("\x7b" ++ toString k ++ ":(" ++ toString t ++ "," ++ toString l ++ "," ++ quadText p ++
          ",[" ++ x ++ "])\x7d") = some r → GoMap.find r k = some v → v.Paths.length = 0 := by
  have h2 := parseBranch_entryWith k t l p x [] hk ht hl hp hx (parsePaths_of_no_match x hnone)
  have h1 := parseBranch_entryWith k t l p "" [] hk ht hl hp (by simp) (by decide)
  rw [← branch_text_with] at h1 h2
  have htxt : "\x7b" ++ toString k ++ ":(" ++ toString t ++ "," ++ toString l ++ "," ++
      quadText p ++ ",[" ++ "" ++ "])\x7d" =
      "\x7b" ++ toString k ++ ":(" ++ toString t ++ "," ++ toString l ++ "," ++
      quadText p ++ ",[])\x7d" := by
    apply String.ext
    simp [String.data_append]
  rw [htxt] at h1
  refine ⟨h1, h2, ?_⟩
  intro r v hr hv
  rw [h2] at hr
  cases hr
  simp [GoMap.find] at hv
  rw [← hv]
  rfl

/-- The witness of C19: brackets that enclose the text `(1,2,3),x`, which
holds no 4-field tuple. -/
theorem branch_empty_paths_witness :
    (']' ∉ "(1,2,3),x".data ∧ regexp.FindAllStringSubmatch pathRe "(1,2,3),x" = []) ∧
    parseBranchMapSimple
        ("\x7b" ++ toString 5 ++ ":(" ++ toString 2 ++ "," ++ toString 3 ++ "," ++
          quadText (4, 5, 6, 7) ++ ",[" ++ "(1,2,3),x" ++ "])\x7d") =
      some [(5, { Typ := 2, Line := 3, Position := (4, 5, 6, 7), Paths := [] })] :=
  ⟨by decide, (branch_empty_paths 5 2 3 (4, 5, 6, 7) "(1,2,3),x" (by decide) (by decide)
    (by decide) (by decide) (by decide) (by decide)).2.1⟩

end Canyon
